import Mathlib

/-!
Shallow embedding of the pathfinding-visualizer core: the `Node`/`Grid` data
model, serialization, recursive-division maze generation with connectivity
repair, and the two search algorithms (Dijkstra and A*), together with proofs
of the specified properties.

Positions are `(row, col)` pairs of naturals.  JavaScript node references are
modelled as positions: grid cells are uniquely keyed by their position, and
every node reference held by the algorithms points into the grid's cell
storage, so reference equality coincides with position equality.  DOM-related
state (`element`, `updateVisualState`) is display-only and not modelled.
JavaScript numeric `Infinity` on distances and scores is modelled by
`(⊤ : WithTop Nat)`; all finite values arising in the algorithms are sums of
natural-number weights.
-/

abbrev Pos : Type := Nat × Nat

/-- A single cell of the grid, with the persistent fields (position, role,
wall flag, weight) and the transient search annotations, mirroring the
`Node` class constructor. -/
structure Node where
  row : Nat
  col : Nat
  isStart : Bool
  isEnd : Bool
  isWall : Bool
  weight : Nat
  isExplored : Bool
  isPath : Bool
  distance : WithTop Nat
  previousNode : Option Pos
  gScore : WithTop Nat
  fScore : WithTop Nat
  hScore : Nat
deriving Repr, DecidableEq

/-- A freshly constructed node, as in the `Node` constructor. -/
def defaultNode (row col : Nat) : Node :=
  { row := row, col := col, isStart := false, isEnd := false, isWall := false,
    weight := 1, isExplored := false, isPath := false, distance := ⊤,
    previousNode := none, gScore := ⊤, fScore := ⊤, hScore := 0 }

/-- `Node.reset`: clear the transient search annotations. -/
def Node.reset (n : Node) : Node :=
  { n with isExplored := false, isPath := false, distance := ⊤,
           previousNode := none, gScore := ⊤, fScore := ⊤, hScore := 0 }

/-- `Node.resetCompletely`. -/
def Node.resetCompletely (n : Node) : Node :=
  Node.reset { n with isStart := false, isEnd := false, isWall := false, weight := 1 }

/-- `Node.setAsStart`. -/
def Node.setAsStart (n : Node) : Node :=
  { n with isStart := true, isEnd := false, isWall := false }

/-- `Node.setAsEnd`. -/
def Node.setAsEnd (n : Node) : Node :=
  { n with isEnd := true, isStart := false, isWall := false }

/-- `Node.setAsWall`: refuses to turn the Start or End cell into a wall. -/
def Node.setAsWall (n : Node) : Node :=
  if !n.isStart && !n.isEnd then { n with isWall := true, weight := 1 } else n

/-- `Node.setWeight`: only plain cells (not Start, End, or wall) take a weight. -/
def Node.setWeight (n : Node) (weight : Nat) : Node :=
  if !n.isStart && !n.isEnd && !n.isWall then { n with weight := weight } else n

/-- `Node.clear`: the eraser tool; refuses to touch the Start or End cell. -/
def Node.clear (n : Node) : Node :=
  if !n.isStart && !n.isEnd then
    { n with isWall := false, weight := 1, isExplored := false, isPath := false }
  else n

/-- `Node.markAsExplored`. -/
def Node.markAsExplored (n : Node) : Node :=
  { n with isExplored := true }

/-- `Node.markAsPath`. -/
def Node.markAsPath (n : Node) : Node :=
  { n with isPath := true }

/-- `Node.isTraversable`. -/
def Node.isTraversable (n : Node) : Bool :=
  !n.isWall

/-- `Node.getMovementCost`. -/
def Node.getMovementCost (n : Node) : Nat :=
  n.weight

/-- `Node.manhattanDistanceTo`. -/
def Node.manhattanDistanceTo (n other : Node) : Nat :=
  ((n.row : Int) - other.row).natAbs + ((n.col : Int) - other.col).natAbs

/-- The serialized form of a node: exactly the six persistent fields emitted
by `Node.serialize`; no transient annotation is part of this record. -/
structure SNode where
  row : Nat
  col : Nat
  isStart : Bool
  isEnd : Bool
  isWall : Bool
  weight : Nat
deriving Repr, DecidableEq

/-- `Node.serialize`. -/
def Node.serialize (n : Node) : SNode :=
  { row := n.row, col := n.col, isStart := n.isStart, isEnd := n.isEnd,
    isWall := n.isWall, weight := n.weight }

/-- `Node.deserialize`: `data.isStart || false` is the identity on booleans;
`data.weight || 1` maps the (falsy) weight `0` to `1`. -/
def Node.deserialize (n : Node) (d : SNode) : Node :=
  { n with isStart := d.isStart, isEnd := d.isEnd, isWall := d.isWall,
           weight := if d.weight = 0 then 1 else d.weight }

/-- The grid: dimensions, the cell matrix (total over positions; the code only
ever reads in-bounds cells), and the stored Start/End node references,
modelled as positions (`none` is JavaScript `null`). -/
structure Grid where
  rows : Nat
  cols : Nat
  cells : Pos → Node
  startNode : Option Pos
  endNode : Option Pos

/-- Replace the cell at one position. -/
def Grid.setCell (g : Grid) (p : Pos) (n : Node) : Grid :=
  { g with cells := fun q => if q = p then n else g.cells q }

/-- `Grid.isValidPosition`. -/
def Grid.isValidPosition (g : Grid) (row col : Nat) : Bool :=
  decide (row < g.rows) && decide (col < g.cols)

/-- `Grid.setStartNode`: a silent no-op when the target is the End cell's
position; otherwise clears wall and weight on the destination, clears the
previous Start role, and moves the stored reference. -/
def Grid.setStartNode (g : Grid) (row col : Nat) : Grid :=
  if g.endNode = some (row, col) then g
  else
    let g1 := g.setCell (row, col)
      { g.cells (row, col) with isWall := false, weight := 1 }
    let g2 :=
      match g1.startNode with
      | some sp => g1.setCell sp { g1.cells sp with isStart := false }
      | none => g1
    let g3 := { g2 with startNode := some (row, col) }
    g3.setCell (row, col) (Node.setAsStart (g3.cells (row, col)))

/-- `Grid.setEndNode`: symmetric to `Grid.setStartNode`. -/
def Grid.setEndNode (g : Grid) (row col : Nat) : Grid :=
  if g.startNode = some (row, col) then g
  else
    let g1 := g.setCell (row, col)
      { g.cells (row, col) with isWall := false, weight := 1 }
    let g2 :=
      match g1.endNode with
      | some ep => g1.setCell ep { g1.cells ep with isEnd := false }
      | none => g1
    let g3 := { g2 with endNode := some (row, col) }
    g3.setCell (row, col) (Node.setAsEnd (g3.cells (row, col)))

/-- `Grid.initializeGrid`: rebuild the matrix with fresh default nodes, then
re-establish Start at `(0,0)` and End at `(rows-1, cols-1)`. -/
def Grid.initializeGrid (g : Grid) : Grid :=
  let g1 : Grid := { g with cells := fun p => defaultNode p.1 p.2 }
  let g2 := g1.setStartNode 0 0
  g2.setEndNode (g.rows - 1) (g.cols - 1)

/-- The `Grid` constructor. -/
def Grid.create (rows cols : Nat) : Grid :=
  Grid.initializeGrid
    { rows := rows, cols := cols, cells := fun p => defaultNode p.1 p.2,
      startNode := none, endNode := none }

/-- `Grid.resize`. -/
def Grid.resize (g : Grid) (newRows newCols : Nat) : Grid :=
  Grid.initializeGrid { g with rows := newRows, cols := newCols }

/-- `Grid.getNeighbors`: the in-bounds orthogonal neighbours, produced in the
fixed direction order up, down, left, right. -/
def Grid.getNeighbors (g : Grid) (node : Node) : List Pos :=
  let directions : List (Int × Int) := [(-1, 0), (1, 0), (0, -1), (0, 1)]
  directions.foldl
    (fun acc d =>
      let newRow : Int := (node.row : Int) + d.1
      let newCol : Int := (node.col : Int) + d.2
      if 0 ≤ newRow ∧ newRow < (g.rows : Int) ∧ 0 ≤ newCol ∧ newCol < (g.cols : Int) then
        acc ++ [(newRow.toNat, newCol.toNat)]
      else acc)
    []

/-- Row-major list of all in-bounds positions. -/
def Grid.allPositions (g : Grid) : List Pos :=
  ((List.range g.rows).map fun r => (List.range g.cols).map fun c => (r, c)).flatten

/-- `Grid.getAllNodes`, as the row-major list of positions of all cells. -/
def Grid.getAllNodes (g : Grid) : List Pos :=
  g.allPositions

/-- `Grid.getNode`. -/
def Grid.getNode (g : Grid) (row col : Nat) : Option Pos :=
  if row < g.rows ∧ col < g.cols then some (row, col) else none

/-- `Grid.resetAlgorithmStates`: reset the transient annotations of every
in-bounds cell. -/
def Grid.resetAlgorithmStates (g : Grid) : Grid :=
  { g with cells := fun p =>
      if p.1 < g.rows ∧ p.2 < g.cols then (g.cells p).reset else g.cells p }

/-- `Grid.clearGrid`. -/
def Grid.clearGrid (g : Grid) : Grid :=
  let g1 : Grid := { g with cells := fun p =>
      if p.1 < g.rows ∧ p.2 < g.cols then (g.cells p).resetCompletely else g.cells p }
  (g1.setStartNode 0 0).setEndNode (g.rows - 1) (g.cols - 1)

/-- A persisted grid record.  `nodes = none` models a malformed record whose
cell array is missing (accessing it inside the population loop throws). -/
structure GridData where
  rows : Nat
  cols : Nat
  nodes : Option (List (List SNode))
deriving Repr, DecidableEq

/-- `Grid.serialize`. -/
def Grid.serialize (g : Grid) : GridData :=
  { rows := g.rows, cols := g.cols,
    nodes := some ((List.range g.rows).map fun r =>
      (List.range g.cols).map fun c => (g.cells (r, c)).serialize) }

/-- One population step of `Grid.deserialize` at position `p`: look up the
row-major record entry (skipping the cell when the record has none), apply
`Node.deserialize`, and update the stored Start/End references from the
restored flags. -/
def Grid.deserializeCell (nodes : List (List SNode)) (g : Grid) (p : Pos) : Grid :=
  match (nodes.get? p.1).bind fun rowData => rowData.get? p.2 with
  | none => g
  | some d =>
    let g1 := g.setCell p ((g.cells p).deserialize d)
    let g2 := if (g1.cells p).isStart then { g1 with startNode := some p } else g1
    if (g2.cells p).isEnd then { g2 with endNode := some p } else g2

/-- `Grid.deserialize`, instrumented with a thrown-exception flag: resize
first when the declared dimensions differ, then populate cell by cell;
a missing cell array throws on the first loop iteration (so only when both
dimensions are positive), leaving the grid as mutated so far. -/
def Grid.deserializeEx (g : Grid) (data : GridData) : Grid × Bool :=
  let g1 := if data.rows ≠ g.rows ∨ data.cols ≠ g.cols
            then g.resize data.rows data.cols else g
  match data.nodes with
  | none => (g1, decide (0 < g1.rows) && decide (0 < g1.cols))
  | some nodes => (g1.allPositions.foldl (Grid.deserializeCell nodes) g1, false)

/-- `Grid.deserialize` (the exception propagates to the caller; the grid is
left as mutated so far). -/
def Grid.deserialize (g : Grid) (data : GridData) : Grid :=
  (g.deserializeEx data).1

/-- `StorageManager.loadGrid`: `none` models a missing saved record ("No
saved grid found"); an exception thrown by `Grid.deserialize` is caught and
reported as failure.  Returns the grid after the attempt and the success
flag. -/
def loadGrid (g : Grid) (record : Option GridData) : Grid × Bool :=
  match record with
  | none => (g, false)
  | some data =>
    let r := g.deserializeEx data
    (r.1, !r.2)

/-!
## Randomness

`Math.random()` draws are modelled by a stream of naturals.  A call
`Math.floor(Math.random() * n)` consumes one entry `k` and yields `k % n`
(every value in `[0, n)` is realizable by some real draw, and every real draw
realizes some entry); a call `Math.random() < 0.5` consumes one entry and
yields whether it is odd.  Quantifying over all streams covers exactly the
behaviours of all sequences of real random draws.
-/

/-- `Math.floor(Math.random() * n)`. -/
def drawNat (n : Nat) : List Nat → Nat × List Nat
  | [] => (0, [])
  | k :: rest => (k % n, rest)

/-- `Math.random() < 0.5`. -/
def drawBool : List Nat → Bool × List Nat
  | [] => (false, [])
  | k :: rest => (k % 2 == 1, rest)

/-- One wall line of `Grid._recursiveDivision`: wall every cell of the line
except the passage, skipping Start/End cells (`Node.setAsWall` re-checks the
role guard as in the source). -/
def Grid.divisionWalls (g : Grid) (wx wy px py dx dy length : Nat) : Grid :=
  (List.range length).foldl
    (fun g i =>
      let nx := wx + i * dx
      let ny := wy + i * dy
      if (nx ≠ px ∨ ny ≠ py) ∧ g.isValidPosition ny nx = true ∧
          (g.cells (ny, nx)).isStart = false ∧ (g.cells (ny, nx)).isEnd = false then
        g.setCell (ny, nx) ((g.cells (ny, nx)).setAsWall)
      else g)
    g

/-- `Grid._recursiveDivision`.  The fuel only bounds the recursion depth;
every recursive call shrinks `height + width`, so fuel `rows + cols + 1`
(what `generateRandomMaze` passes) is never exhausted. -/
def Grid.recursiveDivision : Nat → Grid → Nat → Nat → Nat → Nat → Bool → List Nat → Grid × List Nat
  | 0, g, _, _, _, _, _, rng => (g, rng)
  | fuel + 1, g, row, col, height, width, horizontal, rng =>
    if height < 3 ∨ width < 3 then (g, rng)
    else
      let isH := horizontal
      let r1 := drawNat (if isH then height - 2 else width - 2) rng
      let wx := col + (if isH then 0 else r1.1)
      let wy := row + (if isH then r1.1 else 0)
      let r2 := drawNat (if isH then width else height) r1.2
      let px := wx + (if isH then r2.1 else 0)
      let py := wy + (if isH then 0 else r2.1)
      let dx := if isH then 1 else 0
      let dy := if isH then 0 else 1
      let length := if isH then width else height
      let g := g.divisionWalls wx wy px py dx dy length
      let h1 := if isH then wy - row + 1 else height
      let w1 := if isH then width else wx - col + 1
      let pr := Grid.recursiveDivision fuel g row col h1 w1 (!isH) r2.2
      let h2 := if isH then row + height - (wy + 1) else height
      let w2 := if isH then width else col + width - (wx + 1)
      let row2 := if isH then wy + 1 else row
      let col2 := if isH then col else wx + 1
      Grid.recursiveDivision fuel pr.1 row2 col2 h2 w2 (!isH) pr.2

/-- The breadth-first reachability check of `Grid._ensureRandomPathExists`:
pop the queue head; succeed when it is the End reference; otherwise enqueue
every unvisited non-wall neighbour.  Fuel-driven; each iteration either pops
without pushing or pushes fresh visited entries, so fuel
`2 * rows * cols + 1` is never exhausted (see `bfsFindEnd_complete`). -/
def Grid.bfsFindEnd (g : Grid) : Nat → List Pos → List Pos → Bool
  | 0, _, _ => false
  | _, [], _ => false
  | fuel + 1, node :: rest, visited =>
    if some node = g.endNode then true
    else
      let qv := (g.getNeighbors (g.cells node)).foldl
        (fun (qv : List Pos × List Pos) nb =>
          if (g.cells nb).isWall = false ∧ nb ∉ qv.2 then
            (qv.1 ++ [nb], qv.2 ++ [nb])
          else qv)
        (rest, visited)
      g.bfsFindEnd fuel qv.1 qv.2

/-- The option list built by one step of the repair walk: the
Manhattan-reducing moves first, then the four coin-guarded perpendicular
detours (each coin is drawn even when the bound check fails, as in
`Math.random() < 0.5 && ...`).  Returns the options together with the
stream after the four coin draws. -/
def Grid.carveOptions (g : Grid) (endR endC r c : Nat) (rng : List Nat) : List Pos × List Nat :=
  let options : List Pos :=
    (if r < endR then [(r + 1, c)] else []) ++
    (if endR < r then [(r - 1, c)] else []) ++
    (if c < endC then [(r, c + 1)] else []) ++
    (if endC < c then [(r, c - 1)] else [])
  let b1 := drawBool rng
  let options := options ++ (if b1.1 ∧ 0 < r then [(r - 1, c)] else [])
  let b2 := drawBool b1.2
  let options := options ++ (if b2.1 ∧ r < g.rows - 1 then [(r + 1, c)] else [])
  let b3 := drawBool b2.2
  let options := options ++ (if b3.1 ∧ 0 < c then [(r, c - 1)] else [])
  let b4 := drawBool b3.2
  let options := options ++ (if b4.1 ∧ c < g.cols - 1 then [(r, c + 1)] else [])
  (options, b4.2)

/-- The random repair walk of `Grid._ensureRandomPathExists`: from `(r, c)`
walk toward `(endR, endC)`, preferring Manhattan-reducing moves with four
coin-guarded perpendicular detour options per step; the fuel is the
`maxSteps = rows * cols * 2` bound of the source.  Returns the walked path
(in order, starting cell included) and the remaining stream. -/
def Grid.carveWalkLoop (g : Grid) (endR endC : Nat) : Nat → Nat → Nat → List Pos → List Nat → List Pos × List Nat
  | 0, _, _, path, rng => (path, rng)
  | fuel + 1, r, c, path, rng =>
    if r = endR ∧ c = endC then (path, rng)
    else
      let op := g.carveOptions endR endC r c rng
      let ri := drawNat op.1.length op.2
      let next := op.1.getD ri.1 (r, c)
      g.carveWalkLoop endR endC fuel next.1 next.2 (path ++ [next]) ri.2

/-- `Grid._ensureRandomPathExists`, instrumented: the second component is
`none` when the BFS check already found End (no repair), and `some path`
(the walked cells) when the repair walk ran.  Walls are cleared along the
walked cells, skipping Start/End cells. -/
def Grid.ensureInfo (g : Grid) (rng : List Nat) : Grid × Option (List Pos) :=
  match g.startNode with
  | none => (g, none)
  | some s =>
    match g.endNode with
    | none => (g, none)
    | some e =>
      let found := g.bfsFindEnd (2 * (g.rows * g.cols) + 1) [s] [s]
      if found then (g, none)
      else
        let pr := g.carveWalkLoop e.1 e.2 (g.rows * g.cols * 2) s.1 s.2 [(s.1, s.2)] rng
        let g2 := pr.1.foldl
          (fun g p =>
            if (g.cells p).isStart = false ∧ (g.cells p).isEnd = false then
              g.setCell p { g.cells p with isWall := false }
            else g)
          g
        (g2, some pr.1)

/-- `Grid._ensureRandomPathExists`. -/
def Grid.ensureRandomPathExists (g : Grid) (rng : List Nat) : Grid :=
  (g.ensureInfo rng).1

/-- The clearing pass at the top of `Grid.generateRandomMaze`: apply
`Node.clear` to every in-bounds cell (the role guard is inside
`Node.clear`, exactly as at the call site). -/
def Grid.mazeCleared (g : Grid) : Grid :=
  { g with cells := fun p =>
      if p.1 < g.rows ∧ p.2 < g.cols then (g.cells p).clear else g.cells p }

/-- The grid after the clearing pass and the recursive division of
`Grid.generateRandomMaze`, together with the remaining random stream. -/
def Grid.mazeDivided (g : Grid) (rng : List Nat) : Grid × List Nat :=
  Grid.recursiveDivision (g.rows + g.cols + 1) g.mazeCleared 0 0 g.rows g.cols true rng

/-- `Grid.generateRandomMaze`: clear every non-special cell, run recursive
division from the full grid with a horizontal first orientation, then the
connectivity repair. -/
def Grid.generateRandomMaze (g : Grid) (rng : List Nat) : Grid :=
  ((g.mazeDivided rng).1.ensureInfo (g.mazeDivided rng).2).1

/-- The breadth-first reachability check of the connectivity guarantee,
exactly as `_ensureRandomPathExists` runs it. -/
def Grid.bfsReachable (g : Grid) : Bool :=
  match g.startNode with
  | some s => g.bfsFindEnd (2 * (g.rows * g.cols) + 1) [s] [s]
  | none => false

/-- The data-model invariant of a populated grid: the stored Start/End
references point at distinct in-bounds cells whose role flags are set
exactly there, roles exclude walls, every cell records its own position,
and weights are positive. -/
def Grid.WF (g : Grid) (s e : Pos) : Prop :=
  g.startNode = some s ∧ g.endNode = some e ∧
  s.1 < g.rows ∧ s.2 < g.cols ∧ e.1 < g.rows ∧ e.2 < g.cols ∧ s ≠ e ∧
  (g.cells s).isWall = false ∧ (g.cells e).isWall = false ∧
  (∀ p ∈ g.allPositions, (g.cells p).row = p.1 ∧ (g.cells p).col = p.2) ∧
  (∀ p ∈ g.allPositions, ((g.cells p).isStart = true ↔ p = s)) ∧
  (∀ p ∈ g.allPositions, ((g.cells p).isEnd = true ↔ p = e)) ∧
  (∀ p ∈ g.allPositions, 1 ≤ (g.cells p).weight)

instance (g : Grid) (s e : Pos) : Decidable (g.WF s e) := by
  unfold Grid.WF
  infer_instance

/-!
## The two search algorithms

Both are embedded as fuel-driven loops over explicit states; the per-node
mutable fields (`distance`, `previousNode`, `gScore`, `fScore`,
`isExplored`) live in the grid's cells exactly as in the source.  The
JavaScript `Array.prototype.sort` with comparator `a.distance - b.distance`
is a stable sort by the key (an `Infinity - Infinity` comparator result is
`NaN`, which sort treats as `0`, i.e. a tie); the stable sort of a list by a
total preorder is unique, so `List.mergeSort` models it exactly.  Animation
delays and the cooperative-stop flag are display pacing only and are not
modelled: the runs below are the run-to-completion executions in which no
stop signal is ever observed.
-/

/-- The terminal result payload of a search. -/
structure SearchResult where
  success : Bool
  nodesExplored : Nat
  pathLength : Nat
  path : List Pos
deriving Repr, DecidableEq

/-- `reconstructPath` helper: follow `previousNode` links, prepending each
visited cell; fuel-driven (the source loops until a `null` link, which the
acyclicity invariant guarantees within `rows * cols` steps). -/
def reconstructPathAux (g : Grid) : Nat → Option Pos → List Pos → List Pos
  | 0, _, acc => acc
  | _ + 1, none, acc => acc
  | fuel + 1, some p, acc => reconstructPathAux g fuel ((g.cells p).previousNode) (p :: acc)

/-- `reconstructPath` (shared by both algorithms): the cells from Start to
End inclusive, following `previousNode` links back from End. -/
def Grid.reconstructPath (g : Grid) (endPos : Pos) : List Pos :=
  reconstructPathAux g (g.rows * g.cols + 1) (some endPos) []

/-- Comparator of the Dijkstra frontier sort (`a.distance - b.distance`):
the frontier is stably sorted by distance (comparator value `NaN` from
`Infinity - Infinity` counts as a tie).  The stable sort of a list by a
total preorder is unique, so the structurally recursive
`List.insertionSort` (which is stable) is the exact model of the runtime
sort. -/
def distLE (g : Grid) (a b : Pos) : Prop :=
  (g.cells a).distance ≤ (g.cells b).distance

instance (g : Grid) : DecidableRel (distLE g) := fun a b => by
  unfold distLE
  infer_instance

instance (g : Grid) : IsTotal Pos (distLE g) :=
  ⟨fun a b => le_total ((g.cells a).distance) ((g.cells b).distance)⟩

instance (g : Grid) : IsTrans Pos (distLE g) :=
  ⟨fun _ _ _ => le_trans⟩

/-- `DijkstraAlgorithm.updateNeighbors`: relax every non-wall neighbour of
the popped cell. -/
def dijkstraRelax (g : Grid) (u : Pos) : Grid :=
  (g.getNeighbors (g.cells u)).foldl
    (fun g nb =>
      if (g.cells nb).isWall = false then
        let t := (g.cells u).distance + ((g.cells nb).getMovementCost : WithTop Nat)
        if t < (g.cells nb).distance then
          g.setCell nb { g.cells nb with distance := t, previousNode := some u }
        else g
      else g)
    g

/-- A loop-entry state of the Dijkstra main loop. -/
structure DState where
  g : Grid
  unvisited : List Pos
  explored : Nat

/-- A finished Dijkstra run: the result, the final grid, the popped cells in
order, and every loop-entry state. -/
structure DRun where
  result : SearchResult
  g : Grid
  popped : List Pos
  states : List DState

/-- The main loop of `DijkstraAlgorithm.findPath`: sort the unvisited array
by distance (stable), shift the head; stop on a wall or infinite distance;
otherwise mark explored (unless Start/End), reconstruct on reaching the End
reference, else relax the neighbours.  The fuel equals the length of the
unvisited list at every call. -/
def dijkstraLoop (endNode : Option Pos) : Nat → Grid → List Pos → Nat → DRun
  | 0, g, unvisited, explored =>
    ⟨⟨false, explored, 0, []⟩, g, [], [⟨g, unvisited, explored⟩]⟩
  | fuel + 1, g, unvisited, explored =>
    let st : DState := ⟨g, unvisited, explored⟩
    match List.insertionSort (distLE g) unvisited with
    | [] => ⟨⟨false, explored, 0, []⟩, g, [], [st]⟩
    | u :: rest =>
      if (g.cells u).isWall = true ∨ (g.cells u).distance = ⊤ then
        ⟨⟨false, explored, 0, []⟩, g, [u], [st]⟩
      else
        let expl := (g.cells u).isStart = false ∧ (g.cells u).isEnd = false
        let g := if expl then g.setCell u ((g.cells u).markAsExplored) else g
        let explored := if expl then explored + 1 else explored
        if some u = endNode then
          let path := g.reconstructPath u
          ⟨⟨true, explored, path.length, path⟩, g, [u], [st]⟩
        else
          let g := dijkstraRelax g u
          let r := dijkstraLoop endNode fuel g rest explored
          ⟨r.result, r.g, u :: r.popped, st :: r.states⟩

/-- `DijkstraAlgorithm.findPath`, run to completion with no stop signal. -/
def DijkstraAlgorithm.findPathRun (g : Grid) : DRun :=
  let g := g.resetAlgorithmStates
  match g.startNode with
  | none => ⟨⟨false, 0, 0, []⟩, g, [], []⟩
  | some s =>
    match g.endNode with
    | none => ⟨⟨false, 0, 0, []⟩, g, [], []⟩
    | some e =>
      let g := g.setCell s { g.cells s with distance := ((0 : Nat) : WithTop Nat) }
      dijkstraLoop (some e) g.getAllNodes.length g g.getAllNodes 0

/-- The result payload of `DijkstraAlgorithm.findPath`. -/
def DijkstraAlgorithm.findPath (g : Grid) : SearchResult :=
  (DijkstraAlgorithm.findPathRun g).result

/-- Comparator of the A* frontier sort (`a.fScore - b.fScore`); stable sort
modelled by `List.insertionSort` as for `distLE`. -/
def fLE (g : Grid) (a b : Pos) : Prop :=
  (g.cells a).fScore ≤ (g.cells b).fScore

instance (g : Grid) : DecidableRel (fLE g) := fun a b => by
  unfold fLE
  infer_instance

instance (g : Grid) : IsTotal Pos (fLE g) :=
  ⟨fun a b => le_total ((g.cells a).fScore) ((g.cells b).fScore)⟩

instance (g : Grid) : IsTrans Pos (fLE g) :=
  ⟨fun _ _ _ => le_trans⟩

/-- `AStarAlgorithm.calculateHeuristic`: Manhattan distance to the goal. -/
def calculateHeuristic (node goal : Node) : Nat :=
  node.manhattanDistanceTo goal

/-- The neighbour-examination loop of `AStarAlgorithm.findPath`: skip walls
and closed cells; push an undiscovered neighbour onto the open set; record
the better path (predecessor, g-score, f-score) unless the tentative g-score
is no improvement for an already-open neighbour. -/
def astarRelax (g : Grid) (endPos : Pos) (u : Pos) (openSet closedSet : List Pos) : Grid × List Pos :=
  (g.getNeighbors (g.cells u)).foldl
    (fun (go : Grid × List Pos) nb =>
      let g := go.1
      let openSet := go.2
      if (g.cells nb).isWall = true ∨ nb ∈ closedSet then (g, openSet)
      else
        let t := (g.cells u).gScore + ((g.cells nb).getMovementCost : WithTop Nat)
        let inOpen := nb ∈ openSet
        if ¬inOpen ∨ t < (g.cells nb).gScore then
          let openSet := if inOpen then openSet else openSet ++ [nb]
          let h := calculateHeuristic (g.cells nb) (g.cells endPos)
          (g.setCell nb
            { g.cells nb with previousNode := some u, gScore := t,
                              fScore := t + (h : WithTop Nat) },
           openSet)
        else (g, openSet))
    (g, openSet)

/-- A loop-entry state of the A* main loop. -/
structure AState where
  g : Grid
  openSet : List Pos
  closedSet : List Pos
  explored : Nat

/-- A finished A* run. -/
structure ARun where
  result : SearchResult
  g : Grid
  popped : List Pos
  states : List AState

/-- The main loop of `AStarAlgorithm.findPath`: sort the open set by f-score
(stable), shift the head into the closed set, mark it explored (unless
Start/End), reconstruct on reaching the End reference, else examine the
neighbours.  Returns `none` on fuel exhaustion, which never happens from
`findPathRun`: each iteration moves one fresh cell into the closed set, so
the loop runs at most `rows * cols` iterations (`astarLoop_total`). -/
def astarLoop (endNode : Pos) : Nat → Grid → List Pos → List Pos → Nat → Option ARun
  | 0, _, _, _, _ => none
  | fuel + 1, g, openSet, closedSet, explored =>
    let st : AState := ⟨g, openSet, closedSet, explored⟩
    match List.insertionSort (fLE g) openSet with
    | [] => some ⟨⟨false, explored, 0, []⟩, g, [], [st]⟩
    | u :: rest =>
      let closedSet := closedSet ++ [u]
      let expl := (g.cells u).isStart = false ∧ (g.cells u).isEnd = false
      let g := if expl then g.setCell u ((g.cells u).markAsExplored) else g
      let explored := if expl then explored + 1 else explored
      if u = endNode then
        let path := g.reconstructPath u
        some ⟨⟨true, explored, path.length, path⟩, g, [u], [st]⟩
      else
        let go := astarRelax g endNode u rest closedSet
        match astarLoop endNode fuel go.1 go.2 closedSet explored with
        | none => none
        | some r => some ⟨r.result, r.g, u :: r.popped, st :: r.states⟩

/-- `AStarAlgorithm.findPath`, run to completion with no stop signal. -/
def AStarAlgorithm.findPathRun (g : Grid) : Option ARun :=
  let g := g.resetAlgorithmStates
  match g.startNode with
  | none => some ⟨⟨false, 0, 0, []⟩, g, [], []⟩
  | some s =>
    match g.endNode with
    | none => some ⟨⟨false, 0, 0, []⟩, g, [], []⟩
    | some e =>
      let g := g.setCell s
        { g.cells s with gScore := ((0 : Nat) : WithTop Nat),
                         fScore := ((calculateHeuristic (g.cells s) (g.cells e) : Nat) : WithTop Nat) }
      astarLoop e (g.rows * g.cols + 1) g [s] [] 0

/-- The result payload of `AStarAlgorithm.findPath` (`none` only on fuel
exhaustion, which `astarLoop_total` rules out for well-formed grids). -/
def AStarAlgorithm.findPath (g : Grid) : Option SearchResult :=
  (AStarAlgorithm.findPathRun g).map ARun.result

/-!
## Derived definitions used by the verification
-/

/-- Orthogonal adjacency of two positions (equal in one coordinate,
off by one in the other). -/
def orthAdjacent (a b : Pos) : Prop :=
  (a.1 = b.1 ∧ (a.2 + 1 = b.2 ∨ b.2 + 1 = a.2)) ∨
  (a.2 = b.2 ∧ (a.1 + 1 = b.1 ∨ b.1 + 1 = a.1))

/-- The net effect of `Grid.deserializeCell` on the targeted cell, as a
function of the row-major record lookup. -/
def cellAfterLoad (nodes : List (List SNode)) (p : Pos) (n : Node) : Node :=
  match (nodes.get? p.1).bind fun rowData => rowData.get? p.2 with
  | none => n
  | some d => n.deserialize d

/-- One non-wall orthogonal move: `b` is an in-bounds neighbour of `a`'s
cell and is not a wall. -/
def stepRel (g : Grid) (a b : Pos) : Prop :=
  b ∈ g.getNeighbors (g.cells a) ∧ (g.cells b).isWall = false

instance (g : Grid) (a b : Pos) : Decidable (stepRel g a b) := by
  unfold stepRel
  infer_instance

/-- `p` is reachable from `s` through non-wall cells. -/
def Grid.ReachableFrom (g : Grid) (s p : Pos) : Prop :=
  Relation.ReflTransGen (stepRel g) s p

/-- Add every non-wall neighbour of members of `xs` that is not already
present (one round of closure expansion). -/
def reachStep (g : Grid) (xs : List Pos) : List Pos :=
  xs.foldl
    (fun acc a =>
      (g.getNeighbors (g.cells a)).foldl
        (fun acc b =>
          if (g.cells b).isWall = false ∧ b ∉ acc then acc ++ [b] else acc)
        acc)
    xs

/-- Iterated closure expansion. -/
def reachIter (g : Grid) : Nat → List Pos → List Pos
  | 0, xs => xs
  | n + 1, xs => reachIter g n (reachStep g xs)

/-- The set of cells reachable from `s` through non-wall cells, computed by
saturating closure expansion (`rows * cols` rounds always suffice:
`mem_reachClosure_iff`). -/
def reachClosure (g : Grid) (s : Pos) : List Pos :=
  reachIter g (g.rows * g.cols) [s]

/-- The four grid fields that the maze passes never change. -/
def Grid.SameFrame (g2 g : Grid) : Prop :=
  g2.rows = g.rows ∧ g2.cols = g.cols ∧ g2.startNode = g.startNode ∧ g2.endNode = g.endNode

/-- The cell-level part of the data-model invariant that the maze passes
preserve. -/
def Grid.CellInv (g : Grid) (s e : Pos) : Prop :=
  (∀ p ∈ g.allPositions, (g.cells p).row = p.1 ∧ (g.cells p).col = p.2) ∧
  (∀ p ∈ g.allPositions, ((g.cells p).isStart = true ↔ p = s)) ∧
  (∀ p ∈ g.allPositions, ((g.cells p).isEnd = true ↔ p = e)) ∧
  (g.cells s).isWall = false ∧ (g.cells e).isWall = false

/-- One neighbour-examination step of `dijkstraRelax`, named for analysis. -/
def dStep (u : Pos) (g : Grid) (nb : Pos) : Grid :=
  if (g.cells nb).isWall = false then
    let t := (g.cells u).distance + ((g.cells nb).getMovementCost : WithTop Nat)
    if t < (g.cells nb).distance then
      g.setCell nb { g.cells nb with distance := t, previousNode := some u }
    else g
  else g

/-- The final state of a cell examined by `dijkstraRelax g u`, as a function
of the pre-relaxation grid. -/
def dRelaxCell (g : Grid) (u nb : Pos) : Node :=
  if (g.cells nb).isWall = false then
    let t := (g.cells u).distance + ((g.cells nb).getMovementCost : WithTop Nat)
    if t < (g.cells nb).distance then
      { g.cells nb with distance := t, previousNode := some u }
    else g.cells nb
  else g.cells nb

/-- Total movement cost of a walk: the sum of the weights of every cell
after the first (stepping onto a cell pays its weight; the first is free). -/
def Grid.pathCost (g : Grid) (l : List Pos) : Nat :=
  ((l.drop 1).map fun p => (g.cells p).weight).sum

/-- `l` is a walk from `s` to `p` through non-wall cells. -/
def Grid.IsPath (g : Grid) (s p : Pos) (l : List Pos) : Prop :=
  l.head? = some s ∧ l.getLast? = some p ∧ List.Chain' (stepRel g) l

/-- The search loops mutate only transient cell annotations: all persistent
cell fields and the grid frame agree with the initial grid's. -/
def Grid.StaticEq (g2 g : Grid) : Prop :=
  g2.SameFrame g ∧ ∀ p : Pos,
    (g2.cells p).row = (g.cells p).row ∧
    (g2.cells p).col = (g.cells p).col ∧
    (g2.cells p).isStart = (g.cells p).isStart ∧
    (g2.cells p).isEnd = (g.cells p).isEnd ∧
    (g2.cells p).isWall = (g.cells p).isWall ∧
    (g2.cells p).weight = (g.cells p).weight

/-- The loop invariant of the Dijkstra main loop, relating a loop-entry
state (grid `g`, unvisited list `V`, explored counter `x`) to the grid `g0`
the search started from.  A cell is "popped" when it is in bounds but no
longer unvisited. -/
structure DInv (g0 : Grid) (s e : Pos) (g : Grid) (V : List Pos) (x : Nat) : Prop where
  static : g.StaticEq g0
  vmem : ∀ p ∈ V, p ∈ g0.allPositions
  vnd : V.Nodup
  fin_nonwall : ∀ p ∈ g0.allPositions, p ∉ V →
    (g.cells p).distance ≠ ⊤ ∧ (g.cells p).isWall = false
  pop_min : ∀ p ∈ g0.allPositions, p ∉ V → ∀ q ∈ V,
    (g.cells p).distance ≤ (g.cells q).distance
  relaxed : ∀ p ∈ g0.allPositions, p ∉ V → ∀ nb ∈ g.getNeighbors (g.cells p),
    (g.cells nb).isWall = false →
    (g.cells nb).distance ≤ (g.cells p).distance + ((g.cells nb).weight : WithTop Nat)
  opt : ∀ p ∈ g0.allPositions, p ∉ V → ∀ l, g.IsPath s p l →
    (g.cells p).distance ≤ ((g.pathCost l : Nat) : WithTop Nat)
  dist_s : (g.cells s).distance = 0
  prev_s : (g.cells s).previousNode = none
  prev_spec : ∀ p ∈ g0.allPositions, ∀ y, (g.cells p).previousNode = some y →
    stepRel g y p ∧ y ∈ g0.allPositions ∧ y ∉ V ∧ (g.cells y).distance ≠ ⊤ ∧
    (g.cells p).distance = (g.cells y).distance + ((g.cells p).weight : WithTop Nat)
  fin_prev : ∀ p ∈ g0.allPositions, p ≠ s → (g.cells p).distance ≠ ⊤ →
    (g.cells p).previousNode ≠ none
  wall_top : ∀ p ∈ g0.allPositions, (g.cells p).isWall = true → (g.cells p).distance = ⊤
  e_mem : e ∈ V
  count : x + (if s ∈ V then 0 else 1) + V.length = g0.rows * g0.cols

/-- Manhattan distance between two positions. -/
def manhattanNat (p q : Pos) : Nat :=
  ((p.1 : Int) - q.1).natAbs + ((p.2 : Int) - q.2).natAbs

/-- One neighbour-examination step of `astarRelax`, named for analysis. -/
def aStep (endPos u : Pos) (closedSet : List Pos) (go : Grid × List Pos) (nb : Pos) :
    Grid × List Pos :=
  let g := go.1
  let openSet := go.2
  if (g.cells nb).isWall = true ∨ nb ∈ closedSet then (g, openSet)
  else
    let t := (g.cells u).gScore + ((g.cells nb).getMovementCost : WithTop Nat)
    let inOpen := nb ∈ openSet
    if ¬inOpen ∨ t < (g.cells nb).gScore then
      let openSet := if inOpen then openSet else openSet ++ [nb]
      let h := calculateHeuristic (g.cells nb) (g.cells endPos)
      (g.setCell nb
        { g.cells nb with previousNode := some u, gScore := t,
                          fScore := t + (h : WithTop Nat) },
       openSet)
    else (g, openSet)

/-- The final state of a cell examined by `astarRelax`, as a function of the
pre-relaxation grid and open set. -/
def aRelaxCell (g : Grid) (endPos u nb : Pos) (openSet closedSet : List Pos) : Node :=
  if (g.cells nb).isWall = true ∨ nb ∈ closedSet then g.cells nb
  else
    let t := (g.cells u).gScore + ((g.cells nb).getMovementCost : WithTop Nat)
    if ¬(nb ∈ openSet) ∨ t < (g.cells nb).gScore then
      { g.cells nb with
          previousNode := some u, gScore := t,
          fScore := t + ((calculateHeuristic (g.cells nb) (g.cells endPos)) : WithTop Nat) }
    else g.cells nb

/-- The loop invariant of the A* main loop, relating a loop-entry state
(grid `g`, open list `O`, closed list `C`, explored counter `x`) to the
grid `g0` the search started from. -/
structure AInv (g0 : Grid) (s e : Pos) (g : Grid) (O C : List Pos) (x : Nat) : Prop where
  static : g.StaticEq g0
  omem : ∀ p ∈ O, p ∈ g0.allPositions
  cmem : ∀ p ∈ C, p ∈ g0.allPositions
  ond : O.Nodup
  cnd : C.Nodup
  disj : ∀ p ∈ O, p ∉ C
  open_fin : ∀ p ∈ O, (g.cells p).gScore ≠ ⊤ ∧ (g.cells p).isWall = false
  closed_fin : ∀ p ∈ C, (g.cells p).gScore ≠ ⊤ ∧ (g.cells p).isWall = false
  undisc : ∀ p ∈ g0.allPositions, p ∉ O → p ∉ C → (g.cells p).gScore = ⊤
  fcons : ∀ p ∈ g0.allPositions, (g.cells p).gScore ≠ ⊤ →
    (g.cells p).fScore = (g.cells p).gScore + ((manhattanNat p e : Nat) : WithTop Nat)
  closed_exp : ∀ p ∈ C, ∀ nb ∈ g.getNeighbors (g.cells p), (g.cells nb).isWall = false →
    (g.cells nb).gScore ≤ (g.cells p).gScore + ((g.cells nb).weight : WithTop Nat) ∧
    (nb ∈ O ∨ nb ∈ C)
  closed_opt : ∀ p ∈ C, ∀ l, g.IsPath s p l →
    (g.cells p).gScore ≤ ((g.pathCost l : Nat) : WithTop Nat)
  gscore_s : (g.cells s).gScore = 0
  prev_s : (g.cells s).previousNode = none
  prev_spec : ∀ p ∈ g0.allPositions, ∀ y, (g.cells p).previousNode = some y →
    stepRel g y p ∧ y ∈ g0.allPositions ∧ y ∈ C ∧ (g.cells y).gScore ≠ ⊤ ∧
    (g.cells p).gScore = (g.cells y).gScore + ((g.cells p).weight : WithTop Nat)
  fin_prev : ∀ p ∈ g0.allPositions, p ≠ s → (g.cells p).gScore ≠ ⊤ →
    (g.cells p).previousNode ≠ none
  s_disc : s ∈ O ∨ s ∈ C
  e_nc : e ∉ C
  count : x + (if s ∈ C then 1 else 0) = C.length

/-!
## Concrete test grids used by witnesses and counterexamples
-/

/-- A 2 × 2 grid whose End cell `(1,1)` is fully enclosed by the walls
`(0,1)` and `(1,0)`. -/
def gridEnclosed : Grid :=
  let g := Grid.create 2 2
  let g := g.setCell (0, 1) ((g.cells (0, 1)).setAsWall)
  g.setCell (1, 0) ((g.cells (1, 0)).setAsWall)

/-- The adversarial random stream of the C1 counterexample.  The six
division draws build a maze whose row 2 is fully walled (the vertical
sub-wall of the top region plugs the horizontal wall's only passage); the
repair walk then spends all `2 * 5 * 5 = 50` of its allowed steps
ping-ponging between `(0,0)` and `(1,0)` (each step consumes four detour
coins and one index draw), so it never reaches End and the carve clears no
useful wall. -/
def mazeCexRng : List Nat :=
  [2, 1, 1, 0, 0, 0] ++ (List.replicate 25 [0, 0, 0, 0, 0, 1, 0, 0, 0, 2]).flatten

/-- A 5 × 5 weighted grid (Start `(0,1)`, End `(4,4)`; entry 99 encodes a
wall, other entries are weights) on which Dijkstra and A* both find
minimum-cost paths of total cost 18, but with different cell counts. -/
def gridC2 : Grid :=
  let g := Grid.create 5 5
  let g := g.setStartNode 0 1
  let g := g.setEndNode 4 4
  let vals : List (List Nat) :=
    [[1, 1, 1, 99, 2], [3, 10, 99, 2, 99], [2, 3, 2, 1, 2],
     [1, 1, 1, 10, 3], [2, 99, 10, 99, 1]]
  g.allPositions.foldl
    (fun g p =>
      let w := (vals.getD p.1 []).getD p.2 1
      if w = 99 then g.setCell p ((g.cells p).setAsWall)
      else g.setCell p ((g.cells p).setWeight w))
    g

/-!
## C4: blocked `setStartNode` / `setEndNode` calls are silent no-ops
-/

/-- C4: calling `setStartNode` on the End cell's position, or `setEndNode`
on the Start cell's position, returns the grid completely unchanged — every
cell's fields and the stored Start/End references are untouched. -/
theorem setStartNode_setEndNode_blocked_noop (g : Grid) (r c : Nat) :
    (g.endNode = some (r, c) → g.setStartNode r c = g) ∧
    (g.startNode = some (r, c) → g.setEndNode r c = g) := by
  constructor
  · intro h
    simp [Grid.setStartNode, h]
  · intro h
    simp [Grid.setEndNode, h]

/-- C4 witness: on a 3 × 3 grid with End at `(2,2)` and Start at `(0,0)`,
both blocked calls are no-ops. -/
theorem setStartNode_setEndNode_blocked_noop_witness :
    (Grid.create 3 3).setStartNode 2 2 = Grid.create 3 3 ∧
    (Grid.create 3 3).setEndNode 0 0 = Grid.create 3 3 :=
  ⟨(setStartNode_setEndNode_blocked_noop (Grid.create 3 3) 2 2).1 (by rfl),
   (setStartNode_setEndNode_blocked_noop (Grid.create 3 3) 0 0).2 (by rfl)⟩

/-!
## C10: `Node.setWeight` frame conditions
-/

/-- C10: `setWeight` is a silent no-op on Start, End, and wall cells, and on
any other cell it sets exactly the weight field, leaving every other field
unchanged. -/
theorem setWeight_frame (n : Node) (w : Nat) :
    (n.isStart = true ∨ n.isEnd = true ∨ n.isWall = true → n.setWeight w = n) ∧
    (n.isStart = false → n.isEnd = false → n.isWall = false →
      n.setWeight w = { n with weight := w }) := by
  constructor
  · intro h
    rcases h with h | h | h <;> simp [Node.setWeight, h]
  · intro h1 h2 h3
    simp [Node.setWeight, h1, h2, h3]

/-- C10 witness: a wall cell ignores `setWeight 5`; a plain cell takes
weight 5 and changes nothing else. -/
theorem setWeight_frame_witness :
    (defaultNode 0 0).setAsWall.setWeight 5 = (defaultNode 0 0).setAsWall ∧
    (defaultNode 0 1).setWeight 5 = { defaultNode 0 1 with weight := 5 } :=
  ⟨(setWeight_frame (defaultNode 0 0).setAsWall 5).1 (Or.inr (Or.inr (by decide))),
   (setWeight_frame (defaultNode 0 1) 5).2 (by decide) (by decide) (by decide)⟩

/-!
## C7: failed loads are reported but are not all-or-nothing
-/

/-- The row/column counts are untouched by every cell-level operation. -/
theorem Grid.setCell_rows (g : Grid) (p : Pos) (n : Node) : (g.setCell p n).rows = g.rows := rfl

theorem Grid.setCell_cols (g : Grid) (p : Pos) (n : Node) : (g.setCell p n).cols = g.cols := rfl

theorem Grid.setStartNode_rows (g : Grid) (r c : Nat) : (g.setStartNode r c).rows = g.rows := by
  cases g with
  | mk rows cols cells s e =>
    unfold Grid.setStartNode Grid.setCell
    dsimp only
    split
    · rfl
    · cases s <;> rfl

theorem Grid.setStartNode_cols (g : Grid) (r c : Nat) : (g.setStartNode r c).cols = g.cols := by
  cases g with
  | mk rows cols cells s e =>
    unfold Grid.setStartNode Grid.setCell
    dsimp only
    split
    · rfl
    · cases s <;> rfl

theorem Grid.setEndNode_rows (g : Grid) (r c : Nat) : (g.setEndNode r c).rows = g.rows := by
  cases g with
  | mk rows cols cells s e =>
    unfold Grid.setEndNode Grid.setCell
    dsimp only
    split
    · rfl
    · cases e <;> rfl

theorem Grid.setEndNode_cols (g : Grid) (r c : Nat) : (g.setEndNode r c).cols = g.cols := by
  cases g with
  | mk rows cols cells s e =>
    unfold Grid.setEndNode Grid.setCell
    dsimp only
    split
    · rfl
    · cases e <;> rfl

theorem Grid.resize_rows (g : Grid) (r c : Nat) : (g.resize r c).rows = r := by
  unfold Grid.resize Grid.initializeGrid
  rw [Grid.setEndNode_rows, Grid.setStartNode_rows]

theorem Grid.resize_cols (g : Grid) (r c : Nat) : (g.resize r c).cols = c := by
  unfold Grid.resize Grid.initializeGrid
  rw [Grid.setEndNode_cols, Grid.setStartNode_cols]

/-- C7 counterexample: loading the malformed record `{rows 3, cols 3}` with
a missing cell array into a fresh 2 × 2 grid is reported as a failure, yet
the grid does not keep its previous state: it has already been resized to
3 × 3 when the exception is thrown. -/
theorem loadGrid_malformed_mutates :
    (loadGrid (Grid.create 2 2) (some ⟨3, 3, none⟩)).2 = false ∧
    (loadGrid (Grid.create 2 2) (some ⟨3, 3, none⟩)).1.rows = 3 ∧
    (Grid.create 2 2).rows = 2 := by
  refine ⟨?_, ?_, ?_⟩ <;> rfl

/-- C7 amended: a record with a missing cell array is reported to the
caller as a load failure, but the load is only all-or-nothing when the
record's declared dimensions match the grid's; when they differ, the grid
has already been destructively resized before the failure is detected. -/
theorem loadGrid_malformed_spec (g : Grid) (data : GridData)
    (hn : data.nodes = none) (hr : 0 < data.rows) (hc : 0 < data.cols) :
    (loadGrid g (some data)).2 = false ∧
    (data.rows = g.rows → data.cols = g.cols → (loadGrid g (some data)).1 = g) ∧
    (data.rows ≠ g.rows ∨ data.cols ≠ g.cols →
      (loadGrid g (some data)).1 = g.resize data.rows data.cols) := by
  dsimp only [loadGrid, Grid.deserializeEx]
  rw [hn]
  by_cases hd : data.rows ≠ g.rows ∨ data.cols ≠ g.cols
  · rw [if_pos hd]
    refine ⟨?_, ?_, fun _ => rfl⟩
    · simp [Grid.resize_rows, Grid.resize_cols, hr, hc]
    · intro h1 h2
      rcases hd with h | h
      · exact absurd h1 h
      · exact absurd h2 h
  · rw [if_neg hd]
    push_neg at hd
    refine ⟨?_, fun _ _ => rfl, ?_⟩
    · simp
      omega
    · intro h
      rcases h with h | h
      · exact absurd hd.1 h
      · exact absurd hd.2 h

/-- C7 amended witness: the dimension-matching malformed load on a 2 × 2
grid fails and leaves the grid unchanged; the mismatching one resizes. -/
theorem loadGrid_malformed_spec_witness :
    (loadGrid (Grid.create 2 2) (some ⟨2, 2, none⟩)).2 = false ∧
    (loadGrid (Grid.create 2 2) (some ⟨2, 2, none⟩)).1 = Grid.create 2 2 :=
  ⟨(loadGrid_malformed_spec (Grid.create 2 2) ⟨2, 2, none⟩ rfl (by decide) (by decide)).1,
   (loadGrid_malformed_spec (Grid.create 2 2) ⟨2, 2, none⟩ rfl (by decide) (by decide)).2.1
     rfl rfl⟩

/-!
## C9: `getNeighbors` returns exactly the in-bounds orthogonal neighbours,
in the order up, down, left, right
-/

/-- Explicit form and membership characterization of `getNeighbors`. -/
theorem getNeighbors_explicit (g : Grid) (n : Node)
    (hr : n.row < g.rows) (hc : n.col < g.cols) :
    g.getNeighbors n =
      (if 0 < n.row then [(n.row - 1, n.col)] else []) ++
      (if n.row + 1 < g.rows then [(n.row + 1, n.col)] else []) ++
      (if 0 < n.col then [(n.row, n.col - 1)] else []) ++
      (if n.col + 1 < g.cols then [(n.row, n.col + 1)] else []) ∧
    ∀ p : Pos, p ∈ g.getNeighbors n ↔
      p.1 < g.rows ∧ p.2 < g.cols ∧ orthAdjacent (n.row, n.col) p := by
  have hEq : g.getNeighbors n =
      (if 0 < n.row then [(n.row - 1, n.col)] else []) ++
      (if n.row + 1 < g.rows then [(n.row + 1, n.col)] else []) ++
      (if 0 < n.col then [(n.row, n.col - 1)] else []) ++
      (if n.col + 1 < g.cols then [(n.row, n.col + 1)] else []) := by
    unfold Grid.getNeighbors
    simp only [List.foldl_cons, List.foldl_nil]
    have c1 : (0 ≤ (n.row : Int) + -1 ∧ (n.row : Int) + -1 < (g.rows : Int) ∧
        0 ≤ (n.col : Int) + 0 ∧ (n.col : Int) + 0 < (g.cols : Int)) ↔ 0 < n.row := by omega
    have c2 : (0 ≤ (n.row : Int) + 1 ∧ (n.row : Int) + 1 < (g.rows : Int) ∧
        0 ≤ (n.col : Int) + 0 ∧ (n.col : Int) + 0 < (g.cols : Int)) ↔ n.row + 1 < g.rows := by
      omega
    have c3 : (0 ≤ (n.row : Int) + 0 ∧ (n.row : Int) + 0 < (g.rows : Int) ∧
        0 ≤ (n.col : Int) + -1 ∧ (n.col : Int) + -1 < (g.cols : Int)) ↔ 0 < n.col := by omega
    have c4 : (0 ≤ (n.row : Int) + 0 ∧ (n.row : Int) + 0 < (g.rows : Int) ∧
        0 ≤ (n.col : Int) + 1 ∧ (n.col : Int) + 1 < (g.cols : Int)) ↔ n.col + 1 < g.cols := by
      omega
    have e1 : ((n.row : Int) + -1).toNat = n.row - 1 := by omega
    have e2 : ((n.row : Int) + 1).toNat = n.row + 1 := by omega
    have e3 : ((n.col : Int) + -1).toNat = n.col - 1 := by omega
    have e4 : ((n.col : Int) + 1).toNat = n.col + 1 := by omega
    have e5 : ((n.row : Int) + 0).toNat = n.row := by omega
    have e6 : ((n.col : Int) + 0).toNat = n.col := by omega
    simp only [c1, c2, c3, c4, e1, e2, e3, e4, e5, e6]
    by_cases h1 : 0 < n.row <;> by_cases h2 : n.row + 1 < g.rows <;>
      by_cases h3 : 0 < n.col <;> by_cases h4 : n.col + 1 < g.cols <;>
      simp [h1, h2, h3, h4]
  refine ⟨hEq, fun p => ?_⟩
  obtain ⟨pr, pc⟩ := p
  rw [hEq]
  by_cases h1 : 0 < n.row <;> by_cases h2 : n.row + 1 < g.rows <;>
    by_cases h3 : 0 < n.col <;> by_cases h4 : n.col + 1 < g.cols <;>
    simp [h1, h2, h3, h4, Prod.ext_iff, orthAdjacent] <;> omega

/-- C9: for every cell of the grid, `getNeighbors` is exactly the list of
the up, down, left, right positions in this order with the out-of-bounds
ones omitted, and its members are exactly the in-bounds orthogonally
adjacent positions. -/
theorem getNeighbors_spec (g : Grid) (n : Node)
    (hr : n.row < g.rows) (hc : n.col < g.cols) :
    g.getNeighbors n =
      (if 0 < n.row then [(n.row - 1, n.col)] else []) ++
      (if n.row + 1 < g.rows then [(n.row + 1, n.col)] else []) ++
      (if 0 < n.col then [(n.row, n.col - 1)] else []) ++
      (if n.col + 1 < g.cols then [(n.row, n.col + 1)] else []) ∧
    ∀ p : Pos, p ∈ g.getNeighbors n ↔
      p.1 < g.rows ∧ p.2 < g.cols ∧ orthAdjacent (n.row, n.col) p :=
  getNeighbors_explicit g n hr hc

/-- The neighbour list never repeats a position. -/
theorem getNeighbors_nodup (g : Grid) (n : Node)
    (hr : n.row < g.rows) (hc : n.col < g.cols) :
    (g.getNeighbors n).Nodup := by
  rw [(getNeighbors_explicit g n hr hc).1]
  by_cases h1 : 0 < n.row <;> by_cases h2 : n.row + 1 < g.rows <;>
    by_cases h3 : 0 < n.col <;> by_cases h4 : n.col + 1 < g.cols <;>
    simp [h1, h2, h3, h4, Prod.ext_iff] <;> omega

/-- A cell is never its own neighbour. -/
theorem not_mem_getNeighbors_self (g : Grid) (n : Node) (p : Pos)
    (hr : n.row < g.rows) (hc : n.col < g.cols)
    (hp : n.row = p.1 ∧ n.col = p.2) : p ∉ g.getNeighbors n := by
  intro hmem
  have := ((getNeighbors_explicit g n hr hc).2 p).mp hmem
  obtain ⟨_, _, hadj⟩ := this
  unfold orthAdjacent at hadj
  omega

/-- C9 witness: the interior cell `(1,1)` of a 3 × 3 grid has neighbours
`(0,1), (2,1), (1,0), (1,2)` in this order. -/
theorem getNeighbors_spec_witness :
    (Grid.create 3 3).getNeighbors (defaultNode 1 1) = [(0, 1), (2, 1), (1, 0), (1, 2)] :=
  ((getNeighbors_spec (Grid.create 3 3) (defaultNode 1 1) (by decide) (by decide)).1).trans
    (by decide)

/-!
## C6: serialize/deserialize round-trip, and transient annotations are
never serialized
-/

theorem Grid.mem_allPositions (g : Grid) (p : Pos) :
    p ∈ g.allPositions ↔ p.1 < g.rows ∧ p.2 < g.cols := by
  obtain ⟨pr, pc⟩ := p
  unfold Grid.allPositions
  simp only [List.mem_flatten, List.mem_map, List.mem_range]
  constructor
  · rintro ⟨l, ⟨r, hr, rfl⟩, hm⟩
    simp only [List.mem_map, List.mem_range] at hm
    obtain ⟨c, hc, heq⟩ := hm
    cases heq
    exact ⟨hr, hc⟩
  · rintro ⟨h1, h2⟩
    exact ⟨(List.range g.cols).map fun c => (pr, c), ⟨pr, h1, rfl⟩,
      List.mem_map.mpr ⟨pc, List.mem_range.mpr h2, rfl⟩⟩

theorem Grid.allPositions_nodup (g : Grid) : g.allPositions.Nodup := by
  unfold Grid.allPositions
  rw [List.nodup_flatten]
  constructor
  · intro l hl
    simp only [List.mem_map, List.mem_range] at hl
    obtain ⟨r, _, rfl⟩ := hl
    exact (List.nodup_range g.cols).map (fun a b h => by simpa using h)
  · rw [List.pairwise_map]
    have := List.pairwise_lt_range g.rows
    refine this.imp ?_
    intro a b hab x hx1 hx2
    simp only [List.mem_map, List.mem_range] at hx1 hx2
    obtain ⟨c1, _, rfl⟩ := hx1
    obtain ⟨c2, _, h2⟩ := hx2
    have : b = a := congrArg Prod.fst h2
    omega

theorem Grid.deserializeCell_cells_self (nodes : List (List SNode)) (g : Grid) (p : Pos) :
    (Grid.deserializeCell nodes g p).cells p = cellAfterLoad nodes p (g.cells p) := by
  unfold Grid.deserializeCell cellAfterLoad
  cases hl : (nodes.get? p.1).bind fun rowData => rowData.get? p.2 with
  | none => rfl
  | some d =>
    dsimp only
    split_ifs <;> simp [Grid.setCell]

theorem Grid.deserializeCell_cells_other (nodes : List (List SNode)) (g : Grid) (p q : Pos)
    (h : q ≠ p) :
    (Grid.deserializeCell nodes g p).cells q = g.cells q := by
  unfold Grid.deserializeCell
  cases hl : (nodes.get? p.1).bind fun rowData => rowData.get? p.2 with
  | none => rfl
  | some d =>
    dsimp only
    split_ifs <;> simp [Grid.setCell, h]

theorem foldl_deserializeCell_not_mem (nodes : List (List SNode)) (g : Grid) (l : List Pos)
    (q : Pos) (h : q ∉ l) :
    (l.foldl (Grid.deserializeCell nodes) g).cells q = g.cells q := by
  induction l generalizing g with
  | nil => rfl
  | cons a t ih =>
    simp only [List.foldl_cons]
    rw [ih _ fun hm => h (List.mem_cons_of_mem _ hm),
      Grid.deserializeCell_cells_other _ _ _ _
        fun he => h (by rw [he]; exact List.mem_cons_self a t)]

theorem foldl_deserializeCell_mem (nodes : List (List SNode)) (g : Grid) (l : List Pos)
    (q : Pos) (hnd : l.Nodup) (h : q ∈ l) :
    (l.foldl (Grid.deserializeCell nodes) g).cells q = cellAfterLoad nodes q (g.cells q) := by
  induction l generalizing g with
  | nil => cases h
  | cons a t ih =>
    simp only [List.foldl_cons]
    rcases List.mem_cons.mp h with rfl | hmem
    · rw [foldl_deserializeCell_not_mem _ _ _ _ (List.nodup_cons.mp hnd).1]
      exact Grid.deserializeCell_cells_self nodes g q
    · have hqa : q ≠ a := fun he => (List.nodup_cons.mp hnd).1 (he ▸ hmem)
      rw [ih _ (List.nodup_cons.mp hnd).2 hmem,
        Grid.deserializeCell_cells_other _ _ _ _ hqa]

theorem serialize_lookup (g : Grid) (r c : Nat) (hr : r < g.rows) (hc : c < g.cols)
    (nodes : List (List SNode)) (hn : g.serialize.nodes = some nodes) :
    ((nodes.get? r).bind fun rowData => rowData.get? c) = some ((g.cells (r, c)).serialize) := by
  unfold Grid.serialize at hn
  simp only [Option.some.injEq] at hn
  subst hn
  simp [List.getElem?_map, List.getElem?_range hr, List.getElem?_range hc]

/-- C6: on a grid whose (in-bounds) cells carry positive weights, the
deserialization of the grid's own serialization reproduces the `isStart`,
`isEnd`, `isWall` and `weight` fields of every cell; and the serialized
record carries no transient annotation: resetting every search annotation
leaves the record identical. -/
theorem serialize_roundtrip (g : Grid)
    (hw : ∀ p ∈ g.allPositions, 1 ≤ (g.cells p).weight) :
    (∀ r c, r < g.rows → c < g.cols →
      ((g.deserialize g.serialize).cells (r, c)).isStart = (g.cells (r, c)).isStart ∧
      ((g.deserialize g.serialize).cells (r, c)).isEnd = (g.cells (r, c)).isEnd ∧
      ((g.deserialize g.serialize).cells (r, c)).isWall = (g.cells (r, c)).isWall ∧
      ((g.deserialize g.serialize).cells (r, c)).weight = (g.cells (r, c)).weight) ∧
    (g.resetAlgorithmStates).serialize = g.serialize := by
  constructor
  · intro r c hr hc
    have hmem : (r, c) ∈ g.allPositions := (Grid.mem_allPositions g (r, c)).mpr ⟨hr, hc⟩
    have hd : g.deserialize g.serialize
        = g.allPositions.foldl
            (Grid.deserializeCell ((List.range g.rows).map fun r =>
              (List.range g.cols).map fun c => (g.cells (r, c)).serialize)) g := by
      unfold Grid.deserialize Grid.deserializeEx
      rw [if_neg (by push_neg; exact ⟨rfl, rfl⟩)]
      rfl
    rw [hd, foldl_deserializeCell_mem _ _ _ _ g.allPositions_nodup hmem]
    unfold cellAfterLoad
    rw [serialize_lookup g r c hr hc _ rfl]
    have hwc := hw (r, c) hmem
    unfold Node.deserialize Node.serialize
    dsimp only
    refine ⟨rfl, rfl, rfl, ?_⟩
    rw [if_neg (by omega)]
  · unfold Grid.serialize Grid.resetAlgorithmStates
    dsimp only
    refine congrArg _ (congrArg _ ?_)
    refine List.map_congr_left fun r hrm => ?_
    refine List.map_congr_left fun c hcm => ?_
    simp only [List.mem_range] at hrm hcm
    rw [if_pos ⟨hrm, hcm⟩]
    rfl

/-- C6 witness: concrete round-trip on the 2 × 2 walled grid. -/
theorem serialize_roundtrip_witness :
    ((gridEnclosed.deserialize gridEnclosed.serialize).cells (0, 1)).isWall
      = (gridEnclosed.cells (0, 1)).isWall ∧
    ((gridEnclosed.deserialize gridEnclosed.serialize).cells (0, 0)).weight
      = (gridEnclosed.cells (0, 0)).weight ∧
    (gridEnclosed.resetAlgorithmStates).serialize = gridEnclosed.serialize :=
  ⟨((serialize_roundtrip gridEnclosed (by decide)).1 0 1 (by decide) (by decide)).2.2.1,
   ((serialize_roundtrip gridEnclosed (by decide)).1 0 0 (by decide) (by decide)).2.2.2,
   (serialize_roundtrip gridEnclosed (by decide)).2⟩

/-!
## C5: popping a wall TERMINATES the Dijkstra scan loop (it does not
continue to the next step)
-/

/-- C5 counterexample: on the 2 × 2 grid with walls at `(0,1)` and `(1,0)`,
the Dijkstra run pops Start and then the wall `(0,1)`, and the loop ends
right there — the cells `(1,0)` and `(1,1)` are never popped, refuting
"discard it and continue to the next step". -/
theorem dijkstra_wall_pop_breaks_counterexample :
    (DijkstraAlgorithm.findPathRun gridEnclosed).popped = [(0, 0), (0, 1)] ∧
    (gridEnclosed.cells (0, 1)).isWall = true ∧
    gridEnclosed.getAllNodes.length = 4 ∧
    (DijkstraAlgorithm.findPathRun gridEnclosed).result.success = false := by
  refine ⟨?_, ?_, ?_, ?_⟩ <;> decide

/-- C5 amended: when the cell popped from the frontier is a wall, the scan
loop terminates immediately with the no-path result (carrying the explored
count accumulated so far), with that wall as its final popped cell. -/
theorem dijkstraLoop_wall_pop_terminates (endNode : Option Pos) (fuel : Nat) (g : Grid)
    (unvisited : List Pos) (explored : Nat) (u : Pos) (rest : List Pos)
    (hsort : List.insertionSort (distLE g) unvisited = u :: rest)
    (hwall : (g.cells u).isWall = true) :
    (dijkstraLoop endNode (fuel + 1) g unvisited explored).result
      = ⟨false, explored, 0, []⟩ ∧
    (dijkstraLoop endNode (fuel + 1) g unvisited explored).popped = [u] := by
  unfold dijkstraLoop
  rw [hsort]
  dsimp only
  rw [if_pos (Or.inl hwall)]
  exact ⟨rfl, rfl⟩

/-- C5 amended witness: a frontier whose head is the wall `(0,1)`. -/
theorem dijkstraLoop_wall_pop_terminates_witness :
    (dijkstraLoop none 1 gridEnclosed [(0, 1)] 7).result = ⟨false, 7, 0, []⟩ ∧
    (dijkstraLoop none 1 gridEnclosed [(0, 1)] 7).popped = [(0, 1)] :=
  dijkstraLoop_wall_pop_terminates none 0 gridEnclosed [(0, 1)] 7 (0, 1) []
    (by decide) (by decide)

/-!
## Reachability: the closure computation is sound and complete
-/

/-- Fold invariant: a predicate preserved by every step holds of the result. -/
theorem foldl_invariant {α β : Type} (f : β → α → β) (P : β → Prop)
    (l : List α) (init : β) (h0 : P init)
    (hstep : ∀ b a, a ∈ l → P b → P (f b a)) : P (l.foldl f init) := by
  induction l generalizing init with
  | nil => exact h0
  | cons x t ih =>
    exact ih (f init x) (hstep init x (List.mem_cons_self x t) h0)
      fun b a ha hb => hstep b a (List.mem_cons_of_mem x ha) hb

/-- A fold whose every step only appends extends its initial list. -/
theorem foldl_append_only {α γ : Type} (f : List γ → α → List γ)
    (hf : ∀ acc a, ∃ t, f acc a = acc ++ t) (l : List α) (init : List γ) :
    ∃ t, l.foldl f init = init ++ t := by
  induction l generalizing init with
  | nil => exact ⟨[], (List.append_nil init).symm⟩
  | cons x t ih =>
    obtain ⟨t1, h1⟩ := hf init x
    obtain ⟨t2, h2⟩ := ih (f init x)
    exact ⟨t1 ++ t2, by rw [List.foldl_cons, h2, h1, List.append_assoc]⟩

theorem Grid.mem_getNeighbors_valid (g : Grid) (n : Node) (p : Pos)
    (h : p ∈ g.getNeighbors n) : p.1 < g.rows ∧ p.2 < g.cols := by
  unfold Grid.getNeighbors at h
  simp only [List.foldl_cons, List.foldl_nil] at h
  have step : ∀ (acc : List Pos) (d : Int × Int),
      (∀ q ∈ acc, q.1 < g.rows ∧ q.2 < g.cols) →
      ∀ q ∈ (if 0 ≤ (n.row : Int) + d.1 ∧ (n.row : Int) + d.1 < (g.rows : Int) ∧
               0 ≤ (n.col : Int) + d.2 ∧ (n.col : Int) + d.2 < (g.cols : Int) then
               acc ++ [(((n.row : Int) + d.1).toNat, ((n.col : Int) + d.2).toNat)]
             else acc),
        q.1 < g.rows ∧ q.2 < g.cols := by
    intro acc d hacc q hq
    split_ifs at hq with hcond
    · rcases List.mem_append.mp hq with hq | hq
      · exact hacc q hq
      · rcases List.mem_singleton.mp hq with rfl
        exact ⟨by omega, by omega⟩
    · exact hacc q hq
  exact step _ ((0 : Int), (1 : Int)) (step _ ((0 : Int), (-1 : Int))
    (step _ ((1 : Int), (0 : Int)) (step _ ((-1 : Int), (0 : Int))
      (fun q hq => absurd hq (List.not_mem_nil q))))) p h

theorem reachStep_prefix (g : Grid) (xs : List Pos) :
    ∃ t, reachStep g xs = xs ++ t := by
  refine foldl_append_only _ ?_ xs xs
  intro acc a
  refine foldl_append_only _ ?_ _ acc
  intro acc2 b
  split_ifs
  · exact ⟨[b], rfl⟩
  · exact ⟨[], (List.append_nil acc2).symm⟩

theorem mem_reachStep_of_mem (g : Grid) (xs : List Pos) (p : Pos) (h : p ∈ xs) :
    p ∈ reachStep g xs := by
  obtain ⟨t, ht⟩ := reachStep_prefix g xs
  rw [ht]
  exact List.mem_append_left t h

theorem reachStep_nodup (g : Grid) (xs : List Pos) (h : xs.Nodup) :
    (reachStep g xs).Nodup := by
  refine foldl_invariant _ (fun acc : List Pos => acc.Nodup) _ _ h ?_
  intro acc a _ hacc
  refine foldl_invariant _ (fun acc : List Pos => acc.Nodup) _ _ hacc ?_
  intro acc2 b _ hacc2
  split_ifs with hcond
  · rw [← List.concat_eq_append]
    exact hacc2.concat hcond.2
  · exact hacc2

theorem reachStep_valid (g : Grid) (xs : List Pos)
    (h : ∀ p ∈ xs, p.1 < g.rows ∧ p.2 < g.cols) :
    ∀ p ∈ reachStep g xs, p.1 < g.rows ∧ p.2 < g.cols := by
  refine foldl_invariant _
    (fun acc : List Pos => ∀ p ∈ acc, p.1 < g.rows ∧ p.2 < g.cols) _ _ h ?_
  intro acc a _ hacc
  refine foldl_invariant _
    (fun acc : List Pos => ∀ p ∈ acc, p.1 < g.rows ∧ p.2 < g.cols) _ _ hacc ?_
  intro acc2 b hb hacc2 q hq
  split_ifs at hq with hcond
  · rcases List.mem_append.mp hq with hq | hq
    · exact hacc2 q hq
    · rcases List.mem_singleton.mp hq with rfl
      exact Grid.mem_getNeighbors_valid g _ q hb
  · exact hacc2 q hq

theorem reachStep_sound (g : Grid) (xs : List Pos) (Q : Pos → Prop)
    (hxs : ∀ x ∈ xs, Q x) (hstep : ∀ a b, Q a → stepRel g a b → Q b) :
    ∀ y ∈ reachStep g xs, Q y := by
  refine foldl_invariant _ (fun acc : List Pos => ∀ y ∈ acc, Q y) _ _ hxs ?_
  intro acc a ha hacc
  refine foldl_invariant _ (fun acc : List Pos => ∀ y ∈ acc, Q y) _ _ hacc ?_
  intro acc2 b hb hacc2 y hy
  split_ifs at hy with hcond
  · rcases List.mem_append.mp hy with hy | hy
    · exact hacc2 y hy
    · rcases List.mem_singleton.mp hy with rfl
      exact hstep a y (hxs a ha) ⟨hb, hcond.1⟩
  · exact hacc2 y hy

theorem Grid.allPositions_length (g : Grid) : g.allPositions.length = g.rows * g.cols := by
  unfold Grid.allPositions
  rw [List.length_flatten, List.map_map]
  have : (List.map (List.length ∘ fun r => List.map (fun c => ((r, c) : Pos)) (List.range g.cols))
      (List.range g.rows)) = List.replicate g.rows g.cols := by
    rw [show (List.length ∘ fun r => List.map (fun c => ((r, c) : Pos)) (List.range g.cols))
        = fun _ => g.cols from funext fun r => by simp, List.map_const']
    simp
  rw [this, List.sum_replicate, smul_eq_mul]

theorem innerFold_mono (g : Grid) (l : List Pos) (acc : List Pos) (x : Pos) (h : x ∈ acc) :
    x ∈ l.foldl
      (fun acc b => if (g.cells b).isWall = false ∧ b ∉ acc then acc ++ [b] else acc) acc := by
  obtain ⟨t, ht⟩ := foldl_append_only
    (fun acc b => if (g.cells b).isWall = false ∧ b ∉ acc then acc ++ [b] else acc)
    (fun acc2 b => by
      dsimp only
      split_ifs
      · exact ⟨[b], rfl⟩
      · exact ⟨[], (List.append_nil acc2).symm⟩) l acc
  rw [ht]
  exact List.mem_append_left t h

theorem innerFold_complete (g : Grid) (l : List Pos) (acc : List Pos) (b : Pos)
    (hb : b ∈ l) (hw : (g.cells b).isWall = false) :
    b ∈ l.foldl
      (fun acc b => if (g.cells b).isWall = false ∧ b ∉ acc then acc ++ [b] else acc) acc := by
  induction l generalizing acc with
  | nil => cases hb
  | cons x t ih =>
    rw [List.foldl_cons]
    rcases List.mem_cons.mp hb with rfl | hbt
    · refine innerFold_mono g t _ b ?_
      split_ifs with hcond
      · exact List.mem_append_right _ (List.mem_singleton.mpr rfl)
      · rw [Classical.not_and_iff_or_not_not] at hcond
        rcases hcond with hcond | hcond
        · exact absurd hw hcond
        · exact not_not.mp hcond
    · exact ih _ hbt

theorem outerFold_mono (g : Grid) (l : List Pos) (init : List Pos) (x : Pos) (h : x ∈ init) :
    x ∈ l.foldl
      (fun acc a =>
        (g.getNeighbors (g.cells a)).foldl
          (fun acc b => if (g.cells b).isWall = false ∧ b ∉ acc then acc ++ [b] else acc) acc)
      init := by
  obtain ⟨t, ht⟩ := foldl_append_only
    (fun acc a =>
      (g.getNeighbors (g.cells a)).foldl
        (fun acc b => if (g.cells b).isWall = false ∧ b ∉ acc then acc ++ [b] else acc) acc)
    (fun acc a => foldl_append_only
      (fun acc b => if (g.cells b).isWall = false ∧ b ∉ acc then acc ++ [b] else acc)
      (fun acc2 b => by
        dsimp only
        split_ifs
        · exact ⟨[b], rfl⟩
        · exact ⟨[], (List.append_nil acc2).symm⟩) (g.getNeighbors (g.cells a)) acc)
    l init
  rw [ht]
  exact List.mem_append_left t h

theorem reachStep_step_mem (g : Grid) (xs : List Pos) (a b : Pos)
    (ha : a ∈ xs) (hab : stepRel g a b) : b ∈ reachStep g xs := by
  unfold reachStep
  have main : ∀ (l init : List Pos), a ∈ l →
      b ∈ l.foldl
        (fun acc a =>
          (g.getNeighbors (g.cells a)).foldl
            (fun acc b => if (g.cells b).isWall = false ∧ b ∉ acc then acc ++ [b] else acc) acc)
        init := by
    intro l
    induction l with
    | nil => intro init h; cases h
    | cons x t ih =>
      intro init h
      rcases List.mem_cons.mp h with rfl | hat
      · rw [List.foldl_cons]
        exact outerFold_mono g t _ b (innerFold_complete g _ init b hab.1 hab.2)
      · exact ih _ hat
  exact main xs xs ha

theorem reachIter_mem_of_mem (g : Grid) (n : Nat) (xs : List Pos) (p : Pos) (h : p ∈ xs) :
    p ∈ reachIter g n xs := by
  induction n generalizing xs with
  | zero => exact h
  | succ n ih => exact ih _ (mem_reachStep_of_mem g xs p h)

theorem reachIter_sound (g : Grid) (n : Nat) (xs : List Pos) (Q : Pos → Prop)
    (hxs : ∀ x ∈ xs, Q x) (hstep : ∀ a b, Q a → stepRel g a b → Q b) :
    ∀ y ∈ reachIter g n xs, Q y := by
  induction n generalizing xs with
  | zero => exact hxs
  | succ n ih => exact ih _ (reachStep_sound g xs Q hxs hstep)

theorem reachIter_fixpoint (g : Grid) (n : Nat) (xs : List Pos)
    (hfix : reachStep g xs = xs) : reachIter g n xs = xs := by
  induction n with
  | zero => rfl
  | succ n ih => show reachIter g n (reachStep g xs) = xs; rw [hfix]; exact ih

theorem reachIter_nodup (g : Grid) (n : Nat) (xs : List Pos) (h : xs.Nodup) :
    (reachIter g n xs).Nodup := by
  induction n generalizing xs with
  | zero => exact h
  | succ n ih => exact ih _ (reachStep_nodup g xs h)

theorem reachIter_valid (g : Grid) (n : Nat) (xs : List Pos)
    (h : ∀ p ∈ xs, p.1 < g.rows ∧ p.2 < g.cols) :
    ∀ p ∈ reachIter g n xs, p.1 < g.rows ∧ p.2 < g.cols := by
  induction n generalizing xs with
  | zero => exact h
  | succ n ih => exact ih _ (reachStep_valid g xs h)

theorem reachIter_saturates (g : Grid) (n : Nat) (xs : List Pos)
    (hnd : xs.Nodup) (hval : ∀ p ∈ xs, p.1 < g.rows ∧ p.2 < g.cols)
    (hlen : g.rows * g.cols ≤ n + xs.length) :
    reachStep g (reachIter g n xs) = reachIter g n xs := by
  induction n generalizing xs with
  | zero =>
    obtain ⟨t, ht⟩ := reachStep_prefix g xs
    have hsub : (reachStep g xs) ⊆ g.allPositions := by
      intro q hq
      exact (Grid.mem_allPositions g q).mpr (reachStep_valid g xs hval q hq)
    have hle : (reachStep g xs).length ≤ g.rows * g.cols := by
      have := ((reachStep_nodup g xs hnd).subperm hsub).length_le
      rwa [Grid.allPositions_length] at this
    have : t = [] := by
      rw [ht, List.length_append] at hle
      simp only [Nat.zero_add] at hlen
      exact List.length_eq_zero.mp (by omega)
    rw [show reachIter g 0 xs = xs from rfl, ht, this, List.append_nil]
  | succ n ih =>
    by_cases hfix : reachStep g xs = xs
    · show reachStep g (reachIter g n (reachStep g xs)) = reachIter g n (reachStep g xs)
      rw [hfix, reachIter_fixpoint g n xs hfix, hfix]
    · obtain ⟨t, ht⟩ := reachStep_prefix g xs
      have htne : t ≠ [] := fun h0 => hfix (by rw [ht, h0, List.append_nil])
      have hgrow : xs.length + 1 ≤ (reachStep g xs).length := by
        rw [ht, List.length_append]
        have := List.length_pos.mpr htne
        omega
      exact ih (reachStep g xs) (reachStep_nodup g xs hnd) (reachStep_valid g xs hval)
        (by omega)

/-- Membership in `reachClosure` is exactly reachability through non-wall
cells. -/
theorem mem_reachClosure_iff (g : Grid) (s p : Pos)
    (hs : s.1 < g.rows ∧ s.2 < g.cols) :
    p ∈ reachClosure g s ↔ g.ReachableFrom s p := by
  constructor
  · intro h
    refine reachIter_sound g (g.rows * g.cols) [s] (g.ReachableFrom s) ?_ ?_ p h
    · intro x hx
      rcases List.mem_singleton.mp hx with rfl
      exact Relation.ReflTransGen.refl
    · exact fun a b hQ hab => Relation.ReflTransGen.tail hQ hab
  · intro h
    have hfix := reachIter_saturates g (g.rows * g.cols) [s] (List.nodup_singleton s)
      (by intro q hq; rcases List.mem_singleton.mp hq with rfl; exact hs)
      (by simp)
    induction h with
    | refl => exact reachIter_mem_of_mem g _ [s] s (List.mem_singleton.mpr rfl)
    | tail hab hbc ih =>
      rename_i b c
      have hfix2 : reachStep g (reachClosure g s) = reachClosure g s := hfix
      have : c ∈ reachStep g (reachClosure g s) := reachStep_step_mem g _ b c ih hbc
      rwa [hfix2] at this

/-!
## C1: the connectivity guarantee of `generateRandomMaze` can fail
-/

set_option maxRecDepth 100000 in
/-- C1 counterexample: on the default 5 × 5 grid there is a sequence of
random draws after which `generateRandomMaze` leaves End unreachable from
Start through non-wall cells — the breadth-first check the source itself
runs reports failure, and the reachability proposition is refuted. -/
theorem generateRandomMaze_disconnected_counterexample :
    (Grid.generateRandomMaze (Grid.create 5 5) mazeCexRng).startNode = some (0, 0) ∧
    (Grid.generateRandomMaze (Grid.create 5 5) mazeCexRng).endNode = some (4, 4) ∧
    (Grid.generateRandomMaze (Grid.create 5 5) mazeCexRng).bfsReachable = false ∧
    ¬ (Grid.generateRandomMaze (Grid.create 5 5) mazeCexRng).ReachableFrom (0, 0) (4, 4) := by
  refine ⟨by decide, by decide, by decide, fun h => ?_⟩
  have hmem := (mem_reachClosure_iff (Grid.generateRandomMaze (Grid.create 5 5) mazeCexRng)
    (0, 0) (4, 4) (by decide)).mpr h
  revert hmem
  decide

/-!
## C1 amended: the repair guarantees connectivity whenever the walk is
not cut off by its step bound
-/

theorem Grid.setCell_startNode (g : Grid) (p : Pos) (n : Node) :
    (g.setCell p n).startNode = g.startNode := rfl

theorem Grid.setCell_endNode (g : Grid) (p : Pos) (n : Node) :
    (g.setCell p n).endNode = g.endNode := rfl

theorem Grid.setCell_cells_self (g : Grid) (p : Pos) (n : Node) :
    (g.setCell p n).cells p = n := by
  unfold Grid.setCell
  simp

theorem Grid.setCell_cells_other (g : Grid) (p q : Pos) (n : Node) (h : q ≠ p) :
    (g.setCell p n).cells q = g.cells q := by
  unfold Grid.setCell
  simp [h]

theorem Grid.sameFrame_self (g : Grid) : g.SameFrame g := ⟨rfl, rfl, rfl, rfl⟩

theorem Grid.SameFrame.trans {g3 g2 g1 : Grid} (h32 : g3.SameFrame g2)
    (h21 : g2.SameFrame g1) : g3.SameFrame g1 :=
  ⟨h32.1.trans h21.1, h32.2.1.trans h21.2.1, h32.2.2.1.trans h21.2.2.1,
   h32.2.2.2.trans h21.2.2.2⟩

theorem divisionWalls_frame (g : Grid) (wx wy px py dx dy length : Nat) :
    (g.divisionWalls wx wy px py dx dy length).SameFrame g := by
  unfold Grid.divisionWalls
  refine foldl_invariant _ (fun g2 : Grid => g2.SameFrame g) _ _ (Grid.sameFrame_self g) ?_
  intro g2 i _ hg2
  dsimp only
  split_ifs
  · exact ⟨hg2.1, hg2.2.1, hg2.2.2.1, hg2.2.2.2⟩
  · exact hg2

theorem recursiveDivision_frame (fuel : Nat) :
    ∀ (g : Grid) (row col height width : Nat) (horizontal : Bool) (rng : List Nat),
    (Grid.recursiveDivision fuel g row col height width horizontal rng).1.SameFrame g := by
  induction fuel with
  | zero => intro g row col height width horizontal rng; exact Grid.sameFrame_self g
  | succ fuel ih =>
    intro g row col height width horizontal rng
    unfold Grid.recursiveDivision
    split_ifs
    · exact Grid.sameFrame_self g
    · dsimp only
      exact ((ih _ _ _ _ _ _ _).trans (ih _ _ _ _ _ _ _)).trans
        (divisionWalls_frame g _ _ _ _ _ _ _)

theorem mazeCleared_frame (g : Grid) : g.mazeCleared.SameFrame g :=
  ⟨rfl, rfl, rfl, rfl⟩

theorem mazeDivided_frame (g : Grid) (rng : List Nat) :
    (g.mazeDivided rng).1.SameFrame g := by
  unfold Grid.mazeDivided
  exact (recursiveDivision_frame _ _ _ _ _ _ _ _).trans (mazeCleared_frame g)

theorem getD_mem_of_lt {α : Type} (l : List α) (n : Nat) (d : α) (h : n < l.length) :
    l.getD n d ∈ l := by
  rw [List.getD_eq_getElem l d h]
  exact List.getElem_mem h

theorem Node.clear_frame (n : Node) :
    (n.clear).row = n.row ∧ (n.clear).col = n.col ∧
    (n.clear).isStart = n.isStart ∧ (n.clear).isEnd = n.isEnd := by
  unfold Node.clear
  split_ifs <;> exact ⟨rfl, rfl, rfl, rfl⟩

theorem Node.setAsWall_frame (n : Node) :
    (n.setAsWall).row = n.row ∧ (n.setAsWall).col = n.col ∧
    (n.setAsWall).isStart = n.isStart ∧ (n.setAsWall).isEnd = n.isEnd := by
  unfold Node.setAsWall
  split_ifs <;> exact ⟨rfl, rfl, rfl, rfl⟩

theorem Grid.WF.cellInv {g : Grid} {s e : Pos} (h : g.WF s e) : g.CellInv s e :=
  ⟨h.2.2.2.2.2.2.2.2.2.1, h.2.2.2.2.2.2.2.2.2.2.1, h.2.2.2.2.2.2.2.2.2.2.2.1,
   h.2.2.2.2.2.2.2.1, h.2.2.2.2.2.2.2.2.1⟩

theorem Grid.allPositions_congr {g2 g : Grid} (hr : g2.rows = g.rows)
    (hc : g2.cols = g.cols) : g2.allPositions = g.allPositions := by
  unfold Grid.allPositions
  rw [hr, hc]

theorem mazeCleared_cellInv {g : Grid} {s e : Pos}
    (hs : s.1 < g.rows ∧ s.2 < g.cols) (he : e.1 < g.rows ∧ e.2 < g.cols)
    (h : g.CellInv s e) : g.mazeCleared.CellInv s e := by
  obtain ⟨hpos, hfs, hfe, hws, hwe⟩ := h
  have hcells : ∀ p : Pos, g.mazeCleared.cells p
      = if p.1 < g.rows ∧ p.2 < g.cols then (g.cells p).clear else g.cells p := fun p => rfl
  have hall : g.mazeCleared.allPositions = g.allPositions := Grid.allPositions_congr rfl rfl
  refine ⟨?_, ?_, ?_, ?_, ?_⟩
  · intro p hp
    rw [hall] at hp
    rw [hcells p]
    split_ifs
    · exact ⟨(Node.clear_frame _).1.trans (hpos p hp).1,
        (Node.clear_frame _).2.1.trans (hpos p hp).2⟩
    · exact hpos p hp
  · intro p hp
    rw [hall] at hp
    rw [hcells p]
    split_ifs
    · rw [(Node.clear_frame _).2.2.1]
      exact hfs p hp
    · exact hfs p hp
  · intro p hp
    rw [hall] at hp
    rw [hcells p]
    split_ifs
    · rw [(Node.clear_frame _).2.2.2]
      exact hfe p hp
    · exact hfe p hp
  · rw [hcells s, if_pos hs]
    unfold Node.clear
    split_ifs
    · rfl
    · exact hws
  · rw [hcells e, if_pos he]
    unfold Node.clear
    split_ifs
    · rfl
    · exact hwe

theorem divisionWalls_cellInv {g : Grid} {s e : Pos}
    (h : g.CellInv s e) (wx wy px py dx dy length : Nat) :
    (g.divisionWalls wx wy px py dx dy length).CellInv s e := by
  unfold Grid.divisionWalls
  refine foldl_invariant _ (fun g2 : Grid => g2.CellInv s e) _ _ h ?_
  intro g2 i _ hg2
  obtain ⟨hpos, hfs, hfe, hws, hwe⟩ := hg2
  dsimp only
  split_ifs with hcond
  · have hqmem : ((wy + i * dy, wx + i * dx) : Pos) ∈ g2.allPositions := by
      refine (Grid.mem_allPositions g2 _).mpr ?_
      have := hcond.2.1
      unfold Grid.isValidPosition at this
      simp only [Bool.and_eq_true, decide_eq_true_eq] at this
      exact this
    have hsq : s ≠ ((wy + i * dy, wx + i * dx) : Pos) := by
      intro hsq
      have := (hfs _ hqmem).mpr hsq.symm
      rw [hcond.2.2.1] at this
      cases this
    have heq : e ≠ ((wy + i * dy, wx + i * dx) : Pos) := by
      intro heq
      have := (hfe _ hqmem).mpr heq.symm
      rw [hcond.2.2.2] at this
      cases this
    have hcells : ∀ r : Pos,
        (g2.setCell (wy + i * dy, wx + i * dx) ((g2.cells (wy + i * dy, wx + i * dx)).setAsWall)).cells r
        = if r = ((wy + i * dy, wx + i * dx) : Pos)
          then (g2.cells (wy + i * dy, wx + i * dx)).setAsWall else g2.cells r := by
      intro r
      by_cases hr : r = ((wy + i * dy, wx + i * dx) : Pos)
      · rw [if_pos hr, hr, Grid.setCell_cells_self]
      · rw [if_neg hr, Grid.setCell_cells_other g2 _ r _ hr]
    have hall : (g2.setCell (wy + i * dy, wx + i * dx)
        ((g2.cells (wy + i * dy, wx + i * dx)).setAsWall)).allPositions = g2.allPositions :=
      Grid.allPositions_congr rfl rfl
    refine ⟨?_, ?_, ?_, ?_, ?_⟩
    · intro p hp
      rw [hall] at hp
      rw [hcells p]
      split_ifs with hpq
      · subst hpq
        exact ⟨(Node.setAsWall_frame _).1.trans (hpos _ hp).1,
          (Node.setAsWall_frame _).2.1.trans (hpos _ hp).2⟩
      · exact hpos p hp
    · intro p hp
      rw [hall] at hp
      rw [hcells p]
      split_ifs with hpq
      · subst hpq
        rw [(Node.setAsWall_frame _).2.2.1]
        exact hfs _ hp
      · exact hfs p hp
    · intro p hp
      rw [hall] at hp
      rw [hcells p]
      split_ifs with hpq
      · subst hpq
        rw [(Node.setAsWall_frame _).2.2.2]
        exact hfe _ hp
      · exact hfe p hp
    · rw [hcells s, if_neg hsq]
      exact hws
    · rw [hcells e, if_neg heq]
      exact hwe
  · exact ⟨hpos, hfs, hfe, hws, hwe⟩

theorem recursiveDivision_cellInv (fuel : Nat) :
    ∀ (g : Grid) {s e : Pos} (row col height width : Nat) (horizontal : Bool)
      (rng : List Nat), g.CellInv s e →
    (Grid.recursiveDivision fuel g row col height width horizontal rng).1.CellInv s e := by
  induction fuel with
  | zero => intro g s e row col height width horizontal rng h; exact h
  | succ fuel ih =>
    intro g s e row col height width horizontal rng h
    unfold Grid.recursiveDivision
    split_ifs
    · exact h
    · dsimp only
      exact ih _ _ _ _ _ _ _ (ih _ _ _ _ _ _ _ (divisionWalls_cellInv h _ _ _ _ _ _ _))

theorem bfsFindEnd_sound (g : Grid) (s e : Pos) (he : g.endNode = some e) :
    ∀ (fuel : Nat) (queue visited : List Pos),
    (∀ p ∈ queue, g.ReachableFrom s p) →
    g.bfsFindEnd fuel queue visited = true → g.ReachableFrom s e := by
  intro fuel
  induction fuel with
  | zero =>
    intro queue visited _ h
    simp [Grid.bfsFindEnd] at h
  | succ fuel ih =>
    intro queue visited hq h
    match queue with
    | [] => simp [Grid.bfsFindEnd] at h
    | node :: rest =>
      rw [Grid.bfsFindEnd] at h
      split_ifs at h with hend
      · rw [he, Option.some.injEq] at hend
        exact hend ▸ hq node (List.mem_cons_self node rest)
      · refine ih _ _ ?_ h
        refine foldl_invariant _
          (fun qv : List Pos × List Pos => ∀ p ∈ qv.1, g.ReachableFrom s p) _ _
          (fun p hp => hq p (List.mem_cons_of_mem node hp)) ?_
        intro qv nb hnb hqv
        dsimp only
        split_ifs with hcond
        · intro p hp
          rcases List.mem_append.mp hp with hp | hp
          · exact hqv p hp
          · rcases List.mem_singleton.mp hp with rfl
            exact Relation.ReflTransGen.tail (hq node (List.mem_cons_self node rest))
              ⟨hnb, hcond.1⟩
        · exact hqv

theorem carveOptions_spec (g : Grid) (endR endC r c : Nat) (rng : List Nat)
    (hne : ¬(r = endR ∧ c = endC)) (hr : r < g.rows) (hc : c < g.cols)
    (heR : endR < g.rows) (heC : endC < g.cols) :
    (g.carveOptions endR endC r c rng).1 ≠ [] ∧
    ∀ q ∈ (g.carveOptions endR endC r c rng).1,
      q.1 < g.rows ∧ q.2 < g.cols ∧ orthAdjacent (r, c) q := by
  unfold Grid.carveOptions
  dsimp only
  constructor
  · intro hempty
    have hlen := congrArg List.length hempty
    simp only [List.length_append, List.length_nil] at hlen
    have h1 : r ≠ endR ∨ c ≠ endC := by tauto
    rcases h1 with h1 | h1
    · rcases Nat.lt_or_ge r endR with h2 | h2
      · rw [if_pos h2] at hlen
        simp at hlen
      · have h3 : endR < r := by omega
        rw [if_pos h3] at hlen
        simp at hlen
    · rcases Nat.lt_or_ge c endC with h2 | h2
      · rw [if_pos h2] at hlen
        simp at hlen
      · have h3 : endC < c := by omega
        rw [if_pos h3] at hlen
        simp at hlen
  · intro q hq
    simp only [List.append_assoc, List.mem_append] at hq
    rcases hq with hq | hq | hq | hq | hq | hq | hq | hq <;>
      (split_ifs at hq with hco
       · rcases List.mem_singleton.mp hq with rfl
         refine ⟨by omega, by omega, ?_⟩
         unfold orthAdjacent
         dsimp only
         omega
       · exact absurd hq (List.not_mem_nil q))

theorem carveWalkLoop_spec (g : Grid) (endR endC : Nat)
    (heR : endR < g.rows) (heC : endC < g.cols) :
    ∀ (fuel r c : Nat) (path : List Pos) (rng : List Nat),
    r < g.rows → c < g.cols →
    path.getLast? = some (r, c) →
    (∀ p ∈ path, p.1 < g.rows ∧ p.2 < g.cols) →
    List.Chain' orthAdjacent path →
    (∃ t, (g.carveWalkLoop endR endC fuel r c path rng).1 = path ++ t) ∧
    (∀ p ∈ (g.carveWalkLoop endR endC fuel r c path rng).1,
      p.1 < g.rows ∧ p.2 < g.cols) ∧
    List.Chain' orthAdjacent (g.carveWalkLoop endR endC fuel r c path rng).1 := by
  intro fuel
  induction fuel with
  | zero =>
    intro r c path rng _ _ _ hb hch
    exact ⟨⟨[], (List.append_nil path).symm⟩, hb, hch⟩
  | succ fuel ih =>
    intro r c path rng hr hc hlast hb hch
    rw [Grid.carveWalkLoop]
    by_cases hatend : r = endR ∧ c = endC
    · rw [if_pos hatend]
      exact ⟨⟨[], (List.append_nil path).symm⟩, hb, hch⟩
    · rw [if_neg hatend]
      dsimp only
      set op := g.carveOptions endR endC r c rng with hop
      set ri := drawNat op.1.length op.2 with hri
      set nx := op.1.getD ri.1 (r, c) with hnx
      have hspec := carveOptions_spec g endR endC r c rng hatend hr hc heR heC
      have hlen : 0 < op.1.length := List.length_pos.mpr hspec.1
      have hidx : ri.1 < op.1.length := by
        rw [hri]
        unfold drawNat
        cases op.2 with
        | nil => exact hlen
        | cons k rest => exact Nat.mod_lt k hlen
      have hnextmem : nx ∈ op.1 := getD_mem_of_lt op.1 ri.1 (r, c) hidx
      obtain ⟨hnb1, hnb2, hnadj⟩ := hspec.2 nx hnextmem
      have hb2 : ∀ p ∈ path ++ [nx], p.1 < g.rows ∧ p.2 < g.cols := by
        intro p hp
        rcases List.mem_append.mp hp with hp | hp
        · exact hb p hp
        · rcases List.mem_singleton.mp hp with rfl
          exact ⟨hnb1, hnb2⟩
      have hch2 : List.Chain' orthAdjacent (path ++ [nx]) := by
        refine hch.append (List.chain'_singleton nx) ?_
        intro x hx y hy
        rw [hlast, Option.mem_some_iff] at hx
        simp only [List.head?_cons, Option.mem_some_iff] at hy
        rw [← hx, ← hy]
        exact hnadj
      have hres := ih nx.1 nx.2 (path ++ [nx]) ri.2 hnb1 hnb2
        (by rw [List.getLast?_concat]) hb2 hch2
      refine ⟨?_, hres.2.1, hres.2.2⟩
      obtain ⟨t, ht⟩ := hres.1
      exact ⟨[nx] ++ t, by rw [ht, List.append_assoc]⟩

theorem clearFold_cells (gd : Grid) (path : List Pos) (q : Pos) :
    (((path.foldl (fun g p =>
        if (g.cells p).isStart = false ∧ (g.cells p).isEnd = false
        then g.setCell p { g.cells p with isWall := false } else g) gd).cells q).row
      = (gd.cells q).row) ∧
    (((path.foldl (fun g p =>
        if (g.cells p).isStart = false ∧ (g.cells p).isEnd = false
        then g.setCell p { g.cells p with isWall := false } else g) gd).cells q).col
      = (gd.cells q).col) ∧
    (((path.foldl (fun g p =>
        if (g.cells p).isStart = false ∧ (g.cells p).isEnd = false
        then g.setCell p { g.cells p with isWall := false } else g) gd).cells q).isStart
      = (gd.cells q).isStart) ∧
    (((path.foldl (fun g p =>
        if (g.cells p).isStart = false ∧ (g.cells p).isEnd = false
        then g.setCell p { g.cells p with isWall := false } else g) gd).cells q).isEnd
      = (gd.cells q).isEnd) ∧
    (((path.foldl (fun g p =>
        if (g.cells p).isStart = false ∧ (g.cells p).isEnd = false
        then g.setCell p { g.cells p with isWall := false } else g) gd).cells q).isWall = true
      → (gd.cells q).isWall = true) := by
  refine foldl_invariant _ (fun g2 : Grid =>
    ((g2.cells q).row = (gd.cells q).row) ∧
    ((g2.cells q).col = (gd.cells q).col) ∧
    ((g2.cells q).isStart = (gd.cells q).isStart) ∧
    ((g2.cells q).isEnd = (gd.cells q).isEnd) ∧
    ((g2.cells q).isWall = true → (gd.cells q).isWall = true)) _ _
    ⟨rfl, rfl, rfl, rfl, fun h => h⟩ ?_
  intro g2 p _ hg2
  dsimp only
  split_ifs with hflag
  · by_cases hqp : q = p
    · subst hqp
      rw [Grid.setCell_cells_self]
      exact ⟨hg2.1, hg2.2.1, hg2.2.2.1, hg2.2.2.2.1, fun h => by cases h⟩
    · rw [Grid.setCell_cells_other _ _ _ _ hqp]
      exact hg2
  · exact hg2

theorem clearFold_frame (gd : Grid) (path : List Pos) :
    (path.foldl (fun g p =>
      if (g.cells p).isStart = false ∧ (g.cells p).isEnd = false
      then g.setCell p { g.cells p with isWall := false } else g) gd).SameFrame gd := by
  refine foldl_invariant _ (fun g2 : Grid => g2.SameFrame gd) _ _ (Grid.sameFrame_self gd) ?_
  intro g2 p _ hg2
  dsimp only
  split_ifs
  · exact hg2
  · exact hg2

theorem clearFold_clears (gd : Grid) (s e : Pos)
    (hfs : ∀ p ∈ gd.allPositions, ((gd.cells p).isStart = true ↔ p = s))
    (hfe : ∀ p ∈ gd.allPositions, ((gd.cells p).isEnd = true ↔ p = e))
    (hws : (gd.cells s).isWall = false) (hwe : (gd.cells e).isWall = false)
    (path : List Pos) (hbp : ∀ p ∈ path, p.1 < gd.rows ∧ p.2 < gd.cols) :
    ∀ q ∈ path,
      ((path.foldl (fun g p =>
        if (g.cells p).isStart = false ∧ (g.cells p).isEnd = false
        then g.setCell p { g.cells p with isWall := false } else g) gd).cells q).isWall
      = false := by
  induction path generalizing gd with
  | nil => intro q hq; cases hq
  | cons p t ih =>
    intro q hq
    rw [List.foldl_cons]
    have hframe1 : ((fun (g : Grid) p =>
        if (g.cells p).isStart = false ∧ (g.cells p).isEnd = false
        then g.setCell p { g.cells p with isWall := false } else g) gd p).SameFrame gd := by
      dsimp only
      split_ifs
      · exact Grid.sameFrame_self _
      · exact Grid.sameFrame_self gd
    set gd2 := (fun (g : Grid) p =>
        if (g.cells p).isStart = false ∧ (g.cells p).isEnd = false
        then g.setCell p { g.cells p with isWall := false } else g) gd p with hgd2
    have hall2 : gd2.allPositions = gd.allPositions :=
      Grid.allPositions_congr hframe1.1 hframe1.2.1
    have hcellpres : ∀ r : Pos,
        (gd2.cells r).isStart = (gd.cells r).isStart ∧
        (gd2.cells r).isEnd = (gd.cells r).isEnd ∧
        ((gd2.cells r).isWall = true → (gd.cells r).isWall = true) := by
      intro r
      rw [hgd2]
      dsimp only
      split_ifs with hflag
      · by_cases hrp : r = p
        · subst hrp
          rw [Grid.setCell_cells_self]
          exact ⟨rfl, rfl, fun h => by cases h⟩
        · rw [Grid.setCell_cells_other _ _ _ _ hrp]
          exact ⟨rfl, rfl, fun h => h⟩
      · exact ⟨rfl, rfl, fun h => h⟩
    have hfs2 : ∀ r ∈ gd2.allPositions, ((gd2.cells r).isStart = true ↔ r = s) := by
      intro r hr
      rw [hall2] at hr
      rw [(hcellpres r).1]
      exact hfs r hr
    have hfe2 : ∀ r ∈ gd2.allPositions, ((gd2.cells r).isEnd = true ↔ r = e) := by
      intro r hr
      rw [hall2] at hr
      rw [(hcellpres r).2.1]
      exact hfe r hr
    have hws2 : (gd2.cells s).isWall = false := by
      rcases Bool.eq_false_or_eq_true (gd2.cells s).isWall with h | h
      · exact absurd ((hcellpres s).2.2 h) (by rw [hws]; exact Bool.false_ne_true)
      · exact h
    have hwe2 : (gd2.cells e).isWall = false := by
      rcases Bool.eq_false_or_eq_true (gd2.cells e).isWall with h | h
      · exact absurd ((hcellpres e).2.2 h) (by rw [hwe]; exact Bool.false_ne_true)
      · exact h
    have hbp2 : ∀ r ∈ t, r.1 < gd2.rows ∧ r.2 < gd2.cols := by
      intro r hr
      rw [hframe1.1, hframe1.2.1]
      exact hbp r (List.mem_cons_of_mem p hr)
    rcases List.mem_cons.mp hq with rfl | hqt
    · -- q = p : after this step the wall at p is false, and the rest of the
      -- fold never sets a wall
      have hpw2 : (gd2.cells q).isWall = false := by
        rw [hgd2]
        dsimp only
        split_ifs with hflag
        · rw [Grid.setCell_cells_self]
        · have hpmem : q ∈ gd.allPositions :=
            (Grid.mem_allPositions gd q).mpr (hbp q (List.mem_cons_self q t))
          rw [Classical.not_and_iff_or_not_not] at hflag
          rcases hflag with hflag | hflag
          · have : (gd.cells q).isStart = true := by
              rcases Bool.eq_false_or_eq_true (gd.cells q).isStart with h | h
              · exact h
              · exact absurd h hflag
            rw [(hfs q hpmem).mp this]
            exact hws
          · have : (gd.cells q).isEnd = true := by
              rcases Bool.eq_false_or_eq_true (gd.cells q).isEnd with h | h
              · exact h
              · exact absurd h hflag
            rw [(hfe q hpmem).mp this]
            exact hwe
      rcases Bool.eq_false_or_eq_true ((t.foldl (fun g p =>
          if (g.cells p).isStart = false ∧ (g.cells p).isEnd = false
          then g.setCell p { g.cells p with isWall := false } else g) gd2).cells q).isWall
        with h | h
      · exact absurd ((clearFold_cells gd2 t q).2.2.2.2 h)
          (by rw [hpw2]; exact Bool.false_ne_true)
      · exact h
    · exact ih gd2 hfs2 hfe2 hws2 hwe2 hbp2 q hqt

theorem chain_reachable (g2 : Grid)
    (hpos : ∀ p ∈ g2.allPositions, (g2.cells p).row = p.1 ∧ (g2.cells p).col = p.2) :
    ∀ (path : List Pos) (x y : Pos),
    path.head? = some x → path.getLast? = some y →
    List.Chain' orthAdjacent path →
    (∀ p ∈ path, p.1 < g2.rows ∧ p.2 < g2.cols) →
    (∀ p ∈ path, (g2.cells p).isWall = false) →
    g2.ReachableFrom x y := by
  intro path
  induction path with
  | nil => intro x y hx; cases hx
  | cons a t ih =>
    intro x y hx hy hch hb hw
    simp only [List.head?_cons, Option.some.injEq] at hx
    subst hx
    cases t with
    | nil =>
      simp only [List.getLast?_singleton, Option.some.injEq] at hy
      subst hy
      exact Relation.ReflTransGen.refl
    | cons b t2 =>
      have hab : orthAdjacent a b := (List.chain'_cons.mp hch).1
      have hstep : stepRel g2 a b := by
        have hxmem : a ∈ g2.allPositions :=
          (Grid.mem_allPositions g2 a).mpr (hb a (List.mem_cons_self a _))
        have hxb := hb a (List.mem_cons_self a _)
        have hbb := hb b (List.mem_cons_of_mem a (List.mem_cons_self b t2))
        refine ⟨?_, hw b (List.mem_cons_of_mem a (List.mem_cons_self b t2))⟩
        refine ((getNeighbors_spec g2 (g2.cells a)
          (by rw [(hpos a hxmem).1]; exact hxb.1)
          (by rw [(hpos a hxmem).2]; exact hxb.2)).2 b).mpr ?_
        refine ⟨hbb.1, hbb.2, ?_⟩
        rw [(hpos a hxmem).1, (hpos a hxmem).2]
        exact hab
      refine Relation.ReflTransGen.head hstep ?_
      refine ih b y rfl ?_ (List.chain'_cons.mp hch).2 ?_ ?_
      · rw [← hy]
        rfl
      · exact fun p hp => hb p (List.mem_cons_of_mem a hp)
      · exact fun p hp => hw p (List.mem_cons_of_mem a hp)

theorem generateRandomMaze_connects (g : Grid) (s e : Pos) (rng : List Nat)
    (hwf : g.WF s e)
    (hnc : ((g.mazeDivided rng).1.ensureInfo (g.mazeDivided rng).2).2 = none ∨
      ∃ path, ((g.mazeDivided rng).1.ensureInfo (g.mazeDivided rng).2).2 = some path ∧
        path.getLast? = some e) :
    (g.generateRandomMaze rng).ReachableFrom s e := by
  obtain ⟨hgs, hge, hs1, hs2, he1, he2, hsne, hws, hwe, hpos, hfs, hfe, hwt⟩ := hwf
  set gd := (g.mazeDivided rng).1 with hgd
  set rngd := (g.mazeDivided rng).2 with hrngd
  have hframe : gd.SameFrame g := mazeDivided_frame g rng
  have hgs2 : gd.startNode = some s := hframe.2.2.1.trans hgs
  have hge2 : gd.endNode = some e := hframe.2.2.2.trans hge
  have hrows : gd.rows = g.rows := hframe.1
  have hcols : gd.cols = g.cols := hframe.2.1
  have hinv : gd.CellInv s e := by
    rw [hgd]
    unfold Grid.mazeDivided
    exact recursiveDivision_cellInv _ _ _ _ _ _ _ _
      (mazeCleared_cellInv ⟨hs1, hs2⟩ ⟨he1, he2⟩ ⟨hpos, hfs, hfe, hws, hwe⟩)
  obtain ⟨hpos2, hfs2, hfe2, hws2, hwe2⟩ := hinv
  have hres : g.generateRandomMaze rng = (gd.ensureInfo rngd).1 := rfl
  rw [hres]
  by_cases hfound : gd.bfsFindEnd (2 * (gd.rows * gd.cols) + 1) [s] [s] = true
  · have h1 : (gd.ensureInfo rngd).1 = gd := by
      unfold Grid.ensureInfo
      rw [hgs2, hge2]
      dsimp only
      rw [if_pos hfound]
    rw [h1]
    exact bfsFindEnd_sound gd s e hge2 _ [s] [s]
      (fun p hp => by
        rcases List.mem_singleton.mp hp with rfl
        exact Relation.ReflTransGen.refl)
      hfound
  · have h2 : (gd.ensureInfo rngd).1
        = (gd.carveWalkLoop e.1 e.2 (gd.rows * gd.cols * 2) s.1 s.2
            [(s.1, s.2)] rngd).1.foldl
          (fun g p =>
            if (g.cells p).isStart = false ∧ (g.cells p).isEnd = false
            then g.setCell p { g.cells p with isWall := false } else g) gd := by
      unfold Grid.ensureInfo
      rw [hgs2, hge2]
      dsimp only
      rw [if_neg hfound]
    have h3 : (gd.ensureInfo rngd).2
        = some (gd.carveWalkLoop e.1 e.2 (gd.rows * gd.cols * 2) s.1 s.2
            [(s.1, s.2)] rngd).1 := by
      unfold Grid.ensureInfo
      rw [hgs2, hge2]
      dsimp only
      rw [if_neg hfound]
    have hlast : (gd.carveWalkLoop e.1 e.2 (gd.rows * gd.cols * 2) s.1 s.2
        [(s.1, s.2)] rngd).1.getLast? = some e := by
      rcases hnc with hnc | ⟨path, hpeq, hplast⟩
      · rw [h3] at hnc
        cases hnc
      · rw [h3, Option.some.injEq] at hpeq
        rw [hpeq]
        exact hplast
    have hwalk := carveWalkLoop_spec gd e.1 e.2
      (by rw [hrows]; exact he1) (by rw [hcols]; exact he2)
      (gd.rows * gd.cols * 2) s.1 s.2 [(s.1, s.2)] rngd
      (by rw [hrows]; exact hs1) (by rw [hcols]; exact hs2) rfl
      (by
        intro p hp
        rcases List.mem_singleton.mp hp with rfl
        exact ⟨by rw [hrows]; exact hs1, by rw [hcols]; exact hs2⟩)
      (List.chain'_singleton _)
    obtain ⟨⟨t, hpre⟩, hbnd, hchain⟩ := hwalk
    set wp := (gd.carveWalkLoop e.1 e.2 (gd.rows * gd.cols * 2) s.1 s.2
        [(s.1, s.2)] rngd).1 with hwp
    set g2 := wp.foldl
        (fun g p =>
          if (g.cells p).isStart = false ∧ (g.cells p).isEnd = false
          then g.setCell p { g.cells p with isWall := false } else g) gd with hg2
    rw [h2]
    have hframe2 : g2.SameFrame gd := clearFold_frame gd wp
    have hall2 : g2.allPositions = gd.allPositions :=
      Grid.allPositions_congr hframe2.1 hframe2.2.1
    have hpos3 : ∀ p ∈ g2.allPositions, (g2.cells p).row = p.1 ∧ (g2.cells p).col = p.2 := by
      intro p hp
      rw [hall2] at hp
      exact ⟨(clearFold_cells gd wp p).1.trans (hpos2 p hp).1,
        (clearFold_cells gd wp p).2.1.trans (hpos2 p hp).2⟩
    have hwalls : ∀ p ∈ wp, (g2.cells p).isWall = false :=
      fun p hp => clearFold_clears gd s e hfs2 hfe2 hws2 hwe2 wp hbnd p hp
    have hbnd2 : ∀ p ∈ wp, p.1 < g2.rows ∧ p.2 < g2.cols := by
      intro p hp
      rw [hframe2.1, hframe2.2.1]
      exact hbnd p hp
    have hhead : wp.head? = some s := by
      rw [hpre]
      rfl
    exact chain_reachable g2 hpos3 wp s e hhead hlast hchain hbnd2 hwalls

/-- C1 amended witness: on a fresh 2 × 2 grid with an empty stream the BFS
check passes immediately (no repair walk), and End is reachable. -/
theorem generateRandomMaze_connects_witness :
    ((Grid.create 2 2).generateRandomMaze []).ReachableFrom (0, 0) (1, 1) :=
  generateRandomMaze_connects (Grid.create 2 2) (0, 0) (1, 1) []
    (by decide) (Or.inl (by decide))

/-!
## C2 counterexample: equal-cost searches can report different pathLengths
-/


/-!
## Paths and their costs
-/

theorem chain_to_reflTransGen {α : Type} (r : α → α → Prop) :
    ∀ (l : List α) (x y : α), l.head? = some x → l.getLast? = some y →
      List.Chain' r l → Relation.ReflTransGen r x y := by
  intro l
  induction l with
  | nil => intro x y hx _ _; cases hx
  | cons a t ih =>
    intro x y hx hy hch
    simp only [List.head?_cons, Option.some.injEq] at hx
    subst hx
    cases t with
    | nil =>
      simp only [List.getLast?_singleton, Option.some.injEq] at hy
      subst hy
      exact Relation.ReflTransGen.refl
    | cons b t2 =>
      rw [List.chain'_cons] at hch
      rw [List.getLast?_cons_cons] at hy
      exact Relation.ReflTransGen.head hch.1 (ih b y rfl hy hch.2)

theorem Grid.ReachableFrom.exists_isPath {g : Grid} {s p : Pos}
    (h : g.ReachableFrom s p) : ∃ l, g.IsPath s p l := by
  induction h with
  | refl => exact ⟨[s], rfl, rfl, List.chain'_singleton s⟩
  | tail hab hbc ih =>
    obtain ⟨l, hh, hl, hc⟩ := ih
    rename_i b c
    refine ⟨l ++ [c], ?_, ?_, ?_⟩
    · cases l with
      | nil => cases hh
      | cons a t => simpa using hh
    · simp [List.getLast?_concat]
    · refine List.chain'_append.mpr ⟨hc, List.chain'_singleton c, ?_⟩
      intro x hx z hz
      simp only [List.head?_cons, Option.mem_def, Option.some.injEq] at hz
      subst hz
      rw [hl] at hx
      simp only [Option.mem_def, Option.some.injEq] at hx
      subst hx
      exact hbc

theorem Grid.IsPath.reachable {g : Grid} {s p : Pos} {l : List Pos}
    (h : g.IsPath s p l) : g.ReachableFrom s p :=
  chain_to_reflTransGen _ l s p h.1 h.2.1 h.2.2

theorem Grid.pathCost_concat (g : Grid) (l : List Pos) (c : Pos) (h : l ≠ []) :
    g.pathCost (l ++ [c]) = g.pathCost l + (g.cells c).weight := by
  cases l with
  | nil => cases h rfl
  | cons a t => simp [Grid.pathCost]

theorem Grid.pathCost_prefix_le (g : Grid) (l1 l2 : List Pos) :
    g.pathCost l1 ≤ g.pathCost (l1 ++ l2) := by
  cases l1 with
  | nil => simp [Grid.pathCost]
  | cons a t => simp [Grid.pathCost]

theorem Grid.IsPath.upto {g : Grid} {s z : Pos} {l1 l2 : List Pos} {y : Pos}
    (h : g.IsPath s z (l1 ++ y :: l2)) : g.IsPath s y (l1 ++ [y]) := by
  obtain ⟨hh, _, hc⟩ := h
  rw [List.chain'_append] at hc
  refine ⟨?_, ?_, ?_⟩
  · cases l1 with
    | nil => simpa using hh
    | cons a t => simpa using hh
  · simp [List.getLast?_concat]
  · refine List.chain'_append.mpr ⟨hc.1, List.chain'_singleton y, ?_⟩
    intro x hx z2 hz
    simp only [List.head?_cons, Option.mem_def, Option.some.injEq] at hz
    subst hz
    exact hc.2.2 x hx y (by simp)

theorem exists_first_split {α : Type} (P : α → Prop) :
    ∀ (l : List α) (x : α), x ∈ l → P x →
      ∃ l1 y l2, l = l1 ++ y :: l2 ∧ P y ∧ ∀ q ∈ l1, ¬ P q := by
  intro l
  induction l with
  | nil => intro x hx; cases hx
  | cons a t ih =>
    intro x hx hP
    by_cases hPa : P a
    · exact ⟨[], a, t, rfl, hPa, by simp⟩
    · have hxt : x ∈ t := by
        rcases List.mem_cons.mp hx with h | h
        · subst h; exact absurd hP hPa
        · exact h
      obtain ⟨l1, y, l2, heq, hy, hnone⟩ := ih x hxt hP
      refine ⟨a :: l1, y, l2, by rw [heq]; rfl, hy, ?_⟩
      intro q hq
      rcases List.mem_cons.mp hq with h | h
      · subst h; exact hPa
      · exact hnone q h

theorem length_filter_le_length_filter {α : Type} (P Q : α → Bool) :
    ∀ (l : List α), (∀ a ∈ l, P a = true → Q a = true) →
      (l.filter P).length ≤ (l.filter Q).length := by
  intro l
  induction l with
  | nil => intro _; simp
  | cons a t ih =>
    intro himp
    have ht := ih fun b hb => himp b (List.mem_cons_of_mem a hb)
    by_cases hPa : P a = true
    · have hQa : Q a = true := himp a (List.mem_cons_self a t) hPa
      simp [List.filter_cons, hPa, hQa]
      omega
    · rw [List.filter_cons, if_neg (by simpa using hPa)]
      by_cases hQa : Q a = true
      · rw [List.filter_cons, if_pos (by simp [hQa])]
        simp only [List.length_cons]
        omega
      · rw [List.filter_cons, if_neg (by simpa using hQa)]
        exact ht

theorem length_filter_lt_length_filter {α : Type} (P Q : α → Bool) :
    ∀ (l : List α), (∀ a ∈ l, P a = true → Q a = true) →
      ∀ x ∈ l, Q x = true → P x = false →
      (l.filter P).length < (l.filter Q).length := by
  intro l
  induction l with
  | nil => intro _ x hx; cases hx
  | cons a t ih =>
    intro himp x hx hQ hP
    have ht := length_filter_le_length_filter P Q t
      fun b hb => himp b (List.mem_cons_of_mem a hb)
    by_cases hax : x = a
    · subst hax
      rw [List.filter_cons, if_neg (by simp [hP]), List.filter_cons, if_pos (by simp [hQ])]
      simp only [List.length_cons]
      omega
    · have hxt : x ∈ t := by
        rcases List.mem_cons.mp hx with h | h
        · exact absurd h hax
        · exact h
      have hlt := ih (fun b hb => himp b (List.mem_cons_of_mem a hb)) x hxt hQ hP
      by_cases hPa : P a = true
      · have hQa : Q a = true := himp a (List.mem_cons_self a t) hPa
        rw [List.filter_cons, if_pos (by simp [hPa]), List.filter_cons, if_pos (by simp [hQa])]
        simp only [List.length_cons]
        omega
      · rw [List.filter_cons, if_neg (by simpa using hPa)]
        by_cases hQa : Q a = true
        · rw [List.filter_cons, if_pos (by simp [hQa])]
          simp only [List.length_cons]
          omega
        · rw [List.filter_cons, if_neg (by simpa using hQa)]
          exact hlt

theorem Grid.staticEq_refl (g : Grid) : g.StaticEq g :=
  ⟨Grid.sameFrame_self g, fun _ => ⟨rfl, rfl, rfl, rfl, rfl, rfl⟩⟩

theorem Grid.StaticEq.comp {g3 g2 g1 : Grid} (h32 : g3.StaticEq g2)
    (h21 : g2.StaticEq g1) : g3.StaticEq g1 := by
  obtain ⟨hf32, hc32⟩ := h32
  obtain ⟨hf21, hc21⟩ := h21
  refine ⟨hf32.trans hf21, fun p => ?_⟩
  obtain ⟨a1, a2, a3, a4, a5, a6⟩ := hc32 p
  obtain ⟨b1, b2, b3, b4, b5, b6⟩ := hc21 p
  exact ⟨a1.trans b1, a2.trans b2, a3.trans b3, a4.trans b4, a5.trans b5, a6.trans b6⟩

theorem Grid.StaticEq.getNeighbors_eq {g2 g : Grid} (h : g2.StaticEq g) (p : Pos) :
    g2.getNeighbors (g2.cells p) = g.getNeighbors (g.cells p) := by
  obtain ⟨⟨hr, hc, _, _⟩, hcell⟩ := h
  unfold Grid.getNeighbors
  rw [(hcell p).1, (hcell p).2.1, hr, hc]

theorem Grid.StaticEq.stepRel_iff {g2 g : Grid} (h : g2.StaticEq g) (a b : Pos) :
    stepRel g2 a b ↔ stepRel g a b := by
  unfold stepRel
  rw [h.getNeighbors_eq a, (h.2 b).2.2.2.2.1]

theorem Grid.StaticEq.isPath_iff {g2 g : Grid} (h : g2.StaticEq g) (s p : Pos)
    (l : List Pos) : g2.IsPath s p l ↔ g.IsPath s p l := by
  unfold Grid.IsPath
  have hch : List.Chain' (stepRel g2) l ↔ List.Chain' (stepRel g) l :=
    ⟨fun hc => hc.imp fun a b hab => (h.stepRel_iff a b).mp hab,
     fun hc => hc.imp fun a b hab => (h.stepRel_iff a b).mpr hab⟩
  rw [hch]

theorem Grid.StaticEq.pathCost_eq {g2 g : Grid} (h : g2.StaticEq g) (l : List Pos) :
    g2.pathCost l = g.pathCost l := by
  unfold Grid.pathCost
  have : (fun p : Pos => (g2.cells p).weight) = fun p => (g.cells p).weight :=
    funext fun p => (h.2 p).2.2.2.2.2
  rw [this]

theorem Grid.StaticEq.reachable_iff {g2 g : Grid} (h : g2.StaticEq g) (s p : Pos) :
    g2.ReachableFrom s p ↔ g.ReachableFrom s p := by
  unfold Grid.ReachableFrom
  constructor
  · exact fun hr => Relation.ReflTransGen.mono (fun a b hab => (h.stepRel_iff a b).mp hab) hr
  · exact fun hr => Relation.ReflTransGen.mono (fun a b hab => (h.stepRel_iff a b).mpr hab) hr

theorem Grid.StaticEq.reachStep_eq {g2 g : Grid} (h : g2.StaticEq g) (xs : List Pos) :
    reachStep g2 xs = reachStep g xs := by
  unfold reachStep
  have hinner : (fun (acc : List Pos) (b : Pos) =>
      if (g2.cells b).isWall = false ∧ b ∉ acc then acc ++ [b] else acc) =
      fun acc b => if (g.cells b).isWall = false ∧ b ∉ acc then acc ++ [b] else acc := by
    funext acc b
    rw [(h.2 b).2.2.2.2.1]
  have houter : (fun (acc : List Pos) (a : Pos) =>
      (g2.getNeighbors (g2.cells a)).foldl
        (fun acc b => if (g2.cells b).isWall = false ∧ b ∉ acc then acc ++ [b] else acc)
        acc) =
      fun acc a =>
      (g.getNeighbors (g.cells a)).foldl
        (fun acc b => if (g.cells b).isWall = false ∧ b ∉ acc then acc ++ [b] else acc)
        acc := by
    funext acc a
    rw [hinner, h.getNeighbors_eq a]
  rw [houter]

theorem Grid.StaticEq.reachIter_eq {g2 g : Grid} (h : g2.StaticEq g) :
    ∀ (n : Nat) (xs : List Pos), reachIter g2 n xs = reachIter g n xs := by
  intro n
  induction n with
  | zero => intro xs; rfl
  | succ n ih =>
    intro xs
    show reachIter g2 n (reachStep g2 xs) = reachIter g n (reachStep g xs)
    rw [h.reachStep_eq xs, ih]

theorem Grid.StaticEq.reachClosure_eq {g2 g : Grid} (h : g2.StaticEq g) (s : Pos) :
    reachClosure g2 s = reachClosure g s := by
  unfold reachClosure
  rw [h.1.1, h.1.2.1, h.reachIter_eq]

theorem Grid.StaticEq.wf_iff {g2 g : Grid} (h : g2.StaticEq g) (s e : Pos) :
    g2.WF s e ↔ g.WF s e := by
  obtain ⟨⟨hr, hc, hs, he⟩, hcell⟩ := h
  have hrow : ∀ p : Pos, (g2.cells p).row = (g.cells p).row := fun p => (hcell p).1
  have hcol : ∀ p : Pos, (g2.cells p).col = (g.cells p).col := fun p => (hcell p).2.1
  have hst : ∀ p : Pos, (g2.cells p).isStart = (g.cells p).isStart := fun p => (hcell p).2.2.1
  have hen : ∀ p : Pos, (g2.cells p).isEnd = (g.cells p).isEnd := fun p => (hcell p).2.2.2.1
  have hwl : ∀ p : Pos, (g2.cells p).isWall = (g.cells p).isWall := fun p => (hcell p).2.2.2.2.1
  have hwt : ∀ p : Pos, (g2.cells p).weight = (g.cells p).weight := fun p => (hcell p).2.2.2.2.2
  have hap : g2.allPositions = g.allPositions := Grid.allPositions_congr hr hc
  unfold Grid.WF
  rw [hr, hc, hs, he, hap]
  simp only [hrow, hcol, hst, hen, hwl, hwt]

theorem withTop_lt_add_coe {a : WithTop Nat} {w : Nat} (ha : a ≠ ⊤) (hw : 1 ≤ w) :
    a < a + (w : WithTop Nat) := by
  lift a to Nat using ha
  have h2 : a < a + w := Nat.lt_add_of_pos_right hw
  rw [Nat.cast_withTop, ← WithTop.coe_add]
  exact WithTop.coe_lt_coe.mpr h2

/-- Following `previousNode` links from any finitely-valued cell reproduces a
simple walk from `s`, whose cost telescopes to the cell's value.  The value
map `v` abstracts over `distance` (Dijkstra) and `gScore` (A*). -/
theorem reconstructPathAux_spec (g : Grid) (s : Pos) (v : Pos → WithTop Nat)
    (hsv : s ∈ g.allPositions)
    (hw : ∀ p ∈ g.allPositions, 1 ≤ (g.cells p).weight)
    (hprev : ∀ p ∈ g.allPositions, ∀ y, (g.cells p).previousNode = some y →
      stepRel g y p ∧ y ∈ g.allPositions ∧ v y ≠ ⊤ ∧
      v p = v y + ((g.cells p).weight : WithTop Nat))
    (hnone : ∀ p ∈ g.allPositions, (g.cells p).previousNode = none → v p ≠ ⊤ → p = s)
    (hs0 : v s = 0) :
    ∀ (fuel : Nat) (p : Pos) (acc : List Pos), p ∈ g.allPositions → v p ≠ ⊤ →
      (g.allPositions.filter fun q => decide (v q < v p)).length < fuel →
      ∃ l, reconstructPathAux g fuel (some p) acc = l ++ acc ∧
        g.IsPath s p l ∧ ((g.pathCost l : Nat) : WithTop Nat) = v p ∧
        l.Nodup ∧ ∀ q ∈ l, v q ≤ v p ∧ q ∈ g.allPositions := by
  intro fuel
  induction fuel with
  | zero => intro p acc _ _ hlt; omega
  | succ fuel ih =>
    intro p acc hpmem0 hfin hlt
    have heq : reconstructPathAux g (fuel + 1) (some p) acc =
        reconstructPathAux g fuel ((g.cells p).previousNode) (p :: acc) := rfl
    cases hpv : (g.cells p).previousNode with
    | none =>
      have hps : p = s := hnone p hpmem0 hpv hfin
      subst hps
      have hstop : reconstructPathAux g fuel none (p :: acc) = p :: acc := by
        cases fuel <;> rfl
      refine ⟨[p], ?_, ⟨rfl, rfl, List.chain'_singleton p⟩, ?_, List.nodup_singleton p, ?_⟩
      · rw [heq, hpv, hstop]; rfl
      · show ((0 : Nat) : WithTop Nat) = v p
        rw [hs0]; rfl
      · intro q hq
        rcases List.mem_singleton.mp hq with rfl
        exact ⟨le_refl _, hsv⟩
    | some y =>
      obtain ⟨hstep, hyv, hyfin, hvp⟩ := hprev p hpmem0 y hpv
      have hpmem : p ∈ g.allPositions := hpmem0
      have hwp : 1 ≤ (g.cells p).weight := hw p hpmem
      have hvy_lt : v y < v p := by
        rw [hvp]
        exact withTop_lt_add_coe hyfin hwp
      have hsub : (g.allPositions.filter fun q => decide (v q < v y)).length <
          (g.allPositions.filter fun q => decide (v q < v p)).length := by
        refine length_filter_lt_length_filter _ _ g.allPositions ?_ y hyv ?_ ?_
        · intro a _ ha
          simp only [decide_eq_true_eq] at ha ⊢
          exact lt_trans ha hvy_lt
        · simp only [decide_eq_true_eq]
          exact hvy_lt
        · simp only [decide_eq_false_iff_not]
          exact lt_irrefl (v y)
      obtain ⟨ly, hly, ⟨hh, hl, hc⟩, hcost, hnd, hbd⟩ := ih y (p :: acc) hyv hyfin (by omega)
      have hlynil : ly ≠ [] := by
        intro hnil
        rw [hnil] at hh
        cases hh
      refine ⟨ly ++ [p], ?_, ⟨?_, ?_, ?_⟩, ?_, ?_, ?_⟩
      · rw [heq, hpv, hly, List.append_assoc]
        rfl
      · cases ly with
        | nil => cases hh
        | cons a t => simpa using hh
      · simp [List.getLast?_concat]
      · refine List.chain'_append.mpr ⟨hc, List.chain'_singleton p, ?_⟩
        intro x hx z hz
        simp only [List.head?_cons, Option.mem_def, Option.some.injEq] at hz
        subst hz
        rw [hl] at hx
        simp only [Option.mem_def, Option.some.injEq] at hx
        subst hx
        exact hstep
      · rw [Grid.pathCost_concat g ly p hlynil]
        push_cast
        rw [hcost, ← hvp]
      · rw [List.nodup_append]
        refine ⟨hnd, List.nodup_singleton p, ?_⟩
        intro q hq hq2
        rcases List.mem_singleton.mp hq2 with rfl
        exact absurd (hbd q hq).1 (not_le.mpr hvy_lt)
      · intro q hq
        rcases List.mem_append.mp hq with hq | hq
        · exact ⟨le_trans (hbd q hq).1 (le_of_lt hvy_lt), (hbd q hq).2⟩
        · rcases List.mem_singleton.mp hq with rfl
          exact ⟨le_refl _, hpmem⟩

theorem dijkstraRelax_eq (g : Grid) (u : Pos) :
    dijkstraRelax g u = (g.getNeighbors (g.cells u)).foldl (dStep u) g := rfl

theorem dStep_cells_other (u : Pos) (g : Grid) (nb q : Pos) (h : q ≠ nb) :
    ((dStep u g nb).cells q) = g.cells q := by
  unfold dStep
  dsimp only
  split_ifs <;> first
  | exact Grid.setCell_cells_other g nb q _ h
  | rfl

theorem dStep_cells_self (u : Pos) (g : Grid) (nb : Pos) :
    ((dStep u g nb).cells nb) = dRelaxCell g u nb := by
  unfold dStep dRelaxCell
  dsimp only
  split_ifs <;> first
  | exact Grid.setCell_cells_self g nb _
  | rfl

theorem dStep_sameFrame (u : Pos) (g : Grid) (nb : Pos) : (dStep u g nb).SameFrame g := by
  unfold dStep
  dsimp only
  split_ifs <;> exact ⟨rfl, rfl, rfl, rfl⟩

theorem dRelax_fold_spec (u : Pos) :
    ∀ (l : List Pos) (g : Grid), u ∉ l → l.Nodup →
      (∀ p, p ∉ l → (l.foldl (dStep u) g).cells p = g.cells p) ∧
      ∀ nb ∈ l, (l.foldl (dStep u) g).cells nb = dRelaxCell g u nb := by
  intro l
  induction l with
  | nil => exact fun g _ _ => ⟨fun p _ => rfl, fun nb h => absurd h (List.not_mem_nil nb)⟩
  | cons a t ih =>
    intro g hu hnd
    have hua : u ≠ a := fun h => hu (h ▸ List.mem_cons_self a t)
    have hut : u ∉ t := fun h => hu (List.mem_cons_of_mem a h)
    have hat : a ∉ t := (List.nodup_cons.mp hnd).1
    have hndt : t.Nodup := (List.nodup_cons.mp hnd).2
    obtain ⟨hframe, hmem⟩ := ih (dStep u g a) hut hndt
    constructor
    · intro p hp
      have hpa : p ≠ a := fun h => hp (h ▸ List.mem_cons_self a t)
      have hpt : p ∉ t := fun h => hp (List.mem_cons_of_mem a h)
      show (t.foldl (dStep u) (dStep u g a)).cells p = g.cells p
      rw [hframe p hpt, dStep_cells_other u g a p hpa]
    · intro nb hnb
      rcases List.mem_cons.mp hnb with hnba | hnbt
      · subst hnba
        show (t.foldl (dStep u) (dStep u g nb)).cells nb = dRelaxCell g u nb
        rw [hframe nb hat, dStep_cells_self]
      · show (t.foldl (dStep u) (dStep u g a)).cells nb = dRelaxCell g u nb
        rw [hmem nb hnbt]
        have hnba : nb ≠ a := fun h => hat (h ▸ hnbt)
        have h1 : (dStep u g a).cells nb = g.cells nb := dStep_cells_other u g a nb hnba
        have h2 : (dStep u g a).cells u = g.cells u := dStep_cells_other u g a u hua
        unfold dRelaxCell
        rw [h1, h2]

theorem dRelaxCell_static (g : Grid) (u nb : Pos) :
    (dRelaxCell g u nb).row = (g.cells nb).row ∧
    (dRelaxCell g u nb).col = (g.cells nb).col ∧
    (dRelaxCell g u nb).isStart = (g.cells nb).isStart ∧
    (dRelaxCell g u nb).isEnd = (g.cells nb).isEnd ∧
    (dRelaxCell g u nb).isWall = (g.cells nb).isWall ∧
    (dRelaxCell g u nb).weight = (g.cells nb).weight := by
  unfold dRelaxCell
  dsimp only
  split_ifs <;> exact ⟨rfl, rfl, rfl, rfl, rfl, rfl⟩

theorem dRelaxCell_distance_le (g : Grid) (u nb : Pos) :
    (dRelaxCell g u nb).distance ≤ (g.cells nb).distance := by
  unfold dRelaxCell
  dsimp only
  split_ifs with h1 h2
  · exact le_of_lt h2
  · exact le_refl _
  · exact le_refl _

theorem dRelaxCell_cases (g : Grid) (u nb : Pos) :
    (dRelaxCell g u nb = g.cells nb) ∨
    ((g.cells nb).isWall = false ∧
      (g.cells u).distance + ((g.cells nb).weight : WithTop Nat) < (g.cells nb).distance ∧
      dRelaxCell g u nb = { g.cells nb with
        distance := (g.cells u).distance + ((g.cells nb).weight : WithTop Nat),
        previousNode := some u }) := by
  unfold dRelaxCell Node.getMovementCost
  dsimp only
  split_ifs with h1 h2
  · exact Or.inr ⟨h1, h2, rfl⟩
  · exact Or.inl rfl
  · exact Or.inl rfl

theorem dijkstraRelax_frame (g : Grid) (u p : Pos)
    (hu : u ∉ g.getNeighbors (g.cells u)) (hnd : (g.getNeighbors (g.cells u)).Nodup)
    (hp : p ∉ g.getNeighbors (g.cells u)) :
    (dijkstraRelax g u).cells p = g.cells p := by
  rw [dijkstraRelax_eq]
  exact (dRelax_fold_spec u (g.getNeighbors (g.cells u)) g hu hnd).1 p hp

theorem dijkstraRelax_mem (g : Grid) (u nb : Pos)
    (hu : u ∉ g.getNeighbors (g.cells u)) (hnd : (g.getNeighbors (g.cells u)).Nodup)
    (hnb : nb ∈ g.getNeighbors (g.cells u)) :
    (dijkstraRelax g u).cells nb = dRelaxCell g u nb := by
  rw [dijkstraRelax_eq]
  exact (dRelax_fold_spec u (g.getNeighbors (g.cells u)) g hu hnd).2 nb hnb

theorem dijkstraRelax_sameFrame (g : Grid) (u : Pos) :
    (dijkstraRelax g u).SameFrame g := by
  rw [dijkstraRelax_eq]
  exact foldl_invariant (dStep u) (fun g2 => g2.SameFrame g) _ g (Grid.sameFrame_self g)
    fun b a _ hb => (dStep_sameFrame u b a).trans hb

theorem dijkstraRelax_staticEq (g : Grid) (u : Pos)
    (hu : u ∉ g.getNeighbors (g.cells u)) (hnd : (g.getNeighbors (g.cells u)).Nodup) :
    (dijkstraRelax g u).StaticEq g := by
  refine ⟨dijkstraRelax_sameFrame g u, fun p => ?_⟩
  by_cases hp : p ∈ g.getNeighbors (g.cells u)
  · rw [dijkstraRelax_mem g u p hu hnd hp]
    exact dRelaxCell_static g u p
  · rw [dijkstraRelax_frame g u p hu hnd hp]
    exact ⟨rfl, rfl, rfl, rfl, rfl, rfl⟩

theorem markAsExplored_cells (g : Grid) (u p : Pos) :
    ((g.setCell u ((g.cells u).markAsExplored)).cells p).distance = (g.cells p).distance ∧
    ((g.setCell u ((g.cells u).markAsExplored)).cells p).previousNode =
      (g.cells p).previousNode ∧
    ((g.setCell u ((g.cells u).markAsExplored)).cells p).gScore = (g.cells p).gScore ∧
    ((g.setCell u ((g.cells u).markAsExplored)).cells p).fScore = (g.cells p).fScore := by
  by_cases hp : p = u
  · subst hp
    rw [Grid.setCell_cells_self]
    exact ⟨rfl, rfl, rfl, rfl⟩
  · rw [Grid.setCell_cells_other g u p _ hp]
    exact ⟨rfl, rfl, rfl, rfl⟩

theorem markAsExplored_staticEq (g : Grid) (u : Pos) :
    (g.setCell u ((g.cells u).markAsExplored)).StaticEq g := by
  refine ⟨⟨rfl, rfl, rfl, rfl⟩, fun p => ?_⟩
  by_cases hp : p = u
  · subst hp
    rw [Grid.setCell_cells_self]
    exact ⟨rfl, rfl, rfl, rfl, rfl, rfl⟩
  · rw [Grid.setCell_cells_other g u p _ hp]
    exact ⟨rfl, rfl, rfl, rfl, rfl, rfl⟩

theorem Grid.IsPath.all_mem_allPositions {g : Grid} {s z : Pos} {l : List Pos}
    (h : g.IsPath s z l) (hs : s ∈ g.allPositions) : ∀ q ∈ l, q ∈ g.allPositions := by
  obtain ⟨hh, hlast, hc⟩ := h
  clear hlast
  induction l generalizing s with
  | nil => intro q hq; cases hq
  | cons a t ih =>
    simp only [List.head?_cons, Option.some.injEq] at hh
    subst hh
    intro q hq
    cases t with
    | nil =>
      rcases List.mem_singleton.mp hq with rfl
      exact hs
    | cons b t2 =>
      rw [List.chain'_cons] at hc
      have hb : b ∈ g.allPositions :=
        (Grid.mem_allPositions g b).mpr (Grid.mem_getNeighbors_valid g (g.cells a) b hc.1.1)
      rcases List.mem_cons.mp hq with rfl | hq2
      · exact hs
      · exact ih hb rfl hc.2 q hq2

theorem DInv.dwf {g0 : Grid} {s e : Pos} {g : Grid} {V : List Pos} {x : Nat}
    (hwf : g0.WF s e) (hI : DInv g0 s e g V x) : g.WF s e :=
  (hI.static.wf_iff s e).mpr hwf

theorem DInv.dapos_eq {g0 : Grid} {s e : Pos} {g : Grid} {V : List Pos} {x : Nat}
    (hI : DInv g0 s e g V x) : g.allPositions = g0.allPositions :=
  Grid.allPositions_congr hI.static.1.1 hI.static.1.2.1

/-- The frontier bound: along any walk from Start (in the current grid),
either every cell is already popped, or some unvisited cell already carries
a distance no larger than the walk's total cost. -/
theorem DInv.dfrontier_cases {g0 : Grid} {s e : Pos} {g : Grid} {V : List Pos} {x : Nat}
    (hwf : g0.WF s e) (hI : DInv g0 s e g V x) (z : Pos) (l : List Pos)
    (hl : g.IsPath s z l) :
    (∀ q ∈ l, q ∉ V) ∨
    ∃ y ∈ V, (g.cells y).distance ≤ ((g.pathCost l : Nat) : WithTop Nat) := by
  by_cases hall : ∀ q ∈ l, q ∉ V
  · exact Or.inl hall
  · right
    push_neg at hall
    obtain ⟨q0, hq0, hq0V⟩ := hall
    obtain ⟨l1, y, l2, heq, hyV, hl1⟩ := exists_first_split (· ∈ V) l q0 hq0 hq0V
    have hwfg : g.WF s e := hI.dwf hwf
    have hsmem : s ∈ g.allPositions :=
      (Grid.mem_allPositions g s).mpr ⟨hwfg.2.2.1, hwfg.2.2.2.1⟩
    refine ⟨y, hyV, ?_⟩
    cases hl1e : l1 with
    | nil =>
      subst hl1e
      simp only [List.nil_append] at heq
      have hys : y = s := by
        have := hl.1
        rw [heq] at this
        simp only [List.head?_cons, Option.some.injEq] at this
        exact this
      subst hys
      rw [hI.dist_s]
      exact zero_le _
    | cons a t =>
      have hl1ne : l1 ≠ [] := by rw [hl1e]; exact List.cons_ne_nil a t
      set w := l1.getLast hl1ne with hw
      have hwl : l1.dropLast ++ [w] = l1 := List.dropLast_append_getLast hl1ne
      have hsplit : l = l1.dropLast ++ w :: (y :: l2) := by
        conv_lhs => rw [heq, ← hwl]
        rw [List.append_assoc]
        rfl
      have hwmem : w ∈ l1 := by
        rw [← hwl]
        exact List.mem_append_right _ (List.mem_singleton.mpr rfl)
      have hwV : w ∉ V := hl1 w hwmem
      have hwall : w ∈ g.allPositions :=
        hl.all_mem_allPositions hsmem w (by rw [heq]; exact List.mem_append_left _ hwmem)
      have hwall0 : w ∈ g0.allPositions := by rw [← hI.dapos_eq]; exact hwall
      -- path to w : l1
      have hpw : g.IsPath s w l1 := by
        have := @Grid.IsPath.upto g s z l1.dropLast (y :: l2) w
          (by rw [← hsplit]; exact hl)
        rw [hwl] at this
        exact this
      have hoptw := hI.opt w hwall0 hwV l1 hpw
      -- adjacency w → y from the chain at the split
      have hstepwy : stepRel g w y := by
        have hc := hl.2.2
        rw [hsplit] at hc
        have hc2 := (List.chain'_append.mp hc).2
        rw [List.chain'_cons] at hc2
        · exact hc2.1.1  -- hmm : chain'_append splits (dropLast) ++ (w :: y :: l2)
      -- relaxed at w, neighbour y
      have hywall : (g.cells y).isWall = false := hstepwy.2
      have hrel := hI.relaxed w hwall0 hwV y hstepwy.1 hywall
      have hcost : (g.pathCost (l1 ++ [y]) : Nat) = g.pathCost l1 + (g.cells y).weight :=
        Grid.pathCost_concat g l1 y hl1ne
      have hmono : g.pathCost (l1 ++ [y]) ≤ g.pathCost l := by
        rw [heq, show l1 ++ y :: l2 = (l1 ++ [y]) ++ l2 by rw [List.append_assoc]; rfl]
        exact Grid.pathCost_prefix_le g (l1 ++ [y]) l2
      calc (g.cells y).distance
          ≤ (g.cells w).distance + ((g.cells y).weight : WithTop Nat) := hrel
        _ ≤ ((g.pathCost l1 : Nat) : WithTop Nat) + ((g.cells y).weight : WithTop Nat) := by
            exact add_le_add_right hoptw _
        _ = ((g.pathCost (l1 ++ [y]) : Nat) : WithTop Nat) := by
            rw [hcost]
            push_cast
            rfl
        _ ≤ ((g.pathCost l : Nat) : WithTop Nat) := by
            rw [Nat.cast_withTop, Nat.cast_withTop]
            exact WithTop.coe_le_coe.mpr hmono

theorem dRelaxCell_wall_le (g : Grid) (u nb : Pos) (hwall : (g.cells nb).isWall = false) :
    (dRelaxCell g u nb).distance ≤
      (g.cells u).distance + ((g.cells nb).weight : WithTop Nat) := by
  unfold dRelaxCell Node.getMovementCost
  dsimp only
  rw [if_pos hwall]
  split_ifs with h2
  · exact le_refl _
  · exact le_of_not_lt h2

/-- One relaxation iteration of the Dijkstra loop preserves the invariant:
popping the minimum-distance unvisited cell `u` (non-wall, finite), marking
it explored unless it is Start or End, and relaxing its neighbours. -/
theorem dinv_step {g0 : Grid} {s e : Pos} {g : Grid} {V : List Pos} {x : Nat}
    (hwf : g0.WF s e) (hI : DInv g0 s e g V x)
    {u : Pos} {rest : List Pos}
    (hsort : List.insertionSort (distLE g) V = u :: rest)
    (hwallu : (g.cells u).isWall = false) (hfinu : (g.cells u).distance ≠ ⊤)
    (hne : u ≠ e) :
    DInv g0 s e
      (dijkstraRelax
        (if (g.cells u).isStart = false ∧ (g.cells u).isEnd = false then
          g.setCell u ((g.cells u).markAsExplored)
        else g) u)
      rest
      (if (g.cells u).isStart = false ∧ (g.cells u).isEnd = false then x + 1 else x) := by
  -- sorted-frontier facts
  have hperm : (u :: rest).Perm V := by
    rw [← hsort]
    exact List.perm_insertionSort (distLE g) V
  have hndur : (u :: rest).Nodup := hperm.nodup_iff.mpr hI.vnd
  have hur : u ∉ rest := (List.nodup_cons.mp hndur).1
  have hndrest : rest.Nodup := (List.nodup_cons.mp hndur).2
  have huV : u ∈ V := hperm.subset (List.mem_cons_self u rest)
  have hmemV : ∀ p, p ∈ V ↔ p = u ∨ p ∈ rest := by
    intro p
    rw [← hperm.mem_iff, List.mem_cons]
  have hsorted : List.Sorted (distLE g) (u :: rest) := by
    rw [← hsort]
    exact List.sorted_insertionSort (distLE g) V
  have hmin : ∀ q ∈ rest, (g.cells u).distance ≤ (g.cells q).distance :=
    fun q hq => (List.sorted_cons.mp hsorted).1 q hq
  have hminV : ∀ q ∈ V, (g.cells u).distance ≤ (g.cells q).distance := by
    intro q hq
    rcases (hmemV q).mp hq with rfl | hq2
    · exact le_refl _
    · exact hmin q hq2
  have hlen : rest.length + 1 = V.length := by
    have := hperm.length_eq
    simpa using this
  -- well-formedness of the current grid
  have hwfg : g.WF s e := hI.dwf hwf
  obtain ⟨hsn, hen, hsr, hsc, her, hec, hsne, hsw, hew, hrc, hstart, hend, hwt⟩ := hwfg
  have hap : g.allPositions = g0.allPositions := hI.dapos_eq
  have hu0 : u ∈ g0.allPositions := hI.vmem u huV
  have hug : u ∈ g.allPositions := by rw [hap]; exact hu0
  have hrowu : (g.cells u).row = u.1 := (hrc u hug).1
  have hcolu : (g.cells u).col = u.2 := (hrc u hug).2
  have hub : u.1 < g.rows ∧ u.2 < g.cols := (Grid.mem_allPositions g u).mp hug
  have huN : u ∉ g.getNeighbors (g.cells u) :=
    not_mem_getNeighbors_self g (g.cells u) u (by rw [hrowu]; exact hub.1)
      (by rw [hcolu]; exact hub.2) ⟨hrowu, hcolu⟩
  have hndN : (g.getNeighbors (g.cells u)).Nodup :=
    getNeighbors_nodup g (g.cells u) (by rw [hrowu]; exact hub.1)
      (by rw [hcolu]; exact hub.2)
  -- the marked grid
  set gm := (if (g.cells u).isStart = false ∧ (g.cells u).isEnd = false then
      g.setCell u ((g.cells u).markAsExplored) else g) with hgmdef
  have hgm_static : gm.StaticEq g := by
    rw [hgmdef]
    split_ifs
    · exact markAsExplored_staticEq g u
    · exact Grid.staticEq_refl g
  have hgm_cells : ∀ p, (gm.cells p).distance = (g.cells p).distance ∧
      (gm.cells p).previousNode = (g.cells p).previousNode := by
    intro p
    rw [hgmdef]
    split_ifs
    · exact ⟨(markAsExplored_cells g u p).1, (markAsExplored_cells g u p).2.1⟩
    · exact ⟨rfl, rfl⟩
  have hNm : gm.getNeighbors (gm.cells u) = g.getNeighbors (g.cells u) :=
    hgm_static.getNeighbors_eq u
  have huNm : u ∉ gm.getNeighbors (gm.cells u) := by rw [hNm]; exact huN
  have hndNm : (gm.getNeighbors (gm.cells u)).Nodup := by rw [hNm]; exact hndN
  -- the relaxed grid
  set g' := dijkstraRelax gm u with hgxdef
  have hst' : g'.StaticEq g := (dijkstraRelax_staticEq gm u huNm hndNm).comp hgm_static
  have hst0 : g'.StaticEq g0 := hst'.comp hI.static
  have hwall' : ∀ p, (g'.cells p).isWall = (g.cells p).isWall := fun p => (hst'.2 p).2.2.2.2.1
  have hwt' : ∀ p, (g'.cells p).weight = (g.cells p).weight := fun p => (hst'.2 p).2.2.2.2.2
  -- characterization of distances and predecessors in g'
  have hF4 : ∀ p, ((g'.cells p).distance = (g.cells p).distance ∧
      (g'.cells p).previousNode = (g.cells p).previousNode) ∨
      (p ∈ g.getNeighbors (g.cells u) ∧ (g.cells p).isWall = false ∧
        (g'.cells p).distance =
          (g.cells u).distance + ((g.cells p).weight : WithTop Nat) ∧
        (g'.cells p).previousNode = some u ∧
        (g.cells u).distance + ((g.cells p).weight : WithTop Nat) <
          (g.cells p).distance) := by
    intro p
    by_cases hp : p ∈ gm.getNeighbors (gm.cells u)
    · rw [hgxdef, dijkstraRelax_mem gm u p huNm hndNm hp]
      rcases dRelaxCell_cases gm u p with hcase | ⟨hwallp, hlt, hcell⟩
      · rw [hcase]
        exact Or.inl ⟨(hgm_cells p).1, (hgm_cells p).2⟩
      · right
        rw [hNm] at hp
        have hwgm : (gm.cells p).weight = (g.cells p).weight := (hgm_static.2 p).2.2.2.2.2
        have hwallg : (gm.cells p).isWall = (g.cells p).isWall := (hgm_static.2 p).2.2.2.2.1
        have hdu : (gm.cells u).distance = (g.cells u).distance := (hgm_cells u).1
        rw [hcell]
        refine ⟨hp, by rw [← hwallg]; exact hwallp, ?_, rfl, ?_⟩
        · show (gm.cells u).distance + ((gm.cells p).weight : WithTop Nat) = _
          rw [hdu, hwgm]
        · rw [← hdu, ← hwgm, ← (hgm_cells p).1]
          exact hlt
    · rw [hgxdef, dijkstraRelax_frame gm u p huNm hndNm hp]
      exact Or.inl ⟨(hgm_cells p).1, (hgm_cells p).2⟩
  have hF1 : ∀ p, (g'.cells p).distance ≤ (g.cells p).distance := by
    intro p
    rcases hF4 p with ⟨hd, _⟩ | ⟨_, _, hd, _, hlt⟩
    · exact le_of_eq hd
    · rw [hd]; exact le_of_lt hlt
  have hF2 : ∀ p ∈ g0.allPositions, (p ∉ V ∨ p = u) →
      (g'.cells p).distance = (g.cells p).distance ∧
      (g'.cells p).previousNode = (g.cells p).previousNode := by
    intro p hp0 hpop
    rcases hF4 p with h | ⟨hpN, hpwall, hd, hprev, hlt⟩
    · exact h
    · exfalso
      have hdup : (g.cells p).distance ≤ (g.cells u).distance := by
        rcases hpop with hpv | rfl
        · exact hI.pop_min p hp0 hpv u huV
        · exact le_refl _
      have : (g.cells u).distance + ((g.cells p).weight : WithTop Nat) <
          (g.cells u).distance := lt_of_lt_of_le hlt hdup
      exact absurd this (not_lt.mpr le_self_add)
  have hF5 : ∀ nb ∈ g.getNeighbors (g.cells u), (g.cells nb).isWall = false →
      (g'.cells nb).distance ≤
        (g.cells u).distance + ((g.cells nb).weight : WithTop Nat) := by
    intro nb hnb hwallnb
    have hnbm : nb ∈ gm.getNeighbors (gm.cells u) := by rw [hNm]; exact hnb
    rw [hgxdef, dijkstraRelax_mem gm u nb huNm hndNm hnbm]
    have := dRelaxCell_wall_le gm u nb
      (by rw [(hgm_static.2 nb).2.2.2.2.1]; exact hwallnb)
    rw [(hgm_cells u).1, (hgm_static.2 nb).2.2.2.2.2] at this
    exact this
  -- neighbour/step/path transport from g' to g
  have hstep' : ∀ a b, stepRel g' a b ↔ stepRel g a b := fun a b => hst'.stepRel_iff a b
  have hpath' : ∀ z l, g'.IsPath s z l ↔ g.IsPath s z l := fun z l => hst'.isPath_iff s z l
  have hcost' : ∀ l, g'.pathCost l = g.pathCost l := fun l => hst'.pathCost_eq l
  -- establish each invariant field
  refine ⟨hst0, fun p hp => hI.vmem p ((hmemV p).mpr (Or.inr hp)), hndrest,
    ?_, ?_, ?_, ?_, ?_, ?_, ?_, ?_, ?_, ?_, ?_⟩
  · -- fin_nonwall
    intro p hp0 hpr
    by_cases hpu : p = u
    · subst hpu
      have h2 := hF2 p hp0 (Or.inr rfl)
      rw [h2.1, hwall' p]
      exact ⟨hfinu, hwallu⟩
    · have hpv : p ∉ V := fun hv => by
        rcases (hmemV p).mp hv with h | h
        · exact hpu h
        · exact hpr h
      have h2 := hF2 p hp0 (Or.inl hpv)
      rw [h2.1, hwall' p]
      exact hI.fin_nonwall p hp0 hpv
  · -- pop_min
    intro p hp0 hpr q hq
    have hq0 : q ∈ g0.allPositions := hI.vmem q ((hmemV q).mpr (Or.inr hq))
    have hdp : (g'.cells p).distance ≤ (g.cells u).distance := by
      by_cases hpu : p = u
      · subst hpu
        rw [(hF2 p hp0 (Or.inr rfl)).1]
      · have hpv : p ∉ V := fun hv => by
          rcases (hmemV p).mp hv with h | h
          · exact hpu h
          · exact hpr h
        rw [(hF2 p hp0 (Or.inl hpv)).1]
        exact hI.pop_min p hp0 hpv u huV
    rcases hF4 q with ⟨hdq, _⟩ | ⟨_, _, hdq, _, _⟩
    · rw [hdq]
      exact le_trans hdp (hmin q hq)
    · rw [hdq]
      exact le_trans hdp le_self_add
  · -- relaxed
    intro p hp0 hpr nb hnb hwallnb
    have hnbg : nb ∈ g.getNeighbors (g.cells p) := by
      rw [← hst'.getNeighbors_eq p]
      exact hnb
    have hwallnbg : (g.cells nb).isWall = false := by rw [← hwall' nb]; exact hwallnb
    rw [hwt' nb]
    by_cases hpu : p = u
    · subst hpu
      rw [(hF2 p hp0 (Or.inr rfl)).1]
      exact hF5 nb hnbg hwallnbg
    · have hpv : p ∉ V := fun hv => by
        rcases (hmemV p).mp hv with h | h
        · exact hpu h
        · exact hpr h
      rw [(hF2 p hp0 (Or.inl hpv)).1]
      exact le_trans (hF1 nb) (hI.relaxed p hp0 hpv nb hnbg hwallnbg)
  · -- opt
    intro p hp0 hpr l hl
    rw [hcost' l] at *
    have hlg : g.IsPath s p l := (hpath' p l).mp hl
    by_cases hpu : p = u
    · subst hpu
      rw [(hF2 p hp0 (Or.inr rfl)).1]
      rcases hI.dfrontier_cases hwf p l hlg with hall | ⟨y, hy, hdy⟩
      · exfalso
        exact hall p (List.mem_of_mem_getLast? (by rw [hlg.2.1]; rfl)) huV
      · exact le_trans (hminV y hy) hdy
    · have hpv : p ∉ V := fun hv => by
        rcases (hmemV p).mp hv with h | h
        · exact hpu h
        · exact hpr h
      rw [(hF2 p hp0 (Or.inl hpv)).1]
      exact hI.opt p hp0 hpv l hlg
  · -- dist_s
    rcases hF4 s with ⟨hd, _⟩ | ⟨_, _, _, _, hlt⟩
    · rw [hd, hI.dist_s]
    · exfalso
      rw [hI.dist_s] at hlt
      exact absurd hlt (not_lt.mpr (zero_le _))
  · -- prev_s
    rcases hF4 s with ⟨_, hp⟩ | ⟨_, _, _, _, hlt⟩
    · rw [hp, hI.prev_s]
    · exfalso
      rw [hI.dist_s] at hlt
      exact absurd hlt (not_lt.mpr (zero_le _))
  · -- prev_spec
    intro p hp0 y hy
    rcases hF4 p with ⟨hd, hp⟩ | ⟨hpN, hpwall, hd, hprev, hlt⟩
    · rw [hp] at hy
      obtain ⟨hstep, hy0, hyV, hyfin, heq⟩ := hI.prev_spec p hp0 y hy
      refine ⟨(hstep' y p).mpr hstep, hy0, fun hyr => hyV ((hmemV y).mpr (Or.inr hyr)), ?_, ?_⟩
      · rw [(hF2 y hy0 (Or.inl hyV)).1]
        exact hyfin
      · rw [hd, (hF2 y hy0 (Or.inl hyV)).1, hwt' p]
        exact heq
    · rw [hprev] at hy
      injection hy with hy
      subst hy
      refine ⟨(hstep' u p).mpr ⟨hpN, hpwall⟩, hI.vmem u huV, hur, ?_, ?_⟩
      · rw [(hF2 u hu0 (Or.inr rfl)).1]
        exact hfinu
      · rw [hd, (hF2 u hu0 (Or.inr rfl)).1, hwt' p]
  · -- fin_prev
    intro p hp0 hps hfin
    rcases hF4 p with ⟨hd, hp⟩ | ⟨_, _, _, hprev, _⟩
    · rw [hp]
      rw [hd] at hfin
      exact hI.fin_prev p hp0 hps hfin
    · rw [hprev]
      exact Option.some_ne_none u
  · -- wall_top
    intro p hp0 hwallp
    rw [hwall' p] at hwallp
    rcases hF4 p with ⟨hd, _⟩ | ⟨_, hpw, _, _, _⟩
    · rw [hd]
      exact hI.wall_top p hp0 hwallp
    · rw [hpw] at hwallp
      cases hwallp
  · -- e_mem
    rcases (hmemV e).mp hI.e_mem with h | h
    · exact absurd h.symm hne
    · exact h
  · -- count
    have hcount := hI.count
    have hstartu : (g.cells u).isStart = true ↔ u = s := hstart u hug
    have hendu : (g.cells u).isEnd = true ↔ u = e := hend u hug
    by_cases hus : u = s
    · have hsV : s ∈ V := hus ▸ huV
      have hsrest : s ∉ rest := hus ▸ hur
      have hnexpl : ¬((g.cells u).isStart = false ∧ (g.cells u).isEnd = false) := by
        intro hc
        rw [hstartu.mpr hus] at hc
        exact absurd hc.1 (by simp)
      rw [if_neg hnexpl, if_neg hsrest]
      rw [if_pos hsV] at hcount
      omega
    · have hexpl : (g.cells u).isStart = false ∧ (g.cells u).isEnd = false := by
        constructor
        · rcases Bool.eq_false_or_eq_true (g.cells u).isStart with h | h
          · exact absurd (hstartu.mp h) hus
          · exact h
        · rcases Bool.eq_false_or_eq_true (g.cells u).isEnd with h | h
          · exact absurd (hendu.mp h) hne
          · exact h
      rw [if_pos hexpl]
      by_cases hsV : s ∈ V
      · have hsrest : s ∈ rest := by
          rcases (hmemV s).mp hsV with h | h
          · exact absurd h.symm hus
          · exact h
        rw [if_pos hsrest]
        rw [if_pos hsV] at hcount
        omega
      · have hsrest : s ∉ rest := fun h => hsV ((hmemV s).mpr (Or.inr h))
        rw [if_neg hsrest]
        rw [if_neg hsV] at hcount
        omega

theorem insertionSort_head_min (g : Grid) (V : List Pos) (u : Pos) (rest : List Pos)
    (hsort : List.insertionSort (distLE g) V = u :: rest) :
    ∀ q ∈ V, (g.cells u).distance ≤ (g.cells q).distance := by
  have hsorted : List.Sorted (distLE g) (u :: rest) := by
    rw [← hsort]
    exact List.sorted_insertionSort (distLE g) V
  have hperm : (u :: rest).Perm V := by
    rw [← hsort]
    exact List.perm_insertionSort (distLE g) V
  intro q hq
  rcases List.mem_cons.mp (hperm.mem_iff.mpr hq) with rfl | hq2
  · exact le_refl _
  · exact (List.sorted_cons.mp hsorted).1 q hq2

/-- In any invariant state, every finitely-valued cell's `previousNode`
chain reconstructs a simple minimum-recorded-cost walk from Start. -/
theorem dinv_reconstruct {g0 : Grid} {s e : Pos} {g : Grid} {V : List Pos} {x : Nat}
    (hwf : g0.WF s e) (hI : DInv g0 s e g V x)
    (p : Pos) (hp0 : p ∈ g0.allPositions) (hfin : (g.cells p).distance ≠ ⊤) :
    ∃ l, g.reconstructPath p = l ∧ g.IsPath s p l ∧
      ((g.pathCost l : Nat) : WithTop Nat) = (g.cells p).distance ∧ l.Nodup := by
  have hwfg : g.WF s e := hI.dwf hwf
  have hap : g.allPositions = g0.allPositions := hI.dapos_eq
  have hsg : s ∈ g.allPositions :=
    (Grid.mem_allPositions g s).mpr ⟨hwfg.2.2.1, hwfg.2.2.2.1⟩
  have hspec := reconstructPathAux_spec g s (fun q => (g.cells q).distance)
    hsg (hwfg.2.2.2.2.2.2.2.2.2.2.2.2)
    (by
      intro q hq y hy
      obtain ⟨hstep, hy0, _, hyfin, heq⟩ := hI.prev_spec q (by rw [← hap]; exact hq) y hy
      exact ⟨hstep, by rw [hap]; exact hy0, hyfin, heq⟩)
    (by
      intro q hq hqnone hqfin
      by_contra hqs
      exact hI.fin_prev q (by rw [← hap]; exact hq) hqs hqfin hqnone)
    hI.dist_s
    (g.rows * g.cols + 1) p [] (by rw [hap]; exact hp0) hfin
    (by
      dsimp only
      have h1 := List.length_filter_le
        (fun q => decide ((g.cells q).distance < (g.cells p).distance)) g.allPositions
      have h2 := g.allPositions_length
      omega)
  obtain ⟨l, heq, hpath, hcost, hnd, _⟩ := hspec
  refine ⟨l, ?_, hpath, hcost, hnd⟩
  unfold Grid.reconstructPath
  rw [heq, List.append_nil]

/-- When the popped frontier head is a wall or carries infinite distance,
End is unreachable and the popped cells are exactly the reachable set. -/
theorem dinv_break {g0 : Grid} {s e : Pos} {g : Grid} {V : List Pos} {x : Nat}
    (hwf : g0.WF s e) (hI : DInv g0 s e g V x)
    {u : Pos} {rest : List Pos}
    (hsort : List.insertionSort (distLE g) V = u :: rest)
    (hbreak : (g.cells u).isWall = true ∨ (g.cells u).distance = ⊤) :
    ¬ g0.ReachableFrom s e ∧ x + 1 = (reachClosure g0 s).length := by
  have hperm : (u :: rest).Perm V := by
    rw [← hsort]
    exact List.perm_insertionSort (distLE g) V
  have huV : u ∈ V := hperm.subset (List.mem_cons_self u rest)
  have hu0 : u ∈ g0.allPositions := hI.vmem u huV
  have htopu : (g.cells u).distance = ⊤ := by
    rcases hbreak with hw | ht
    · exact hI.wall_top u hu0 hw
    · exact ht
  have hallV : ∀ q ∈ V, (g.cells q).distance = ⊤ := by
    intro q hq
    have := insertionSort_head_min g V u rest hsort q hq
    rw [htopu] at this
    exact top_le_iff.mp this
  have hwfg : g.WF s e := hI.dwf hwf
  have hsg : s ∈ g.allPositions :=
    (Grid.mem_allPositions g s).mpr ⟨hwfg.2.2.1, hwfg.2.2.2.1⟩
  have hap : g.allPositions = g0.allPositions := hI.dapos_eq
  -- popped cells are reachable
  have hA : ∀ p ∈ g0.allPositions, p ∉ V → g0.ReachableFrom s p := by
    intro p hp0 hpv
    obtain ⟨l, _, hpath, _, _⟩ :=
      dinv_reconstruct hwf hI p hp0 (hI.fin_nonwall p hp0 hpv).1
    exact (hI.static.reachable_iff s p).mp hpath.reachable
  -- reachable cells are popped
  have hB : ∀ p, g0.ReachableFrom s p → p ∈ g0.allPositions ∧ p ∉ V := by
    intro p hreach
    have hreachg : g.ReachableFrom s p := (hI.static.reachable_iff s p).mpr hreach
    obtain ⟨l, hpath⟩ := hreachg.exists_isPath
    have hpl : p ∈ l := List.mem_of_mem_getLast? (by rw [hpath.2.1]; rfl)
    have hp0 : p ∈ g0.allPositions := by
      rw [← hap]
      exact hpath.all_mem_allPositions hsg p hpl
    rcases hI.dfrontier_cases hwf p l hpath with hall | ⟨y, hy, hdy⟩
    · exact ⟨hp0, hall p hpl⟩
    · exfalso
      rw [hallV y hy] at hdy
      have := top_le_iff.mp hdy
      rw [Nat.cast_withTop] at this
      exact WithTop.coe_ne_top this
  constructor
  · intro hreach
    exact (hB e hreach).2 hI.e_mem
  · -- counting
    have hsV : s ∉ V := (hB s Relation.ReflTransGen.refl).2
    have hcount := hI.count
    rw [if_neg hsV] at hcount
    -- the popped list
    have hVsub : ∀ q ∈ V, q ∈ g0.allPositions := hI.vmem
    have hnodA : g0.allPositions.Nodup := g0.allPositions_nodup
    have hfilterV : (g0.allPositions.filter fun q => decide (q ∈ V)).length = V.length := by
      have hpermV : (g0.allPositions.filter fun q => decide (q ∈ V)).Perm V := by
        rw [List.perm_ext_iff_of_nodup (hnodA.filter _) hI.vnd]
        intro q
        simp only [List.mem_filter, decide_eq_true_eq]
        exact ⟨fun h => h.2, fun h => ⟨hVsub q h, h⟩⟩
      exact hpermV.length_eq
    have hsplitlen :
        (g0.allPositions.filter fun q => decide (q ∈ V)).length +
        (g0.allPositions.filter fun q => !(decide (q ∈ V))).length =
          g0.allPositions.length := by
      have := List.filter_append_perm (fun q => decide (q ∈ V)) g0.allPositions
      have hlen := this.length_eq
      rw [List.length_append] at hlen
      exact hlen
    have hreachperm :
        (reachClosure g0 s).Perm (g0.allPositions.filter fun q => !(decide (q ∈ V))) := by
      have hrc : (reachClosure g0 s).Nodup :=
        reachIter_nodup g0 (g0.rows * g0.cols) [s] (List.nodup_singleton s)
      rw [List.perm_ext_iff_of_nodup hrc (hnodA.filter _)]
      intro q
      have hsb : s.1 < g0.rows ∧ s.2 < g0.cols := by
        rw [← hI.static.1.1, ← hI.static.1.2.1]
        exact (Grid.mem_allPositions g s).mp hsg
      rw [mem_reachClosure_iff g0 s q hsb]
      simp only [List.mem_filter, Bool.not_eq_eq_eq_not, Bool.not_true, decide_eq_false_iff_not]
      constructor
      · intro h
        exact hB q h
      · intro ⟨h0, hv⟩
        exact hA q h0 hv
    have hreachlen := hreachperm.length_eq
    have htotal := g0.allPositions_length
    omega

theorem reconstructPathAux_congr (g2 g : Grid)
    (hp : ∀ p, (g2.cells p).previousNode = (g.cells p).previousNode) :
    ∀ (fuel : Nat) (o : Option Pos) (acc : List Pos),
      reconstructPathAux g2 fuel o acc = reconstructPathAux g fuel o acc := by
  intro fuel
  induction fuel with
  | zero => intro o acc; rfl
  | succ fuel ih =>
    intro o acc
    cases o with
    | none => rfl
    | some p =>
      show reconstructPathAux g2 fuel ((g2.cells p).previousNode) (p :: acc) =
        reconstructPathAux g fuel ((g.cells p).previousNode) (p :: acc)
      rw [hp p, ih]

theorem reconstructPath_congr (g2 g : Grid) (hr : g2.rows = g.rows) (hc : g2.cols = g.cols)
    (hp : ∀ p, (g2.cells p).previousNode = (g.cells p).previousNode) (endPos : Pos) :
    g2.reconstructPath endPos = g.reconstructPath endPos := by
  unfold Grid.reconstructPath
  rw [hr, hc, reconstructPathAux_congr g2 g hp]

/-- The Dijkstra main loop, run from any invariant state with fuel equal to
the unvisited count: every recorded loop-entry state satisfies the
invariant; if End is reachable the run succeeds with a minimum-cost simple
path; otherwise it fails having explored every reachable cell except
Start. -/
theorem dijkstraLoop_spec (g0 : Grid) (s e : Pos) (hwf : g0.WF s e) :
    ∀ (fuel : Nat) (g : Grid) (V : List Pos) (x : Nat),
      fuel = V.length → DInv g0 s e g V x →
      (∀ st ∈ (dijkstraLoop (some e) fuel g V x).states,
        DInv g0 s e st.g st.unvisited st.explored) ∧
      (g0.ReachableFrom s e →
        (dijkstraLoop (some e) fuel g V x).result.success = true ∧
        g0.IsPath s e (dijkstraLoop (some e) fuel g V x).result.path ∧
        (∀ l, g0.IsPath s e l →
          g0.pathCost (dijkstraLoop (some e) fuel g V x).result.path ≤ g0.pathCost l) ∧
        (dijkstraLoop (some e) fuel g V x).result.pathLength =
          (dijkstraLoop (some e) fuel g V x).result.path.length ∧
        (dijkstraLoop (some e) fuel g V x).result.path.Nodup) ∧
      (¬ g0.ReachableFrom s e →
        (dijkstraLoop (some e) fuel g V x).result.success = false ∧
        (dijkstraLoop (some e) fuel g V x).result.pathLength = 0 ∧
        (dijkstraLoop (some e) fuel g V x).result.path = [] ∧
        (dijkstraLoop (some e) fuel g V x).result.nodesExplored + 1 =
          (reachClosure g0 s).length) := by
  intro fuel
  induction fuel with
  | zero =>
    intro g V x hf hI
    have hnil : V = [] := List.length_eq_zero.mp hf.symm
    exact absurd hI.e_mem (hnil ▸ List.not_mem_nil e)
  | succ fuel ih =>
    intro g V x hf hI
    cases hsort : List.insertionSort (distLE g) V with
    | nil =>
      have hperm : List.Perm [] V := by
        rw [← hsort]
        exact List.perm_insertionSort (distLE g) V
      have hnil : V = [] := (List.perm_nil.mp hperm.symm)
      exact absurd hI.e_mem (hnil ▸ List.not_mem_nil e)
    | cons u rest =>
      have hperm : (u :: rest).Perm V := by
        rw [← hsort]
        exact List.perm_insertionSort (distLE g) V
      have huV : u ∈ V := hperm.subset (List.mem_cons_self u rest)
      have hu0 : u ∈ g0.allPositions := hI.vmem u huV
      by_cases hbreak : (g.cells u).isWall = true ∨ (g.cells u).distance = ⊤
      · obtain ⟨hnreach, hcnt⟩ := dinv_break hwf hI hsort hbreak
        unfold dijkstraLoop
        rw [hsort]
        dsimp only
        rw [if_pos hbreak]
        refine ⟨?_, ?_, ?_⟩
        · intro st hst
          rcases List.mem_singleton.mp hst with rfl
          exact hI
        · intro hreach
          exact absurd hreach hnreach
        · intro _
          exact ⟨rfl, rfl, rfl, hcnt⟩
      · have hwallu : (g.cells u).isWall = false := by
          rcases Bool.eq_false_or_eq_true (g.cells u).isWall with h | h
          · exact absurd (Or.inl h) hbreak
          · exact h
        have hfinu : (g.cells u).distance ≠ ⊤ := fun h => hbreak (Or.inr h)
        have hmin := insertionSort_head_min g V u rest hsort
        by_cases hue : u = e
        · -- success exit
          subst hue
          obtain ⟨l, hlrec, hlpath, hlcost, hlnd⟩ := dinv_reconstruct hwf hI u hu0 hfinu
          unfold dijkstraLoop
          rw [hsort]
          dsimp only
          rw [if_neg hbreak, if_pos rfl]
          -- the marked grid reconstructs the same path
          have hrecgm :
              (if (g.cells u).isStart = false ∧ (g.cells u).isEnd = false then
                g.setCell u ((g.cells u).markAsExplored) else g).reconstructPath u = l := by
            rw [← hlrec]
            split_ifs
            · exact reconstructPath_congr (g.setCell u ((g.cells u).markAsExplored)) g rfl rfl
                (fun p => (markAsExplored_cells g u p).2.1) u
            · rfl
          have hoptu : ∀ l2, g.IsPath s u l2 →
              ((g.pathCost l : Nat) : WithTop Nat) ≤ ((g.pathCost l2 : Nat) : WithTop Nat) := by
            intro l2 hl2
            rw [hlcost]
            rcases hI.dfrontier_cases hwf u l2 hl2 with hall | ⟨y, hy, hdy⟩
            · exact absurd (List.mem_of_mem_getLast? (by rw [hl2.2.1]; rfl))
                (fun h => hall u h huV)
            · exact le_trans (hmin y hy) hdy
          refine ⟨?_, ?_, ?_⟩
          · intro st hst
            rcases List.mem_singleton.mp hst with rfl
            exact hI
          · intro _
            refine ⟨rfl, ?_, ?_, ?_, ?_⟩
            · show g0.IsPath s u _
              rw [hrecgm]
              exact (hI.static.isPath_iff s u l).mp
                ((Grid.staticEq_refl g).isPath_iff s u l |>.mp hlpath)
            · intro l2 hl2
              show g0.pathCost _ ≤ g0.pathCost l2
              rw [hrecgm]
              have hl2g : g.IsPath s u l2 := (hI.static.isPath_iff s u l2).mpr hl2
              have := hoptu l2 hl2g
              rw [Nat.cast_withTop, Nat.cast_withTop] at this
              have hle : g.pathCost l ≤ g.pathCost l2 := WithTop.coe_le_coe.mp this
              rw [← hI.static.pathCost_eq l, ← hI.static.pathCost_eq l2]
              exact hle
            · show _ = _
              rw [hrecgm]
            · show List.Nodup _
              rw [hrecgm]
              exact hlnd
          · intro hnreach
            exfalso
            apply hnreach
            have : g.ReachableFrom s u := hlpath.reachable
            exact (hI.static.reachable_iff s u).mp this
        · -- recurse
          have hI' := dinv_step hwf hI hsort hwallu hfinu hue
          have hf' : fuel = rest.length := by
            have hlen := hperm.length_eq
            simp only [List.length_cons] at hlen
            omega
          obtain ⟨ihstates, ihreach, ihunreach⟩ := ih
            (dijkstraRelax
              (if (g.cells u).isStart = false ∧ (g.cells u).isEnd = false then
                g.setCell u ((g.cells u).markAsExplored) else g) u)
            rest
            (if (g.cells u).isStart = false ∧ (g.cells u).isEnd = false then x + 1 else x)
            hf' hI'
          unfold dijkstraLoop
          rw [hsort]
          dsimp only
          rw [if_neg hbreak, if_neg (fun hcontra => hue (Option.some.inj hcontra))]
          refine ⟨?_, ihreach, ihunreach⟩
          intro st hst
          rcases List.mem_cons.mp hst with rfl | hst2
          · exact hI
          · exact ihstates st hst2

theorem resetAlgorithmStates_staticEq (g : Grid) : g.resetAlgorithmStates.StaticEq g := by
  refine ⟨⟨rfl, rfl, rfl, rfl⟩, fun p => ?_⟩
  have hc : g.resetAlgorithmStates.cells p =
      (if p.1 < g.rows ∧ p.2 < g.cols then (g.cells p).reset else g.cells p) := rfl
  rw [hc]
  split_ifs <;> exact ⟨rfl, rfl, rfl, rfl, rfl, rfl⟩

theorem resetAlgorithmStates_cells_inb (g : Grid) (p : Pos)
    (hb : p.1 < g.rows ∧ p.2 < g.cols) :
    g.resetAlgorithmStates.cells p = (g.cells p).reset := by
  show (if p.1 < g.rows ∧ p.2 < g.cols then (g.cells p).reset else g.cells p) = _
  rw [if_pos hb]

theorem dijkstraInit_staticEq (g : Grid) (s : Pos) :
    (g.resetAlgorithmStates.setCell s
      { g.resetAlgorithmStates.cells s with
          distance := ((0 : Nat) : WithTop Nat) }).StaticEq g := by
  refine (Grid.StaticEq.comp ?_ (resetAlgorithmStates_staticEq g))
  refine ⟨⟨rfl, rfl, rfl, rfl⟩, fun p => ?_⟩
  by_cases hp : p = s
  · subst hp
    rw [Grid.setCell_cells_self]
    exact ⟨rfl, rfl, rfl, rfl, rfl, rfl⟩
  · rw [Grid.setCell_cells_other _ s p _ hp]
    exact ⟨rfl, rfl, rfl, rfl, rfl, rfl⟩

/-- The invariant holds on entry to the Dijkstra main loop. -/
theorem dinv_init (g : Grid) (s e : Pos) (hwf : g.WF s e) :
    DInv (g.resetAlgorithmStates.setCell s
        { g.resetAlgorithmStates.cells s with distance := ((0 : Nat) : WithTop Nat) }) s e
      (g.resetAlgorithmStates.setCell s
        { g.resetAlgorithmStates.cells s with distance := ((0 : Nat) : WithTop Nat) })
      (g.resetAlgorithmStates.setCell s
        { g.resetAlgorithmStates.cells s with distance := ((0 : Nat) : WithTop Nat) }).getAllNodes
      0 := by
  set g1 := g.resetAlgorithmStates with hg1
  set gI := g1.setCell s { g1.cells s with distance := ((0 : Nat) : WithTop Nat) } with hgI
  have hstI : gI.StaticEq g := dijkstraInit_staticEq g s
  have hwfI : gI.WF s e := (hstI.wf_iff s e).mpr hwf
  have hdims : gI.rows = g.rows ∧ gI.cols = g.cols := ⟨rfl, rfl⟩
  have hcells1 : ∀ p : Pos, p.1 < g.rows ∧ p.2 < g.cols → g1.cells p = (g.cells p).reset :=
    fun p hb => resetAlgorithmStates_cells_inb g p hb
  have hsb : s.1 < g.rows ∧ s.2 < g.cols := ⟨hwf.2.2.1, hwf.2.2.2.1⟩
  have hprevnone : ∀ p ∈ gI.allPositions, (gI.cells p).previousNode = none := by
    intro p hp
    have hb : p.1 < g.rows ∧ p.2 < g.cols := (Grid.mem_allPositions gI p).mp hp
    by_cases hps : p = s
    · subst hps
      rw [hgI, Grid.setCell_cells_self]
      show (g1.cells p).previousNode = none
      rw [hcells1 p hb]
      rfl
    · rw [hgI, Grid.setCell_cells_other _ s p _ hps, hcells1 p hb]
      rfl
  have hdisttop : ∀ p ∈ gI.allPositions, p ≠ s → (gI.cells p).distance = ⊤ := by
    intro p hp hps
    have hb : p.1 < g.rows ∧ p.2 < g.cols := (Grid.mem_allPositions gI p).mp hp
    rw [hgI, Grid.setCell_cells_other _ s p _ hps, hcells1 p hb]
    rfl
  have hdists : (gI.cells s).distance = 0 := by
    rw [hgI, Grid.setCell_cells_self]
    show ((0 : Nat) : WithTop Nat) = 0
    exact Nat.cast_zero
  have hsmem : s ∈ gI.allPositions := (Grid.mem_allPositions gI s).mpr hsb
  refine ⟨Grid.staticEq_refl gI, fun p hp => hp, gI.allPositions_nodup,
    ?_, ?_, ?_, ?_, hdists, hprevnone s hsmem, ?_, ?_, ?_, ?_, ?_⟩
  · exact fun p hp hnv => absurd hp hnv
  · exact fun p hp hnv => absurd hp hnv
  · exact fun p hp hnv => absurd hp hnv
  · exact fun p hp hnv => absurd hp hnv
  · intro p hp y hy
    rw [hprevnone p hp] at hy
    cases hy
  · intro p hp hps hfin
    exact absurd (hdisttop p hp hps) hfin
  · intro p hp hwall
    have hps : p ≠ s := by
      intro hc
      subst hc
      rw [hwfI.2.2.2.2.2.2.2.1] at hwall
      cases hwall
    exact hdisttop p hp hps
  · exact (Grid.mem_allPositions gI e).mpr ⟨hwf.2.2.2.2.1, hwf.2.2.2.2.2.1⟩
  · have hsmem2 : s ∈ gI.getAllNodes := hsmem
    rw [if_pos hsmem2]
    show 0 + 0 + gI.allPositions.length = gI.rows * gI.cols
    rw [gI.allPositions_length]
    omega

/-- `DijkstraAlgorithm.findPath` on a well-formed grid: success with a
minimum-cost simple path exactly when End is reachable; on failure every
reachable cell except Start has been explored; and in every loop-entry
state the `previousNode` chains reconstruct simple walks from Start. -/
theorem dijkstra_findPath_spec (g : Grid) (s e : Pos) (hwf : g.WF s e) :
    (g.ReachableFrom s e →
      (DijkstraAlgorithm.findPath g).success = true ∧
      g.IsPath s e (DijkstraAlgorithm.findPath g).path ∧
      (∀ l, g.IsPath s e l →
        g.pathCost (DijkstraAlgorithm.findPath g).path ≤ g.pathCost l) ∧
      (DijkstraAlgorithm.findPath g).pathLength =
        (DijkstraAlgorithm.findPath g).path.length ∧
      (DijkstraAlgorithm.findPath g).path.Nodup) ∧
    (¬ g.ReachableFrom s e →
      (DijkstraAlgorithm.findPath g).success = false ∧
      (DijkstraAlgorithm.findPath g).pathLength = 0 ∧
      (DijkstraAlgorithm.findPath g).nodesExplored + 1 = (reachClosure g s).length) ∧
    (∀ st ∈ (DijkstraAlgorithm.findPathRun g).states,
      ∀ p ∈ st.g.allPositions, (st.g.cells p).distance ≠ ⊤ →
        ∃ l, st.g.reconstructPath p = l ∧ st.g.IsPath s p l ∧ l.Nodup) := by
  have hstI : (g.resetAlgorithmStates.setCell s
      { g.resetAlgorithmStates.cells s with
          distance := ((0 : Nat) : WithTop Nat) }).StaticEq g := dijkstraInit_staticEq g s
  have hwfI := (hstI.wf_iff s e).mpr hwf
  have hI0 := dinv_init g s e hwf
  have hrun : DijkstraAlgorithm.findPathRun g =
      dijkstraLoop (some e)
        (g.resetAlgorithmStates.setCell s
          { g.resetAlgorithmStates.cells s with
              distance := ((0 : Nat) : WithTop Nat) }).getAllNodes.length
        (g.resetAlgorithmStates.setCell s
          { g.resetAlgorithmStates.cells s with
              distance := ((0 : Nat) : WithTop Nat) })
        (g.resetAlgorithmStates.setCell s
          { g.resetAlgorithmStates.cells s with
              distance := ((0 : Nat) : WithTop Nat) }).getAllNodes
        0 := by
    have h1 : g.resetAlgorithmStates.startNode = some s := hwf.1
    have h2 : g.resetAlgorithmStates.endNode = some e := hwf.2.1
    simp only [DijkstraAlgorithm.findPathRun, h1, h2]
  obtain ⟨hstates, hreach, hunreach⟩ :=
    dijkstraLoop_spec _ s e hwfI _ _ _ 0 rfl hI0
  have hfp : DijkstraAlgorithm.findPath g = (DijkstraAlgorithm.findPathRun g).result := rfl
  rw [hfp, hrun]
  have hreachiff := hstI.reachable_iff s e
  have hclos := hstI.reachClosure_eq s
  refine ⟨?_, ?_, ?_⟩
  · intro hr
    obtain ⟨hs, hp, ho, hl, hnd⟩ := hreach (hreachiff.mpr hr)
    refine ⟨hs, (hstI.isPath_iff s e _).symm.mpr ?_, ?_, hl, hnd⟩
    · exact hp
    · intro l2 hl2
      have := ho l2 ((hstI.isPath_iff s e l2).mpr hl2)
      rw [hstI.pathCost_eq, hstI.pathCost_eq l2] at this
      exact this
  · intro hnr
    obtain ⟨h1, h2, _, h4⟩ := hunreach (fun hc => hnr (hreachiff.mp hc))
    rw [hclos] at h4
    exact ⟨h1, h2, h4⟩
  · intro st hst p hp hfin
    have hIst := hstates st hst
    have hap : st.g.allPositions = _ := hIst.dapos_eq
    obtain ⟨l, hlrec, hlpath, _, hlnd⟩ :=
      dinv_reconstruct hwfI hIst p (by rw [← hap]; exact hp) hfin
    exact ⟨l, hlrec, hlpath, hlnd⟩

theorem astarRelax_eq (g : Grid) (endPos u : Pos) (openSet closedSet : List Pos) :
    astarRelax g endPos u openSet closedSet =
      (g.getNeighbors (g.cells u)).foldl (aStep endPos u closedSet) (g, openSet) := rfl

theorem aStep_fst_cells_other (endPos u : Pos) (closedSet : List Pos)
    (go : Grid × List Pos) (nb q : Pos) (h : q ≠ nb) :
    ((aStep endPos u closedSet go nb).1).cells q = go.1.cells q := by
  unfold aStep
  dsimp only
  split_ifs <;> first
  | exact Grid.setCell_cells_other go.1 nb q _ h
  | rfl

theorem aStep_fst_cells_self (endPos u : Pos) (closedSet : List Pos)
    (go : Grid × List Pos) (nb : Pos) :
    ((aStep endPos u closedSet go nb).1).cells nb =
      aRelaxCell go.1 endPos u nb go.2 closedSet := by
  unfold aStep aRelaxCell
  dsimp only
  split_ifs <;> first
  | exact Grid.setCell_cells_self go.1 nb _
  | rfl

theorem aStep_fst_sameFrame (endPos u : Pos) (closedSet : List Pos)
    (go : Grid × List Pos) (nb : Pos) :
    ((aStep endPos u closedSet go nb).1).SameFrame go.1 := by
  unfold aStep
  dsimp only
  split_ifs <;> exact ⟨rfl, rfl, rfl, rfl⟩

theorem aStep_snd_cases (endPos u : Pos) (closedSet : List Pos)
    (go : Grid × List Pos) (nb : Pos) :
    (aStep endPos u closedSet go nb).2 = go.2 ∨
    ((aStep endPos u closedSet go nb).2 = go.2 ++ [nb] ∧ nb ∉ go.2 ∧
      (go.1.cells nb).isWall = false ∧ nb ∉ closedSet) := by
  unfold aStep
  dsimp only
  split_ifs with h1 h2 h3 h4
  · exact Or.inl rfl
  · exact Or.inl rfl
  · simp only [not_or, Bool.not_eq_true] at h1
    exact Or.inr ⟨rfl, h3, h1.1, h1.2⟩
  · exact Or.inl rfl

theorem aStep_snd_mem (endPos u : Pos) (closedSet : List Pos)
    (go : Grid × List Pos) (nb q : Pos) :
    q ∈ (aStep endPos u closedSet go nb).2 ↔
      q ∈ go.2 ∨ (q = nb ∧ (go.1.cells nb).isWall = false ∧
        nb ∉ closedSet ∧ nb ∉ go.2) := by
  unfold aStep
  dsimp only
  split_ifs with h1 h2 h3
  · constructor
    · exact Or.inl
    · rintro (h | ⟨rfl, hw, hncl, hno⟩)
      · exact h
      · rcases h1 with h1 | h1
        · rw [hw] at h1; cases h1
        · exact absurd h1 hncl
  · constructor
    · exact Or.inl
    · rintro (h | ⟨rfl, hw, hncl, hno⟩)
      · exact h
      · exact absurd h3 hno
  · simp only [not_or, Bool.not_eq_true] at h1
    rw [List.mem_append, List.mem_singleton]
    constructor
    · rintro (h | rfl)
      · exact Or.inl h
      · exact Or.inr ⟨rfl, h1.1, h1.2, h3⟩
    · rintro (h | ⟨rfl, h⟩)
      · exact Or.inl h
      · exact Or.inr rfl
  · constructor
    · exact Or.inl
    · rintro (h | ⟨rfl, hw, hncl, hno⟩)
      · exact h
      · simp only [not_or, not_not] at h2
        exact absurd h2.1 hno

theorem aRelaxCell_static (g : Grid) (endPos u nb : Pos) (openSet closedSet : List Pos) :
    (aRelaxCell g endPos u nb openSet closedSet).row = (g.cells nb).row ∧
    (aRelaxCell g endPos u nb openSet closedSet).col = (g.cells nb).col ∧
    (aRelaxCell g endPos u nb openSet closedSet).isStart = (g.cells nb).isStart ∧
    (aRelaxCell g endPos u nb openSet closedSet).isEnd = (g.cells nb).isEnd ∧
    (aRelaxCell g endPos u nb openSet closedSet).isWall = (g.cells nb).isWall ∧
    (aRelaxCell g endPos u nb openSet closedSet).weight = (g.cells nb).weight ∧
    (aRelaxCell g endPos u nb openSet closedSet).distance = (g.cells nb).distance := by
  unfold aRelaxCell
  dsimp only
  split_ifs <;> exact ⟨rfl, rfl, rfl, rfl, rfl, rfl, rfl⟩

theorem aStep_fst_cells_static (endPos u : Pos) (closedSet : List Pos)
    (go : Grid × List Pos) (nb p : Pos) :
    (((aStep endPos u closedSet go nb).1).cells p).row = (go.1.cells p).row ∧
    (((aStep endPos u closedSet go nb).1).cells p).col = (go.1.cells p).col ∧
    (((aStep endPos u closedSet go nb).1).cells p).isWall = (go.1.cells p).isWall ∧
    (((aStep endPos u closedSet go nb).1).cells p).weight = (go.1.cells p).weight := by
  by_cases hp : p = nb
  · subst hp
    rw [aStep_fst_cells_self]
    obtain ⟨h1, h2, _, _, h5, h6, _⟩ := aRelaxCell_static go.1 endPos u p go.2 closedSet
    exact ⟨h1, h2, h5, h6⟩
  · rw [aStep_fst_cells_other endPos u closedSet go nb p hp]
    exact ⟨rfl, rfl, rfl, rfl⟩

theorem aRelaxCell_congr (g1 g : Grid) (endPos u nb : Pos) (O1 O closedSet : List Pos)
    (hnb : g1.cells nb = g.cells nb) (hu : g1.cells u = g.cells u)
    (her : (g1.cells endPos).row = (g.cells endPos).row)
    (hec : (g1.cells endPos).col = (g.cells endPos).col)
    (hO : nb ∈ O1 ↔ nb ∈ O) :
    aRelaxCell g1 endPos u nb O1 closedSet = aRelaxCell g endPos u nb O closedSet := by
  have hh : calculateHeuristic (g1.cells nb) (g1.cells endPos) =
      calculateHeuristic (g.cells nb) (g.cells endPos) := by
    unfold calculateHeuristic Node.manhattanDistanceTo
    rw [hnb, her, hec]
  have hOeq : (nb ∈ O1) = (nb ∈ O) := propext hO
  have hh3 : ∀ n : Node, calculateHeuristic n (g1.cells endPos) =
      calculateHeuristic n (g.cells endPos) := by
    intro n
    unfold calculateHeuristic Node.manhattanDistanceTo
    rw [her, hec]
  unfold aRelaxCell
  simp only [hh3]
  rw [hnb, hu]
  simp only [hOeq]

/-- Full characterization of one `astarRelax` fold: the grid frame outside
the examined neighbours, the per-neighbour cell update, the open-set
membership, and open-set nodup preservation. -/
theorem aRelax_fold_spec (endPos u : Pos) (closedSet : List Pos) :
    ∀ (l : List Pos) (go : Grid × List Pos), u ∉ l → l.Nodup →
      (∀ p, p ∉ l →
        ((l.foldl (aStep endPos u closedSet) go).1).cells p = go.1.cells p) ∧
      (∀ nb ∈ l, ((l.foldl (aStep endPos u closedSet) go).1).cells nb =
        aRelaxCell go.1 endPos u nb go.2 closedSet) ∧
      (∀ q, q ∈ (l.foldl (aStep endPos u closedSet) go).2 ↔
        q ∈ go.2 ∨ (q ∈ l ∧ (go.1.cells q).isWall = false ∧
          q ∉ closedSet ∧ q ∉ go.2)) ∧
      (go.2.Nodup → (l.foldl (aStep endPos u closedSet) go).2.Nodup) := by
  intro l
  induction l with
  | nil =>
    intro go _ _
    refine ⟨fun p _ => rfl, fun nb h => absurd h (List.not_mem_nil nb), fun q => ?_, fun h => h⟩
    simp
  | cons a t ih =>
    intro go hu hnd
    have hua : u ≠ a := fun h => hu (h ▸ List.mem_cons_self a t)
    have hut : u ∉ t := fun h => hu (List.mem_cons_of_mem a h)
    have hat : a ∉ t := (List.nodup_cons.mp hnd).1
    have hndt : t.Nodup := (List.nodup_cons.mp hnd).2
    obtain ⟨ihframe, ihmem, ihopen, ihnd⟩ := ih (aStep endPos u closedSet go a) hut hndt
    have hstep_other := aStep_fst_cells_other endPos u closedSet go a
    have hstep_self := aStep_fst_cells_self endPos u closedSet go a
    have hstep_open := aStep_snd_mem endPos u closedSet go a
    have hfold : (a :: t).foldl (aStep endPos u closedSet) go =
        t.foldl (aStep endPos u closedSet) (aStep endPos u closedSet go a) := rfl
    refine ⟨?_, ?_, ?_, ?_⟩
    · intro p hp
      have hpa : p ≠ a := fun h => hp (h ▸ List.mem_cons_self a t)
      have hpt : p ∉ t := fun h => hp (List.mem_cons_of_mem a h)
      rw [hfold, ihframe p hpt, hstep_other p hpa]
    · intro nb hnb
      rcases List.mem_cons.mp hnb with rfl | hnbt
      · rw [hfold, ihframe nb hat, hstep_self]
      · have hnba : nb ≠ a := fun h => hat (h ▸ hnbt)
        rw [hfold, ihmem nb hnbt]
        refine aRelaxCell_congr _ go.1 endPos u nb _ go.2 closedSet
          (hstep_other nb hnba) (hstep_other u hua)
          (aStep_fst_cells_static endPos u closedSet go a endPos).1
          (aStep_fst_cells_static endPos u closedSet go a endPos).2.1 ?_
        rw [hstep_open nb]
        constructor
        · rintro (h | ⟨rfl, h⟩)
          · exact h
          · exact absurd rfl hnba
        · exact Or.inl
    · intro q
      rw [hfold, ihopen q, hstep_open q]
      have hwallq : ((aStep endPos u closedSet go a).1.cells q).isWall =
          (go.1.cells q).isWall := (aStep_fst_cells_static endPos u closedSet go a q).2.2.1
      constructor
      · rintro ((h | ⟨rfl, hwa, hca, hna⟩) | ⟨hqt, hw, hc, hno⟩)
        · exact Or.inl h
        · exact Or.inr ⟨List.mem_cons_self q t, hwa, hca, hna⟩
        · right
          refine ⟨List.mem_cons_of_mem a hqt, by rw [← hwallq]; exact hw, hc, ?_⟩
          intro hq2
          exact hno (Or.inl hq2)
      · rintro (h | ⟨hqat, hw, hc, hno⟩)
        · exact Or.inl (Or.inl h)
        · rcases List.mem_cons.mp hqat with rfl | hqt
          · exact Or.inl (Or.inr ⟨rfl, hw, hc, hno⟩)
          · have hqa : q ≠ a := fun h => hat (h ▸ hqt)
            right
            refine ⟨hqt, by rw [hwallq]; exact hw, hc, ?_⟩
            rintro (h | ⟨rfl, h2⟩)
            · exact hno h
            · exact hqa rfl
    · intro hnodup
      rw [hfold]
      apply ihnd
      rcases aStep_snd_cases endPos u closedSet go a with hc | ⟨hc, hno, _, _⟩
      · rw [hc]; exact hnodup
      · rw [hc, List.nodup_append]
        exact ⟨hnodup, List.nodup_singleton a, fun q hq hq2 => by
          rcases List.mem_singleton.mp hq2 with rfl
          exact hno hq⟩

theorem astarRelax_fst_frame (g : Grid) (endPos u : Pos) (openSet closedSet : List Pos)
    (hu : u ∉ g.getNeighbors (g.cells u)) (hnd : (g.getNeighbors (g.cells u)).Nodup)
    (p : Pos) (hp : p ∉ g.getNeighbors (g.cells u)) :
    ((astarRelax g endPos u openSet closedSet).1).cells p = g.cells p := by
  rw [astarRelax_eq]
  exact ((aRelax_fold_spec endPos u closedSet (g.getNeighbors (g.cells u))
    (g, openSet) hu hnd).1) p hp

theorem astarRelax_fst_mem (g : Grid) (endPos u : Pos) (openSet closedSet : List Pos)
    (hu : u ∉ g.getNeighbors (g.cells u)) (hnd : (g.getNeighbors (g.cells u)).Nodup)
    (nb : Pos) (hnb : nb ∈ g.getNeighbors (g.cells u)) :
    ((astarRelax g endPos u openSet closedSet).1).cells nb =
      aRelaxCell g endPos u nb openSet closedSet := by
  rw [astarRelax_eq]
  exact ((aRelax_fold_spec endPos u closedSet (g.getNeighbors (g.cells u))
    (g, openSet) hu hnd).2.1) nb hnb

theorem astarRelax_snd_mem (g : Grid) (endPos u : Pos) (openSet closedSet : List Pos)
    (hu : u ∉ g.getNeighbors (g.cells u)) (hnd : (g.getNeighbors (g.cells u)).Nodup)
    (q : Pos) :
    q ∈ (astarRelax g endPos u openSet closedSet).2 ↔
      q ∈ openSet ∨ (q ∈ g.getNeighbors (g.cells u) ∧ (g.cells q).isWall = false ∧
        q ∉ closedSet ∧ q ∉ openSet) := by
  rw [astarRelax_eq]
  exact ((aRelax_fold_spec endPos u closedSet (g.getNeighbors (g.cells u))
    (g, openSet) hu hnd).2.2.1) q

theorem astarRelax_snd_nodup (g : Grid) (endPos u : Pos) (openSet closedSet : List Pos)
    (hu : u ∉ g.getNeighbors (g.cells u)) (hnd : (g.getNeighbors (g.cells u)).Nodup)
    (ho : openSet.Nodup) : (astarRelax g endPos u openSet closedSet).2.Nodup := by
  rw [astarRelax_eq]
  exact ((aRelax_fold_spec endPos u closedSet (g.getNeighbors (g.cells u))
    (g, openSet) hu hnd).2.2.2) ho

theorem astarRelax_staticEq (g : Grid) (endPos u : Pos) (openSet closedSet : List Pos)
    (hu : u ∉ g.getNeighbors (g.cells u)) (hnd : (g.getNeighbors (g.cells u)).Nodup) :
    ((astarRelax g endPos u openSet closedSet).1).StaticEq g := by
  refine ⟨?_, fun p => ?_⟩
  · rw [astarRelax_eq]
    have : ∀ (l : List Pos) (go : Grid × List Pos),
        (l.foldl (aStep endPos u closedSet) go).1.SameFrame go.1 := by
      intro l
      induction l with
      | nil => exact fun go => Grid.sameFrame_self go.1
      | cons a t ih =>
        intro go
        exact (ih (aStep endPos u closedSet go a)).trans (aStep_fst_sameFrame endPos u closedSet go a)
    exact this (g.getNeighbors (g.cells u)) (g, openSet)
  · by_cases hp : p ∈ g.getNeighbors (g.cells u)
    · rw [astarRelax_fst_mem g endPos u openSet closedSet hu hnd p hp]
      obtain ⟨h1, h2, h3, h4, h5, h6, _⟩ := aRelaxCell_static g endPos u p openSet closedSet
      exact ⟨h1, h2, h3, h4, h5, h6⟩
    · rw [astarRelax_fst_frame g endPos u openSet closedSet hu hnd p hp]
      exact ⟨rfl, rfl, rfl, rfl, rfl, rfl⟩

theorem aRelaxCell_cases (g : Grid) (endPos u nb : Pos) (openSet closedSet : List Pos) :
    aRelaxCell g endPos u nb openSet closedSet = g.cells nb ∨
    ((g.cells nb).isWall = false ∧ nb ∉ closedSet ∧
      (nb ∉ openSet ∨ (g.cells u).gScore + ((g.cells nb).weight : WithTop Nat) <
        (g.cells nb).gScore) ∧
      aRelaxCell g endPos u nb openSet closedSet = { g.cells nb with
        previousNode := some u,
        gScore := (g.cells u).gScore + ((g.cells nb).weight : WithTop Nat),
        fScore := (g.cells u).gScore + ((g.cells nb).weight : WithTop Nat) +
          ((calculateHeuristic (g.cells nb) (g.cells endPos)) : WithTop Nat) }) := by
  unfold aRelaxCell Node.getMovementCost
  dsimp only
  split_ifs with h1 h2
  · exact Or.inl rfl
  · simp only [not_or, Bool.not_eq_true] at h1
    exact Or.inr ⟨h1.1, h1.2, h2, rfl⟩
  · exact Or.inl rfl

theorem aRelaxCell_g_le (g : Grid) (endPos u nb : Pos) (openSet closedSet : List Pos)
    (hwall : (g.cells nb).isWall = false) (hc : nb ∉ closedSet) :
    (aRelaxCell g endPos u nb openSet closedSet).gScore ≤
      (g.cells u).gScore + ((g.cells nb).weight : WithTop Nat) := by
  unfold aRelaxCell Node.getMovementCost
  dsimp only
  rw [if_neg (by rw [hwall]; simp [hc])]
  split_ifs with h2
  · exact le_refl _
  · simp only [not_or, not_not, not_lt] at h2
    exact h2.2

theorem Grid.IsPath.snoc {g : Grid} {s p : Pos} {l : List Pos}
    (h : g.IsPath s p l) {q : Pos} (hstep : stepRel g p q) :
    g.IsPath s q (l ++ [q]) := by
  obtain ⟨hh, hl, hc⟩ := h
  refine ⟨?_, ?_, ?_⟩
  · cases l with
    | nil => cases hh
    | cons a t => simpa using hh
  · simp [List.getLast?_concat]
  · refine List.chain'_append.mpr ⟨hc, List.chain'_singleton q, ?_⟩
    intro x hx z hz
    simp only [List.head?_cons, Option.mem_def, Option.some.injEq] at hz
    subst hz
    rw [hl] at hx
    simp only [Option.mem_def, Option.some.injEq] at hx
    subst hx
    exact hstep

theorem Grid.pathCost_split (g : Grid) (l1 : List Pos) (y : Pos) (l2 : List Pos) :
    g.pathCost (l1 ++ y :: l2) = g.pathCost (l1 ++ [y]) + g.pathCost (y :: l2) := by
  cases l1 with
  | nil => simp [Grid.pathCost]
  | cons a t =>
    simp [Grid.pathCost]
    omega

theorem Grid.pathCost_cons_cons (g : Grid) (a b : Pos) (t : List Pos) :
    g.pathCost (a :: b :: t) = (g.cells b).weight + g.pathCost (b :: t) := by
  simp [Grid.pathCost]

theorem calculateHeuristic_eq (g : Grid) (p e : Pos)
    (hp : (g.cells p).row = p.1 ∧ (g.cells p).col = p.2)
    (he : (g.cells e).row = e.1 ∧ (g.cells e).col = e.2) :
    calculateHeuristic (g.cells p) (g.cells e) = manhattanNat p e := by
  unfold calculateHeuristic Node.manhattanDistanceTo manhattanNat
  rw [hp.1, hp.2, he.1, he.2]

theorem manhattanNat_adjacent (a b e : Pos) (hadj : orthAdjacent a b) :
    manhattanNat a e ≤ 1 + manhattanNat b e := by
  unfold manhattanNat
  unfold orthAdjacent at hadj
  omega

/-- The Manhattan heuristic is consistent: along any walk it decreases by at
most the walk's cost (weights are at least 1). -/
theorem manhattan_chain (g : Grid) (e : Pos)
    (hrc : ∀ p ∈ g.allPositions, (g.cells p).row = p.1 ∧ (g.cells p).col = p.2)
    (hwt : ∀ p ∈ g.allPositions, 1 ≤ (g.cells p).weight) :
    ∀ (l : List Pos) (a z : Pos), a ∈ g.allPositions → l.head? = some a →
      l.getLast? = some z → List.Chain' (stepRel g) l →
      manhattanNat a e ≤ g.pathCost l + manhattanNat z e := by
  intro l
  induction l with
  | nil => intro a z _ ha; cases ha
  | cons p t ih =>
    intro a z hamem hh hlast hc
    simp only [List.head?_cons, Option.some.injEq] at hh
    subst hh
    cases t with
    | nil =>
      simp only [List.getLast?_singleton, Option.some.injEq] at hlast
      subst hlast
      simp [Grid.pathCost]
    | cons b t2 =>
      rw [List.chain'_cons] at hc
      have hb : b ∈ g.allPositions :=
        (Grid.mem_allPositions g b).mpr (Grid.mem_getNeighbors_valid g (g.cells p) b hc.1.1)
      have hab : p.1 < g.rows ∧ p.2 < g.cols := (Grid.mem_allPositions g p).mp hamem
      have hadj : orthAdjacent p b := by
        have := ((getNeighbors_explicit g (g.cells p)
          (by rw [(hrc p hamem).1]; exact hab.1)
          (by rw [(hrc p hamem).2]; exact hab.2)).2 b).mp hc.1.1
        rw [(hrc p hamem).1, (hrc p hamem).2] at this
        exact this.2.2
      rw [List.getLast?_cons_cons] at hlast
      have hih := ih b z hb rfl hlast hc.2
      have hstep1 : manhattanNat p e ≤ 1 + manhattanNat b e := manhattanNat_adjacent p b e hadj
      have hwb : 1 ≤ (g.cells b).weight := hwt b hb
      rw [Grid.pathCost_cons_cons]
      omega

theorem insertionSortF_head_min (g : Grid) (O : List Pos) (u : Pos) (rest : List Pos)
    (hsort : List.insertionSort (fLE g) O = u :: rest) :
    ∀ q ∈ O, (g.cells u).fScore ≤ (g.cells q).fScore := by
  have hsorted : List.Sorted (fLE g) (u :: rest) := by
    rw [← hsort]
    exact List.sorted_insertionSort (fLE g) O
  have hperm : (u :: rest).Perm O := by
    rw [← hsort]
    exact List.perm_insertionSort (fLE g) O
  intro q hq
  rcases List.mem_cons.mp (hperm.mem_iff.mpr hq) with rfl | hq2
  · exact le_refl _
  · exact (List.sorted_cons.mp hsorted).1 q hq2

theorem AInv.awf {g0 : Grid} {s e : Pos} {g : Grid} {O C : List Pos} {x : Nat}
    (hwf : g0.WF s e) (hA : AInv g0 s e g O C x) : g.WF s e :=
  (hA.static.wf_iff s e).mpr hwf

theorem AInv.aapos_eq {g0 : Grid} {s e : Pos} {g : Grid} {O C : List Pos} {x : Nat}
    (hA : AInv g0 s e g O C x) : g.allPositions = g0.allPositions :=
  Grid.allPositions_congr hA.static.1.1 hA.static.1.2.1

/-- The A* frontier bound: along any walk from Start, either every cell is
closed, or some open cell carries a g-score no larger than the cost of the
walk's prefix reaching it. -/
theorem AInv.afrontier_cases {g0 : Grid} {s e : Pos} {g : Grid} {O C : List Pos} {x : Nat}
    (hwf : g0.WF s e) (hA : AInv g0 s e g O C x) (z : Pos) (l : List Pos)
    (hl : g.IsPath s z l) :
    (∀ q ∈ l, q ∈ C) ∨
    ∃ y l1 l2, y ∈ O ∧ l = l1 ++ y :: l2 ∧
      (g.cells y).gScore ≤ ((g.pathCost (l1 ++ [y]) : Nat) : WithTop Nat) := by
  by_cases hall : ∀ q ∈ l, q ∈ C
  · exact Or.inl hall
  · right
    push_neg at hall
    obtain ⟨q0, hq0, hq0C⟩ := hall
    obtain ⟨l1, y, l2, heq, hyC, hl1⟩ := exists_first_split (· ∉ C) l q0 hq0 hq0C
    have hallC : ∀ q ∈ l1, q ∈ C := by
      intro q hq
      by_contra hqc
      exact hl1 q hq hqc
    cases hl1e : l1 with
    | nil =>
      subst hl1e
      simp only [List.nil_append] at heq
      have hys : y = s := by
        have := hl.1
        rw [heq] at this
        simp only [List.head?_cons, Option.some.injEq] at this
        exact this
      subst hys
      have hyO : y ∈ O := by
        rcases hA.s_disc with h | h
        · exact h
        · exact absurd h hyC
      exact ⟨y, [], l2, hyO, heq, by rw [hA.gscore_s]; exact zero_le _⟩
    | cons a t =>
      have hl1ne : l1 ≠ [] := by rw [hl1e]; exact List.cons_ne_nil a t
      set w := l1.getLast hl1ne with hw
      have hwl : l1.dropLast ++ [w] = l1 := List.dropLast_append_getLast hl1ne
      have hsplit : l = l1.dropLast ++ w :: (y :: l2) := by
        conv_lhs => rw [heq, ← hwl]
        rw [List.append_assoc]
        rfl
      have hwmem : w ∈ l1 := by
        rw [← hwl]
        exact List.mem_append_right _ (List.mem_singleton.mpr rfl)
      have hwC : w ∈ C := hallC w hwmem
      have hpw : g.IsPath s w l1 := by
        have := @Grid.IsPath.upto g s z l1.dropLast (y :: l2) w
          (by rw [← hsplit]; exact hl)
        rw [hwl] at this
        exact this
      have hoptw := hA.closed_opt w hwC l1 hpw
      have hstepwy : stepRel g w y := by
        have hc := hl.2.2
        rw [hsplit] at hc
        have hc2 := (List.chain'_append.mp hc).2
        rw [List.chain'_cons] at hc2
        exact hc2.1.1
      have hywall : (g.cells y).isWall = false := hstepwy.2
      have hexp := hA.closed_exp w hwC y hstepwy.1 hywall
      have hyO : y ∈ O := by
        rcases hexp.2 with h | h
        · exact h
        · exact absurd h hyC
      refine ⟨y, l1, l2, hyO, heq, ?_⟩
      have hcost : (g.pathCost (l1 ++ [y]) : Nat) = g.pathCost l1 + (g.cells y).weight :=
        Grid.pathCost_concat g l1 y hl1ne
      calc (g.cells y).gScore
          ≤ (g.cells w).gScore + ((g.cells y).weight : WithTop Nat) := hexp.1
        _ ≤ ((g.pathCost l1 : Nat) : WithTop Nat) + ((g.cells y).weight : WithTop Nat) :=
            add_le_add_right hoptw _
        _ = ((g.pathCost (l1 ++ [y]) : Nat) : WithTop Nat) := by
            rw [hcost]
            push_cast
            rfl

/-- Popping the minimum-f open cell yields its true minimum cost: the
Manhattan heuristic is consistent, so no cheaper path can remain. -/
theorem ainv_pop_opt {g0 : Grid} {s e : Pos} {g : Grid} {O C : List Pos} {x : Nat}
    (hwf : g0.WF s e) (hA : AInv g0 s e g O C x)
    {u : Pos} {rest : List Pos}
    (hsort : List.insertionSort (fLE g) O = u :: rest) :
    ∀ l, g.IsPath s u l →
      (g.cells u).gScore ≤ ((g.pathCost l : Nat) : WithTop Nat) := by
  have hperm : (u :: rest).Perm O := by
    rw [← hsort]
    exact List.perm_insertionSort (fLE g) O
  have huO : u ∈ O := hperm.subset (List.mem_cons_self u rest)
  have hfmin := insertionSortF_head_min g O u rest hsort
  have hwfg : g.WF s e := hA.awf hwf
  have hrc : ∀ p ∈ g.allPositions, (g.cells p).row = p.1 ∧ (g.cells p).col = p.2 :=
    hwfg.2.2.2.2.2.2.2.2.2.1
  have hwt : ∀ p ∈ g.allPositions, 1 ≤ (g.cells p).weight :=
    hwfg.2.2.2.2.2.2.2.2.2.2.2.2
  have hsg : s ∈ g.allPositions :=
    (Grid.mem_allPositions g s).mpr ⟨hwfg.2.2.1, hwfg.2.2.2.1⟩
  intro l hl
  rcases hA.afrontier_cases hwf u l hl with hall | ⟨y, l1, l2, hyO, heq, hgy⟩
  · exact absurd (hall u (List.mem_of_mem_getLast? (by rw [hl.2.1]; rfl)))
      (hA.disj u huO)
  · have hap : g.allPositions = g0.allPositions := hA.aapos_eq
    have hy0 : y ∈ g0.allPositions := hA.omem y hyO
    have hyg : y ∈ g.allPositions := by rw [hap]; exact hy0
    have hu0 : u ∈ g0.allPositions := hA.omem u huO
    have hug : u ∈ g.allPositions := by rw [hap]; exact hu0
    have hgyfin : (g.cells y).gScore ≠ ⊤ := (hA.open_fin y hyO).1
    have hgufin : (g.cells u).gScore ≠ ⊤ := (hA.open_fin u huO).1
    have hfy := hA.fcons y hy0 hgyfin
    have hfu := hA.fcons u hu0 hgufin
    -- the suffix y :: l2 is a chain ending at u
    have hchain2 : List.Chain' (stepRel g) (y :: l2) := by
      have hc := hl.2.2
      rw [heq] at hc
      exact (List.chain'_append.mp hc).2.1
    have hlast2 : (y :: l2).getLast? = some u := by
      have h := hl.2.1
      rw [heq, List.getLast?_append] at h
      cases hgl : (y :: l2).getLast? with
      | none =>
        rw [List.getLast?_eq_getLast (y :: l2) (List.cons_ne_nil y l2)] at hgl
        cases hgl
      | some v =>
        rw [hgl] at h
        simpa using h
    have hman := manhattan_chain g e hrc hwt (y :: l2) y u hyg rfl hlast2 hchain2
    -- combined inequality
    have hfmin_u : (g.cells u).fScore ≤ (g.cells y).fScore := hfmin y hyO
    have hsplit : g.pathCost l = g.pathCost (l1 ++ [y]) + g.pathCost (y :: l2) := by
      rw [heq]
      exact Grid.pathCost_split g l1 y l2
    rw [hfu, hfy] at hfmin_u
    have hchain3 : (g.cells u).gScore + ((manhattanNat u e : Nat) : WithTop Nat) ≤
        ((g.pathCost l : Nat) : WithTop Nat) + ((manhattanNat u e : Nat) : WithTop Nat) := by
      calc (g.cells u).gScore + ((manhattanNat u e : Nat) : WithTop Nat)
          ≤ (g.cells y).gScore + ((manhattanNat y e : Nat) : WithTop Nat) := hfmin_u
        _ ≤ ((g.pathCost (l1 ++ [y]) : Nat) : WithTop Nat) +
              ((manhattanNat y e : Nat) : WithTop Nat) := add_le_add_right hgy _
        _ ≤ ((g.pathCost (l1 ++ [y]) : Nat) : WithTop Nat) +
              ((g.pathCost (y :: l2) + manhattanNat u e : Nat) : WithTop Nat) := by
            refine add_le_add_left ?_ _
            rw [Nat.cast_withTop, Nat.cast_withTop]
            exact WithTop.coe_le_coe.mpr hman
        _ = ((g.pathCost l : Nat) : WithTop Nat) + ((manhattanNat u e : Nat) : WithTop Nat) := by
            rw [hsplit]
            push_cast
            ring
    rw [Nat.cast_withTop] at hchain3
    exact (WithTop.add_le_add_iff_right WithTop.coe_ne_top).mp hchain3

/-- In any A* invariant state, every discovered cell's `previousNode` chain
reconstructs a simple walk from Start whose cost is the recorded g-score. -/
theorem ainv_reconstruct {g0 : Grid} {s e : Pos} {g : Grid} {O C : List Pos} {x : Nat}
    (hwf : g0.WF s e) (hA : AInv g0 s e g O C x)
    (p : Pos) (hp0 : p ∈ g0.allPositions) (hfin : (g.cells p).gScore ≠ ⊤) :
    ∃ l, g.reconstructPath p = l ∧ g.IsPath s p l ∧
      ((g.pathCost l : Nat) : WithTop Nat) = (g.cells p).gScore ∧ l.Nodup := by
  have hwfg : g.WF s e := hA.awf hwf
  have hap : g.allPositions = g0.allPositions := hA.aapos_eq
  have hsg : s ∈ g.allPositions :=
    (Grid.mem_allPositions g s).mpr ⟨hwfg.2.2.1, hwfg.2.2.2.1⟩
  have hspec := reconstructPathAux_spec g s (fun q => (g.cells q).gScore)
    hsg (hwfg.2.2.2.2.2.2.2.2.2.2.2.2)
    (by
      intro q hq y hy
      obtain ⟨hstep, hy0, _, hyfin, heq⟩ := hA.prev_spec q (by rw [← hap]; exact hq) y hy
      exact ⟨hstep, by rw [hap]; exact hy0, hyfin, heq⟩)
    (by
      intro q hq hqnone hqfin
      by_contra hqs
      exact hA.fin_prev q (by rw [← hap]; exact hq) hqs hqfin hqnone)
    hA.gscore_s
    (g.rows * g.cols + 1) p [] (by rw [hap]; exact hp0) hfin
    (by
      dsimp only
      have h1 := List.length_filter_le
        (fun q => decide ((g.cells q).gScore < (g.cells p).gScore)) g.allPositions
      have h2 := g.allPositions_length
      omega)
  obtain ⟨l, heq, hpath, hcost, hnd, _⟩ := hspec
  refine ⟨l, ?_, hpath, hcost, hnd⟩
  unfold Grid.reconstructPath
  rw [heq, List.append_nil]

theorem aRelaxCell_closed (g : Grid) (endPos u nb : Pos) (openSet closedSet : List Pos)
    (hc : nb ∈ closedSet) :
    aRelaxCell g endPos u nb openSet closedSet = g.cells nb := by
  unfold aRelaxCell
  rw [if_pos (Or.inr hc)]

theorem aRelaxCell_push (g : Grid) (endPos u nb : Pos) (openSet closedSet : List Pos)
    (hwall : (g.cells nb).isWall = false) (hc : nb ∉ closedSet) (ho : nb ∉ openSet) :
    aRelaxCell g endPos u nb openSet closedSet = { g.cells nb with
      previousNode := some u,
      gScore := (g.cells u).gScore + ((g.cells nb).weight : WithTop Nat),
      fScore := (g.cells u).gScore + ((g.cells nb).weight : WithTop Nat) +
        ((calculateHeuristic (g.cells nb) (g.cells endPos)) : WithTop Nat) } := by
  unfold aRelaxCell Node.getMovementCost
  dsimp only
  rw [if_neg (by rw [hwall]; simp [hc]), if_pos (Or.inl ho)]

/-- One relaxation iteration of the A* loop preserves the invariant:
popping the minimum-f open cell `u`, closing it, marking it explored unless
it is Start or End, and examining its neighbours. -/
theorem ainv_step {g0 : Grid} {s e : Pos} {g : Grid} {O C : List Pos} {x : Nat}
    (hwf : g0.WF s e) (hA : AInv g0 s e g O C x)
    {u : Pos} {rest : List Pos}
    (hsort : List.insertionSort (fLE g) O = u :: rest)
    (hne : u ≠ e) :
    AInv g0 s e
      ((astarRelax
        (if (g.cells u).isStart = false ∧ (g.cells u).isEnd = false then
          g.setCell u ((g.cells u).markAsExplored) else g)
        e u rest (C ++ [u])).1)
      ((astarRelax
        (if (g.cells u).isStart = false ∧ (g.cells u).isEnd = false then
          g.setCell u ((g.cells u).markAsExplored) else g)
        e u rest (C ++ [u])).2)
      (C ++ [u])
      (if (g.cells u).isStart = false ∧ (g.cells u).isEnd = false then x + 1 else x) := by
  have hperm : (u :: rest).Perm O := by
    rw [← hsort]
    exact List.perm_insertionSort (fLE g) O
  have hndur : (u :: rest).Nodup := hperm.nodup_iff.mpr hA.ond
  have hur : u ∉ rest := (List.nodup_cons.mp hndur).1
  have hndrest : rest.Nodup := (List.nodup_cons.mp hndur).2
  have huO : u ∈ O := hperm.subset (List.mem_cons_self u rest)
  have hmemO : ∀ p, p ∈ O ↔ p = u ∨ p ∈ rest := by
    intro p
    rw [← hperm.mem_iff, List.mem_cons]
  have huC : u ∉ C := hA.disj u huO
  have hpopt := ainv_pop_opt hwf hA hsort
  have hwfg : g.WF s e := hA.awf hwf
  have hrc : ∀ p ∈ g.allPositions, (g.cells p).row = p.1 ∧ (g.cells p).col = p.2 :=
    hwfg.2.2.2.2.2.2.2.2.2.1
  have hstart : ∀ p ∈ g.allPositions, ((g.cells p).isStart = true ↔ p = s) :=
    hwfg.2.2.2.2.2.2.2.2.2.2.1
  have hend : ∀ p ∈ g.allPositions, ((g.cells p).isEnd = true ↔ p = e) :=
    hwfg.2.2.2.2.2.2.2.2.2.2.2.1
  have hap : g.allPositions = g0.allPositions := hA.aapos_eq
  have hu0 : u ∈ g0.allPositions := hA.omem u huO
  have hug : u ∈ g.allPositions := by rw [hap]; exact hu0
  have hrowu : (g.cells u).row = u.1 := (hrc u hug).1
  have hcolu : (g.cells u).col = u.2 := (hrc u hug).2
  have hub : u.1 < g.rows ∧ u.2 < g.cols := (Grid.mem_allPositions g u).mp hug
  have huN : u ∉ g.getNeighbors (g.cells u) :=
    not_mem_getNeighbors_self g (g.cells u) u (by rw [hrowu]; exact hub.1)
      (by rw [hcolu]; exact hub.2) ⟨hrowu, hcolu⟩
  have hndN : (g.getNeighbors (g.cells u)).Nodup :=
    getNeighbors_nodup g (g.cells u) (by rw [hrowu]; exact hub.1)
      (by rw [hcolu]; exact hub.2)
  have hgufin : (g.cells u).gScore ≠ ⊤ := (hA.open_fin u huO).1
  have hwallu : (g.cells u).isWall = false := (hA.open_fin u huO).2
  set C' := C ++ [u] with hCxdef
  set gm := (if (g.cells u).isStart = false ∧ (g.cells u).isEnd = false then
      g.setCell u ((g.cells u).markAsExplored) else g) with hgmdef
  have hgm_static : gm.StaticEq g := by
    rw [hgmdef]
    split_ifs
    · exact markAsExplored_staticEq g u
    · exact Grid.staticEq_refl g
  have hgm_cells : ∀ p, (gm.cells p).gScore = (g.cells p).gScore ∧
      (gm.cells p).previousNode = (g.cells p).previousNode ∧
      (gm.cells p).fScore = (g.cells p).fScore := by
    intro p
    rw [hgmdef]
    split_ifs
    · exact ⟨(markAsExplored_cells g u p).2.2.1, (markAsExplored_cells g u p).2.1,
        (markAsExplored_cells g u p).2.2.2⟩
    · exact ⟨rfl, rfl, rfl⟩
  have hNm : gm.getNeighbors (gm.cells u) = g.getNeighbors (g.cells u) :=
    hgm_static.getNeighbors_eq u
  have huNm : u ∉ gm.getNeighbors (gm.cells u) := by rw [hNm]; exact huN
  have hndNm : (gm.getNeighbors (gm.cells u)).Nodup := by rw [hNm]; exact hndN
  set g' := (astarRelax gm e u rest C').1 with hgxdef
  set O' := (astarRelax gm e u rest C').2 with hOxdef
  have hst' : g'.StaticEq g := (astarRelax_staticEq gm e u rest C' huNm hndNm).comp hgm_static
  have hst0 : g'.StaticEq g0 := hst'.comp hA.static
  have hwall' : ∀ p, (g'.cells p).isWall = (g.cells p).isWall := fun p => (hst'.2 p).2.2.2.2.1
  have hwt' : ∀ p, (g'.cells p).weight = (g.cells p).weight := fun p => (hst'.2 p).2.2.2.2.2
  have hstep' : ∀ a b, stepRel g' a b ↔ stepRel g a b := fun a b => hst'.stepRel_iff a b
  have hpath' : ∀ z l, g'.IsPath s z l ↔ g.IsPath s z l := fun z l => hst'.isPath_iff s z l
  have hcost' : ∀ l, g'.pathCost l = g.pathCost l := fun l => hst'.pathCost_eq l
  have hN' : ∀ p, g'.getNeighbors (g'.cells p) = g.getNeighbors (g.cells p) :=
    fun p => hst'.getNeighbors_eq p
  have hwallgm : ∀ p, (gm.cells p).isWall = (g.cells p).isWall :=
    fun p => (hgm_static.2 p).2.2.2.2.1
  have hwtgm : ∀ p, (gm.cells p).weight = (g.cells p).weight :=
    fun p => (hgm_static.2 p).2.2.2.2.2
  have hframe : ∀ p, p ∉ g.getNeighbors (g.cells u) → g'.cells p = gm.cells p := by
    intro p hp
    rw [hgxdef]
    exact astarRelax_fst_frame gm e u rest C' huNm hndNm p (by rw [hNm]; exact hp)
  have hchar : ∀ nb ∈ g.getNeighbors (g.cells u),
      g'.cells nb = aRelaxCell gm e u nb rest C' := by
    intro nb hnb
    rw [hgxdef]
    exact astarRelax_fst_mem gm e u rest C' huNm hndNm nb (by rw [hNm]; exact hnb)
  have hC'frozen : ∀ p ∈ C', g'.cells p = gm.cells p := by
    intro p hp
    by_cases hpN : p ∈ g.getNeighbors (g.cells u)
    · rw [hchar p hpN]
      exact aRelaxCell_closed gm e u p rest C' hp
    · exact hframe p hpN
  have huC' : u ∈ C' := List.mem_append_right C (List.mem_singleton.mpr rfl)
  have hfrozen_u : g'.cells u = gm.cells u := hframe u huN
  have hO'mem : ∀ q, q ∈ O' ↔ q ∈ rest ∨ (q ∈ g.getNeighbors (g.cells u) ∧
      (g.cells q).isWall = false ∧ q ∉ C' ∧ q ∉ rest) := by
    intro q
    rw [hOxdef, astarRelax_snd_mem gm e u rest C' huNm hndNm q, hNm, hwallgm q]
  have hg_le : ∀ p, (g'.cells p).gScore ≤ (g.cells p).gScore := by
    intro p
    by_cases hpN : p ∈ g.getNeighbors (g.cells u)
    · rw [hchar p hpN]
      rcases aRelaxCell_cases gm e u p rest C' with hcase | ⟨hw, hc, hcond, hcell⟩
      · rw [hcase, (hgm_cells p).1]
      · rw [hcell]
        show (gm.cells u).gScore + ((gm.cells p).weight : WithTop Nat) ≤ _
        rcases hcond with hcond | hcond
        · have hpO : p ∉ O := by
            intro hpO
            rcases (hmemO p).mp hpO with rfl | hpr
            · exact huN hpN
            · exact hcond hpr
          have hpC : p ∉ C := fun h => hc (List.mem_append_left _ h)
          have hp0 : p ∈ g0.allPositions := by
            rw [← hap]
            exact (Grid.mem_allPositions g p).mpr
              (Grid.mem_getNeighbors_valid g (g.cells u) p hpN)
          rw [hA.undisc p hp0 hpO hpC]
          exact le_top
        · rw [(hgm_cells u).1, hwtgm p, (hgm_cells p).1] at hcond
          rw [(hgm_cells u).1, hwtgm p]
          exact le_of_lt hcond
    · rw [hframe p hpN, (hgm_cells p).1]
  refine ⟨hst0, ?_, ?_, ?_, ?_, ?_, ?_, ?_, ?_, ?_, ?_, ?_, ?_, ?_, ?_, ?_, ?_, ?_, ?_⟩
  · -- omem
    intro q hq
    rcases (hO'mem q).mp hq with hqr | ⟨hqN, _, _, _⟩
    · exact hA.omem q ((hmemO q).mpr (Or.inr hqr))
    · rw [← hap]
      exact (Grid.mem_allPositions g q).mpr (Grid.mem_getNeighbors_valid g (g.cells u) q hqN)
  · -- cmem
    intro q hq
    rcases List.mem_append.mp hq with h | h
    · exact hA.cmem q h
    · rcases List.mem_singleton.mp h with rfl
      exact hu0
  · -- ond
    rw [hOxdef]
    exact astarRelax_snd_nodup gm e u rest C' huNm hndNm hndrest
  · -- cnd
    rw [hCxdef, List.nodup_append]
    refine ⟨hA.cnd, List.nodup_singleton u, ?_⟩
    intro q hq hq2
    rcases List.mem_singleton.mp hq2 with rfl
    exact huC hq
  · -- disj
    intro q hq
    rcases (hO'mem q).mp hq with hqr | ⟨_, _, hqC', _⟩
    · intro hqC'
      rcases List.mem_append.mp hqC' with h | h
      · exact hA.disj q ((hmemO q).mpr (Or.inr hqr)) h
      · rcases List.mem_singleton.mp h with rfl
        exact hur hqr
    · exact hqC'
  · -- open_fin
    intro q hq
    rcases (hO'mem q).mp hq with hqr | ⟨hqN, hqw, hqC', hqr⟩
    · have hqO : q ∈ O := (hmemO q).mpr (Or.inr hqr)
      refine ⟨?_, by rw [hwall' q]; exact (hA.open_fin q hqO).2⟩
      by_cases hqN : q ∈ g.getNeighbors (g.cells u)
      · rw [hchar q hqN]
        rcases aRelaxCell_cases gm e u q rest C' with hcase | ⟨_, _, _, hcell⟩
        · rw [hcase, (hgm_cells q).1]
          exact (hA.open_fin q hqO).1
        · rw [hcell]
          show (gm.cells u).gScore + ((gm.cells q).weight : WithTop Nat) ≠ ⊤
          rw [(hgm_cells u).1]
          rw [Nat.cast_withTop]
          exact WithTop.add_ne_top.mpr ⟨hgufin, WithTop.coe_ne_top⟩
      · rw [hframe q hqN, (hgm_cells q).1]
        exact (hA.open_fin q hqO).1
    · refine ⟨?_, by rw [hwall' q]; exact hqw⟩
      rw [hchar q hqN, aRelaxCell_push gm e u q rest C' (by rw [hwallgm q]; exact hqw) hqC' hqr]
      show (gm.cells u).gScore + ((gm.cells q).weight : WithTop Nat) ≠ ⊤
      rw [(hgm_cells u).1, Nat.cast_withTop]
      exact WithTop.add_ne_top.mpr ⟨hgufin, WithTop.coe_ne_top⟩
  · -- closed_fin
    intro q hq
    rw [hC'frozen q hq, (hgm_cells q).1, hwallgm q]
    rcases List.mem_append.mp hq with h | h
    · exact hA.closed_fin q h
    · rcases List.mem_singleton.mp h with rfl
      exact ⟨hgufin, hwallu⟩
  · -- undisc
    intro p hp0 hpO' hpC'
    have hpr : p ∉ rest := fun h => hpO' ((hO'mem p).mpr (Or.inl h))
    have hpu : p ≠ u := fun h => hpC' (h ▸ huC')
    have hpO : p ∉ O := fun h => by
      rcases (hmemO p).mp h with rfl | hx
      · exact hpu rfl
      · exact hpr hx
    have hpC : p ∉ C := fun h => hpC' (List.mem_append_left _ h)
    have hold : (g.cells p).gScore = ⊤ := hA.undisc p hp0 hpO hpC
    by_cases hpN : p ∈ g.getNeighbors (g.cells u)
    · rw [hchar p hpN]
      rcases aRelaxCell_cases gm e u p rest C' with hcase | ⟨hw, hc, _, _⟩
      · rw [hcase, (hgm_cells p).1, hold]
      · exfalso
        exact hpO' ((hO'mem p).mpr (Or.inr ⟨hpN, by rw [← hwallgm p]; exact hw, hc, hpr⟩))
    · rw [hframe p hpN, (hgm_cells p).1, hold]
  · -- fcons
    intro p hp0 hfin
    have hpg : p ∈ g.allPositions := by rw [hap]; exact hp0
    by_cases hpN : p ∈ g.getNeighbors (g.cells u)
    · rcases aRelaxCell_cases gm e u p rest C' with hcase | ⟨hw, hc, hcond, hcell⟩
      · rw [hchar p hpN, hcase, (hgm_cells p).1] at hfin
        rw [hchar p hpN, hcase, (hgm_cells p).1, (hgm_cells p).2.2]
        exact hA.fcons p hp0 hfin
      · rw [hchar p hpN, hcell]
        have hwfgm : gm.WF s e := (hgm_static.wf_iff s e).mpr hwfg
        have hrcgm : ∀ q ∈ gm.allPositions, (gm.cells q).row = q.1 ∧ (gm.cells q).col = q.2 :=
          hwfgm.2.2.2.2.2.2.2.2.2.1
        have hapm : gm.allPositions = g.allPositions :=
          Grid.allPositions_congr hgm_static.1.1 hgm_static.1.2.1
        have hpm : p ∈ gm.allPositions := by rw [hapm]; exact hpg
        have hem : e ∈ gm.allPositions := by
          rw [hapm]
          exact (Grid.mem_allPositions g e).mpr ⟨hwfg.2.2.2.2.1, hwfg.2.2.2.2.2.1⟩
        have hh : calculateHeuristic (gm.cells p) (gm.cells e) = manhattanNat p e :=
          calculateHeuristic_eq gm p e (hrcgm p hpm) (hrcgm e hem)
        show _ = (gm.cells u).gScore + ((gm.cells p).weight : WithTop Nat) + _
        rw [hh]
    · rw [hframe p hpN, (hgm_cells p).1] at hfin
      rw [hframe p hpN, (hgm_cells p).1, (hgm_cells p).2.2]
      exact hA.fcons p hp0 hfin
  · -- closed_exp
    intro p hp nb hnb hwallnb
    rw [hN' p] at hnb
    rw [hwall' nb] at hwallnb
    rcases List.mem_append.mp hp with hpC | hpu
    · have hgp : g'.cells p = gm.cells p := hC'frozen p (List.mem_append_left _ hpC)
      obtain ⟨hle, hmem2⟩ := hA.closed_exp p hpC nb hnb hwallnb
      constructor
      · rw [hgp, (hgm_cells p).1, hwt' nb]
        exact le_trans (hg_le nb) hle
      · rcases hmem2 with h | h
        · rcases (hmemO nb).mp h with rfl | hnbr
          · exact Or.inr huC'
          · exact Or.inl ((hO'mem nb).mpr (Or.inl hnbr))
        · exact Or.inr (List.mem_append_left _ h)
    · have hpu2 : p = u := List.mem_singleton.mp hpu
      rw [hpu2] at hnb ⊢
      have hstepunb : stepRel g u nb := ⟨hnb, hwallnb⟩
      constructor
      · rw [hfrozen_u, (hgm_cells u).1, hwt' nb]
        by_cases hnbC' : nb ∈ C'
        · rw [hC'frozen nb hnbC', (hgm_cells nb).1]
          have hnbC : nb ∈ C := by
            rcases List.mem_append.mp hnbC' with h | h
            · exact h
            · rcases List.mem_singleton.mp h with rfl
              exact absurd hnb huN
          obtain ⟨lu, _, hlupath, hlucost, _⟩ := ainv_reconstruct hwf hA u hu0 hgufin
          have hpath2 := hlupath.snoc hstepunb
          have hlune : lu ≠ [] := by
            intro hnil
            rw [hnil] at hlupath
            cases hlupath.1
          have hco := hA.closed_opt nb hnbC (lu ++ [nb]) hpath2
          rw [Grid.pathCost_concat g lu nb hlune] at hco
          calc (g.cells nb).gScore
              ≤ ((g.pathCost lu + (g.cells nb).weight : Nat) : WithTop Nat) := hco
            _ = ((g.pathCost lu : Nat) : WithTop Nat) + ((g.cells nb).weight : WithTop Nat) := by
                push_cast
                rfl
            _ = (g.cells u).gScore + ((g.cells nb).weight : WithTop Nat) := by
                rw [hlucost]
        · by_cases hnbrest : nb ∈ rest
          · rw [hchar nb hnb]
            have := aRelaxCell_g_le gm e u nb rest C'
              (by rw [hwallgm nb]; exact hwallnb) hnbC'
            rw [(hgm_cells u).1, hwtgm nb] at this
            exact this
          · rw [hchar nb hnb]
            have := aRelaxCell_g_le gm e u nb rest C'
              (by rw [hwallgm nb]; exact hwallnb) hnbC'
            rw [(hgm_cells u).1, hwtgm nb] at this
            exact this
      · by_cases hnbC' : nb ∈ C'
        · exact Or.inr hnbC'
        · by_cases hnbrest : nb ∈ rest
          · exact Or.inl ((hO'mem nb).mpr (Or.inl hnbrest))
          · exact Or.inl ((hO'mem nb).mpr (Or.inr ⟨hnb, hwallnb, hnbC', hnbrest⟩))
  · -- closed_opt
    intro p hp l hl
    have hlg := (hpath' p l).mp hl
    rw [hcost' l]
    rcases List.mem_append.mp hp with hpC | hpu
    · rw [hC'frozen p (List.mem_append_left _ hpC), (hgm_cells p).1]
      exact hA.closed_opt p hpC l hlg
    · have hpu2 : p = u := List.mem_singleton.mp hpu
      rw [hpu2] at hlg ⊢
      rw [hfrozen_u, (hgm_cells u).1]
      exact hpopt l hlg
  · -- gscore_s
    by_cases hsN : s ∈ g.getNeighbors (g.cells u)
    · rw [hchar s hsN]
      rcases aRelaxCell_cases gm e u s rest C' with hcase | ⟨hw, hc, hcond, hcell⟩
      · rw [hcase, (hgm_cells s).1, hA.gscore_s]
      · exfalso
        rcases hcond with hcond | hcond
        · rcases hA.s_disc with hsO | hsC
          · rcases (hmemO s).mp hsO with rfl | hsr
            · exact hc huC'
            · exact hcond hsr
          · exact hc (List.mem_append_left _ hsC)
        · rw [(hgm_cells s).1, hA.gscore_s] at hcond
          exact absurd hcond (not_lt.mpr (zero_le _))
    · rw [hframe s hsN, (hgm_cells s).1, hA.gscore_s]
  · -- prev_s
    by_cases hsN : s ∈ g.getNeighbors (g.cells u)
    · rw [hchar s hsN]
      rcases aRelaxCell_cases gm e u s rest C' with hcase | ⟨hw, hc, hcond, hcell⟩
      · rw [hcase, (hgm_cells s).2.1, hA.prev_s]
      · exfalso
        rcases hcond with hcond | hcond
        · rcases hA.s_disc with hsO | hsC
          · rcases (hmemO s).mp hsO with rfl | hsr
            · exact hc huC'
            · exact hcond hsr
          · exact hc (List.mem_append_left _ hsC)
        · rw [(hgm_cells s).1, hA.gscore_s] at hcond
          exact absurd hcond (not_lt.mpr (zero_le _))
    · rw [hframe s hsN, (hgm_cells s).2.1, hA.prev_s]
  · -- prev_spec
    intro p hp0 y hy
    by_cases hpN : p ∈ g.getNeighbors (g.cells u)
    · rcases aRelaxCell_cases gm e u p rest C' with hcase | ⟨hw, hc, hcond, hcell⟩
      · rw [hchar p hpN, hcase, (hgm_cells p).2.1] at hy
        obtain ⟨hstep, hy0, hyC, hyfin, heq⟩ := hA.prev_spec p hp0 y hy
        have hyC' : y ∈ C' := List.mem_append_left _ hyC
        refine ⟨(hstep' y p).mpr hstep, hy0, hyC', ?_, ?_⟩
        · rw [hC'frozen y hyC', (hgm_cells y).1]
          exact hyfin
        · rw [hwt' p, hchar p hpN, hcase, (hgm_cells p).1, hC'frozen y hyC', (hgm_cells y).1]
          exact heq
      · rw [hchar p hpN, hcell] at hy
        injection hy with hy
        rw [← hy]
        refine ⟨(hstep' u p).mpr ⟨hpN, by rw [← hwallgm p]; exact hw⟩, hu0, huC', ?_, ?_⟩
        · rw [hfrozen_u, (hgm_cells u).1]
          exact hgufin
        · rw [hwt' p, hchar p hpN, hcell, hfrozen_u]
          show (gm.cells u).gScore + ((gm.cells p).weight : WithTop Nat) = _
          rw [hwtgm p]
    · rw [hframe p hpN, (hgm_cells p).2.1] at hy
      obtain ⟨hstep, hy0, hyC, hyfin, heq⟩ := hA.prev_spec p hp0 y hy
      have hyC' : y ∈ C' := List.mem_append_left _ hyC
      refine ⟨(hstep' y p).mpr hstep, hy0, hyC', ?_, ?_⟩
      · rw [hC'frozen y hyC', (hgm_cells y).1]
        exact hyfin
      · rw [hwt' p, hframe p hpN, (hgm_cells p).1, hC'frozen y hyC', (hgm_cells y).1]
        exact heq
  · -- fin_prev
    intro p hp0 hps hfin
    by_cases hpN : p ∈ g.getNeighbors (g.cells u)
    · rcases aRelaxCell_cases gm e u p rest C' with hcase | ⟨hw, hc, hcond, hcell⟩
      · rw [hchar p hpN, hcase, (hgm_cells p).1] at hfin
        rw [hchar p hpN, hcase, (hgm_cells p).2.1]
        exact hA.fin_prev p hp0 hps hfin
      · rw [hchar p hpN, hcell]
        exact Option.some_ne_none u
    · rw [hframe p hpN, (hgm_cells p).1] at hfin
      rw [hframe p hpN, (hgm_cells p).2.1]
      exact hA.fin_prev p hp0 hps hfin
  · -- s_disc
    rcases hA.s_disc with hsO | hsC
    · rcases (hmemO s).mp hsO with rfl | hsrest
      · exact Or.inr huC'
      · exact Or.inl ((hO'mem s).mpr (Or.inl hsrest))
    · exact Or.inr (List.mem_append_left _ hsC)
  · -- e_nc
    intro hcon
    rcases List.mem_append.mp hcon with h | h
    · exact hA.e_nc h
    · rcases List.mem_singleton.mp h with h2
      exact hne h2.symm
  · -- count
    have hcount := hA.count
    have hlenC' : C'.length = C.length + 1 := by
      rw [hCxdef, List.length_append, List.length_singleton]
    by_cases hus : u = s
    · have hnexpl : ¬((g.cells u).isStart = false ∧ (g.cells u).isEnd = false) := by
        intro hcontra
        rw [(hstart u hug).mpr hus] at hcontra
        exact absurd hcontra.1 (by simp)
      rw [if_neg hnexpl]
      have hsC : s ∉ C := hus ▸ huC
      have hsC' : s ∈ C' := hus ▸ huC'
      rw [if_pos hsC']
      rw [if_neg hsC] at hcount
      omega
    · have hexpl : (g.cells u).isStart = false ∧ (g.cells u).isEnd = false := by
        constructor
        · rcases Bool.eq_false_or_eq_true (g.cells u).isStart with h | h
          · exact absurd ((hstart u hug).mp h) hus
          · exact h
        · rcases Bool.eq_false_or_eq_true (g.cells u).isEnd with h | h
          · exact absurd ((hend u hug).mp h) hne
          · exact h
      rw [if_pos hexpl]
      by_cases hsC : s ∈ C
      · have hsC' : s ∈ C' := List.mem_append_left _ hsC
        rw [if_pos hsC']
        rw [if_pos hsC] at hcount
        omega
      · have hsC' : s ∉ C' := by
          intro h
          rcases List.mem_append.mp h with h | h
          · exact hsC h
          · rcases List.mem_singleton.mp h with h2
            exact hus h2.symm
        rw [if_neg hsC']
        rw [if_neg hsC] at hcount
        omega

/-- When the open set empties, End is unreachable and the closed cells are
exactly the reachable set. -/
theorem ainv_exhaust {g0 : Grid} {s e : Pos} {g : Grid} {C : List Pos} {x : Nat}
    (hwf : g0.WF s e) (hA : AInv g0 s e g [] C x) :
    ¬ g0.ReachableFrom s e ∧ x + 1 = (reachClosure g0 s).length := by
  have hwfg : g.WF s e := hA.awf hwf
  have hsg : s ∈ g.allPositions :=
    (Grid.mem_allPositions g s).mpr ⟨hwfg.2.2.1, hwfg.2.2.2.1⟩
  have hap : g.allPositions = g0.allPositions := hA.aapos_eq
  have hB : ∀ q, g0.ReachableFrom s q → q ∈ C := by
    intro q hreach
    have hreachg : g.ReachableFrom s q := (hA.static.reachable_iff s q).mpr hreach
    obtain ⟨l, hpath⟩ := hreachg.exists_isPath
    have hql : q ∈ l := List.mem_of_mem_getLast? (by rw [hpath.2.1]; rfl)
    rcases hA.afrontier_cases hwf q l hpath with hall | ⟨y, _, _, hyO, _⟩
    · exact hall q hql
    · exact absurd hyO (List.not_mem_nil y)
  have hApop : ∀ q ∈ C, g0.ReachableFrom s q := by
    intro q hq
    obtain ⟨l, _, hpath, _, _⟩ := ainv_reconstruct hwf hA q (hA.cmem q hq) (hA.closed_fin q hq).1
    exact (hA.static.reachable_iff s q).mp hpath.reachable
  constructor
  · intro hreach
    exact hA.e_nc (hB e hreach)
  · have hsC : s ∈ C := hB s Relation.ReflTransGen.refl
    have hcount := hA.count
    rw [if_pos hsC] at hcount
    have hsb : s.1 < g0.rows ∧ s.2 < g0.cols := by
      rw [← hA.static.1.1, ← hA.static.1.2.1]
      exact (Grid.mem_allPositions g s).mp hsg
    have hrc : (reachClosure g0 s).Nodup :=
      reachIter_nodup g0 (g0.rows * g0.cols) [s] (List.nodup_singleton s)
    have hperm : (reachClosure g0 s).Perm C := by
      rw [List.perm_ext_iff_of_nodup hrc hA.cnd]
      intro q
      rw [mem_reachClosure_iff g0 s q hsb]
      exact ⟨hB q, hApop q⟩
    rw [hperm.length_eq]
    omega

/-- The A* main loop, run from any invariant state with enough fuel: it
never exhausts its fuel; every recorded loop-entry state satisfies the
invariant; if End is reachable the run succeeds with a minimum-cost simple
path; otherwise it fails having explored every reachable cell except
Start. -/
theorem astarLoop_spec (g0 : Grid) (s e : Pos) (hwf : g0.WF s e) :
    ∀ (fuel : Nat) (g : Grid) (O C : List Pos) (x : Nat),
      AInv g0 s e g O C x →
      g0.rows * g0.cols + 1 ≤ fuel + C.length →
      ∃ r, astarLoop e fuel g O C x = some r ∧
        (∀ st ∈ r.states, AInv g0 s e st.g st.openSet st.closedSet st.explored) ∧
        (g0.ReachableFrom s e →
          r.result.success = true ∧ g0.IsPath s e r.result.path ∧
          (∀ l, g0.IsPath s e l → g0.pathCost r.result.path ≤ g0.pathCost l) ∧
          r.result.pathLength = r.result.path.length ∧ r.result.path.Nodup) ∧
        (¬ g0.ReachableFrom s e →
          r.result.success = false ∧ r.result.pathLength = 0 ∧ r.result.path = [] ∧
          r.result.nodesExplored + 1 = (reachClosure g0 s).length) := by
  intro fuel
  induction fuel with
  | zero =>
    intro g O C x hA hfuel
    exfalso
    have hsub : C.Subperm g0.allPositions := hA.cnd.subperm hA.cmem
    have hlen := hsub.length_le
    rw [g0.allPositions_length] at hlen
    omega
  | succ fuel ih =>
    intro g O C x hA hfuel
    cases hsort : List.insertionSort (fLE g) O with
    | nil =>
      have hperm : List.Perm [] O := by
        rw [← hsort]
        exact List.perm_insertionSort (fLE g) O
      have hnil : O = [] := List.perm_nil.mp hperm.symm
      subst hnil
      obtain ⟨hnreach, hcnt⟩ := ainv_exhaust hwf hA
      refine ⟨⟨⟨false, x, 0, []⟩, g, [], [⟨g, [], C, x⟩]⟩, ?_, ?_, ?_, ?_⟩
      · unfold astarLoop
        rw [hsort]
      · intro st hst
        rcases List.mem_singleton.mp hst with rfl
        exact hA
      · intro hreach
        exact absurd hreach hnreach
      · intro _
        exact ⟨rfl, rfl, rfl, hcnt⟩
    | cons u rest =>
      have hperm : (u :: rest).Perm O := by
        rw [← hsort]
        exact List.perm_insertionSort (fLE g) O
      have huO : u ∈ O := hperm.subset (List.mem_cons_self u rest)
      have hu0 : u ∈ g0.allPositions := hA.omem u huO
      have hgufin : (g.cells u).gScore ≠ ⊤ := (hA.open_fin u huO).1
      by_cases hue : u = e
      · -- success exit
        have hpopt := ainv_pop_opt hwf hA hsort
        obtain ⟨l, hlrec, hlpath, hlcost, hlnd⟩ := ainv_reconstruct hwf hA u hu0 hgufin
        have hrecgm :
            (if (g.cells u).isStart = false ∧ (g.cells u).isEnd = false then
              g.setCell u ((g.cells u).markAsExplored) else g).reconstructPath u = l := by
          rw [← hlrec]
          split_ifs
          · exact reconstructPath_congr (g.setCell u ((g.cells u).markAsExplored)) g rfl rfl
              (fun p => (markAsExplored_cells g u p).2.1) u
          · rfl
        have hoptu : ∀ l2, g.IsPath s u l2 →
            ((g.pathCost l : Nat) : WithTop Nat) ≤ ((g.pathCost l2 : Nat) : WithTop Nat) := by
          intro l2 hl2
          rw [hlcost]
          exact hpopt l2 hl2
        refine ⟨⟨⟨true,
            (if (g.cells u).isStart = false ∧ (g.cells u).isEnd = false then x + 1 else x),
            ((if (g.cells u).isStart = false ∧ (g.cells u).isEnd = false then
              g.setCell u ((g.cells u).markAsExplored) else g).reconstructPath u).length,
            (if (g.cells u).isStart = false ∧ (g.cells u).isEnd = false then
              g.setCell u ((g.cells u).markAsExplored) else g).reconstructPath u⟩,
            (if (g.cells u).isStart = false ∧ (g.cells u).isEnd = false then
              g.setCell u ((g.cells u).markAsExplored) else g),
            [u], [⟨g, O, C, x⟩]⟩, ?_, ?_, ?_, ?_⟩
        · unfold astarLoop
          rw [hsort]
          dsimp only
          rw [if_pos hue]
        · intro st hst
          rcases List.mem_singleton.mp hst with rfl
          exact hA
        · intro _
          refine ⟨rfl, ?_, ?_, rfl, ?_⟩
          · show g0.IsPath s e _
            dsimp only
            rw [hrecgm, ← hue]
            exact (hA.static.isPath_iff s u l).mp hlpath
          · intro l2 hl2
            show g0.pathCost _ ≤ g0.pathCost l2
            dsimp only
            rw [hrecgm]
            have hl2g : g.IsPath s u l2 := by
              rw [hue]
              exact (hA.static.isPath_iff s e l2).mpr hl2
            have := hoptu l2 hl2g
            rw [Nat.cast_withTop, Nat.cast_withTop] at this
            have hle : g.pathCost l ≤ g.pathCost l2 := WithTop.coe_le_coe.mp this
            rw [← hA.static.pathCost_eq l, ← hA.static.pathCost_eq l2]
            exact hle
          · show List.Nodup _
            dsimp only
            rw [hrecgm]
            exact hlnd
        · intro hnreach
          exfalso
          apply hnreach
          have : g.ReachableFrom s u := hlpath.reachable
          rw [hue] at this
          exact (hA.static.reachable_iff s e).mp this
      · -- recurse
        have hA' := ainv_step hwf hA hsort hue
        have hfuel' : g0.rows * g0.cols + 1 ≤ fuel + (C ++ [u]).length := by
          rw [List.length_append, List.length_singleton]
          omega
        obtain ⟨r, hr, hrstates, hrreach, hrunreach⟩ := ih
          ((astarRelax
            (if (g.cells u).isStart = false ∧ (g.cells u).isEnd = false then
              g.setCell u ((g.cells u).markAsExplored) else g)
            e u rest (C ++ [u])).1)
          ((astarRelax
            (if (g.cells u).isStart = false ∧ (g.cells u).isEnd = false then
              g.setCell u ((g.cells u).markAsExplored) else g)
            e u rest (C ++ [u])).2)
          (C ++ [u])
          (if (g.cells u).isStart = false ∧ (g.cells u).isEnd = false then x + 1 else x)
          hA' hfuel'
        refine ⟨⟨r.result, r.g, u :: r.popped, ⟨g, O, C, x⟩ :: r.states⟩, ?_, ?_, hrreach, hrunreach⟩
        · unfold astarLoop
          rw [hsort]
          dsimp only
          rw [if_neg hue, hr]
        · intro st hst
          rcases List.mem_cons.mp hst with rfl | hst2
          · exact hA
          · exact hrstates st hst2

theorem astarInit_staticEq (g : Grid) (s e : Pos) :
    (g.resetAlgorithmStates.setCell s
      { g.resetAlgorithmStates.cells s with
          gScore := ((0 : Nat) : WithTop Nat),
          fScore := ((calculateHeuristic (g.resetAlgorithmStates.cells s)
            (g.resetAlgorithmStates.cells e) : Nat) : WithTop Nat) }).StaticEq g := by
  refine (Grid.StaticEq.comp ?_ (resetAlgorithmStates_staticEq g))
  refine ⟨⟨rfl, rfl, rfl, rfl⟩, fun p => ?_⟩
  by_cases hp : p = s
  · subst hp
    rw [Grid.setCell_cells_self]
    exact ⟨rfl, rfl, rfl, rfl, rfl, rfl⟩
  · rw [Grid.setCell_cells_other _ s p _ hp]
    exact ⟨rfl, rfl, rfl, rfl, rfl, rfl⟩

/-- The invariant holds on entry to the A* main loop. -/
theorem ainv_init (g : Grid) (s e : Pos) (hwf : g.WF s e) :
    AInv (g.resetAlgorithmStates.setCell s
        { g.resetAlgorithmStates.cells s with
            gScore := ((0 : Nat) : WithTop Nat),
            fScore := ((calculateHeuristic (g.resetAlgorithmStates.cells s)
              (g.resetAlgorithmStates.cells e) : Nat) : WithTop Nat) }) s e
      (g.resetAlgorithmStates.setCell s
        { g.resetAlgorithmStates.cells s with
            gScore := ((0 : Nat) : WithTop Nat),
            fScore := ((calculateHeuristic (g.resetAlgorithmStates.cells s)
              (g.resetAlgorithmStates.cells e) : Nat) : WithTop Nat) })
      [s] [] 0 := by
  set g1 := g.resetAlgorithmStates with hg1
  set gI := g1.setCell s
    { g1.cells s with
        gScore := ((0 : Nat) : WithTop Nat),
        fScore := ((calculateHeuristic (g1.cells s) (g1.cells e) : Nat) : WithTop Nat) }
    with hgI
  have hstI : gI.StaticEq g := astarInit_staticEq g s e
  have hwfI : gI.WF s e := (hstI.wf_iff s e).mpr hwf
  have hsb : s.1 < g.rows ∧ s.2 < g.cols := ⟨hwf.2.2.1, hwf.2.2.2.1⟩
  have heb : e.1 < g.rows ∧ e.2 < g.cols := ⟨hwf.2.2.2.2.1, hwf.2.2.2.2.2.1⟩
  have hcells1 : ∀ p : Pos, p.1 < g.rows ∧ p.2 < g.cols → g1.cells p = (g.cells p).reset :=
    fun p hb => resetAlgorithmStates_cells_inb g p hb
  have hsmem : s ∈ gI.allPositions := (Grid.mem_allPositions gI s).mpr hsb
  have hemem : e ∈ gI.allPositions := (Grid.mem_allPositions gI e).mpr heb
  have hprevnone : ∀ p ∈ gI.allPositions, (gI.cells p).previousNode = none := by
    intro p hp
    have hb : p.1 < g.rows ∧ p.2 < g.cols := (Grid.mem_allPositions gI p).mp hp
    by_cases hps : p = s
    · subst hps
      rw [hgI, Grid.setCell_cells_self]
      show (g1.cells p).previousNode = none
      rw [hcells1 p hb]
      rfl
    · rw [hgI, Grid.setCell_cells_other _ s p _ hps, hcells1 p hb]
      rfl
  have hgtop : ∀ p ∈ gI.allPositions, p ≠ s → (gI.cells p).gScore = ⊤ := by
    intro p hp hps
    have hb : p.1 < g.rows ∧ p.2 < g.cols := (Grid.mem_allPositions gI p).mp hp
    rw [hgI, Grid.setCell_cells_other _ s p _ hps, hcells1 p hb]
    rfl
  have hgs : (gI.cells s).gScore = 0 := by
    rw [hgI, Grid.setCell_cells_self]
    show ((0 : Nat) : WithTop Nat) = 0
    exact Nat.cast_zero
  have hgsfin : (gI.cells s).gScore ≠ ⊤ := by
    rw [hgs]
    exact (by simp : (0 : WithTop Nat) ≠ ⊤)
  refine ⟨Grid.staticEq_refl gI, ?_, ?_, List.nodup_singleton s, List.nodup_nil,
    ?_, ?_, ?_, ?_, ?_, ?_, ?_, hgs, hprevnone s hsmem, ?_, ?_, ?_, ?_, ?_⟩
  · intro p hp
    rcases List.mem_singleton.mp hp with rfl
    exact hsmem
  · intro p hp
    cases hp
  · intro p hp
    exact List.not_mem_nil p
  · intro p hp
    rcases List.mem_singleton.mp hp with rfl
    exact ⟨hgsfin, hwfI.2.2.2.2.2.2.2.1⟩
  · intro p hp
    cases hp
  · intro p hp0 hpO _
    have hps : p ≠ s := fun h => hpO (h ▸ List.mem_singleton.mpr rfl)
    exact hgtop p hp0 hps
  · intro p hp0 hfin
    by_cases hps : p = s
    · subst hps
      have hf : (gI.cells p).fScore =
          ((calculateHeuristic (g1.cells p) (g1.cells e) : Nat) : WithTop Nat) := by
        rw [hgI, Grid.setCell_cells_self]
      have hb : p.1 < g.rows ∧ p.2 < g.cols := (Grid.mem_allPositions gI p).mp hp0
      -- compute the heuristic as a Manhattan distance on positions
      have hh : calculateHeuristic (g1.cells p) (g1.cells e) = manhattanNat p e := by
        have h1 : g1.cells p = (g.cells p).reset := hcells1 p hb
        have h2 : g1.cells e = (g.cells e).reset := hcells1 e heb
        rw [h1, h2]
        show calculateHeuristic (g.cells p).reset (g.cells e).reset = manhattanNat p e
        unfold calculateHeuristic Node.manhattanDistanceTo Node.reset manhattanNat
        have hrc := hwf.2.2.2.2.2.2.2.2.2.1
        have hpg : p ∈ g.allPositions := (Grid.mem_allPositions g p).mpr hb
        have heg : e ∈ g.allPositions := (Grid.mem_allPositions g e).mpr heb
        rw [(hrc p hpg).1, (hrc p hpg).2, (hrc e heg).1, (hrc e heg).2]
      rw [hf, hh, hgs]
      rw [zero_add]
    · exact absurd (hgtop p hp0 hps) hfin
  · intro p hp
    cases hp
  · intro p hp
    cases hp
  · intro p hp0 y hy
    rw [hprevnone p hp0] at hy
    cases hy
  · intro p hp0 hps hfin
    exact absurd (hgtop p hp0 hps) hfin
  · exact Or.inl (List.mem_singleton.mpr rfl)
  · exact List.not_mem_nil e
  · rfl

/-- `AStarAlgorithm.findPath` on a well-formed grid: the run always
completes (the fuel suffices); success with a minimum-cost simple path
exactly when End is reachable; on failure every reachable cell except
Start has been explored; and in every loop-entry state the `previousNode`
chains reconstruct simple walks from Start. -/
theorem astar_findPath_spec (g : Grid) (s e : Pos) (hwf : g.WF s e) :
    ∃ r : ARun, AStarAlgorithm.findPathRun g = some r ∧
      (g.ReachableFrom s e →
        r.result.success = true ∧ g.IsPath s e r.result.path ∧
        (∀ l, g.IsPath s e l → g.pathCost r.result.path ≤ g.pathCost l) ∧
        r.result.pathLength = r.result.path.length ∧ r.result.path.Nodup) ∧
      (¬ g.ReachableFrom s e →
        r.result.success = false ∧ r.result.pathLength = 0 ∧
        r.result.nodesExplored + 1 = (reachClosure g s).length) ∧
      (∀ st ∈ r.states, ∀ p ∈ st.g.allPositions, (st.g.cells p).gScore ≠ ⊤ →
        ∃ l, st.g.reconstructPath p = l ∧ st.g.IsPath s p l ∧ l.Nodup) := by
  have hstI := astarInit_staticEq g s e
  have hwfI := (hstI.wf_iff s e).mpr hwf
  have hA0 := ainv_init g s e hwf
  set gI := g.resetAlgorithmStates.setCell s
    { g.resetAlgorithmStates.cells s with
        gScore := ((0 : Nat) : WithTop Nat),
        fScore := ((calculateHeuristic (g.resetAlgorithmStates.cells s)
          (g.resetAlgorithmStates.cells e) : Nat) : WithTop Nat) } with hgIdef
  have hrun : AStarAlgorithm.findPathRun g =
      astarLoop e (gI.rows * gI.cols + 1) gI [s] [] 0 := by
    have h1 : g.resetAlgorithmStates.startNode = some s := hwf.1
    have h2 : g.resetAlgorithmStates.endNode = some e := hwf.2.1
    simp only [AStarAlgorithm.findPathRun, h1, h2]
  obtain ⟨r, hr, hstates, hreach, hunreach⟩ :=
    astarLoop_spec gI s e hwfI (gI.rows * gI.cols + 1) gI [s] [] 0 hA0 (by simp)
  have hreachiff := hstI.reachable_iff s e
  have hclos := hstI.reachClosure_eq s
  refine ⟨r, by rw [hrun]; exact hr, ?_, ?_, ?_⟩
  · intro hrch
    obtain ⟨hs, hp, ho, hl, hnd⟩ := hreach (hreachiff.mpr hrch)
    refine ⟨hs, (hstI.isPath_iff s e _).symm.mpr hp, ?_, hl, hnd⟩
    intro l2 hl2
    have := ho l2 ((hstI.isPath_iff s e l2).mpr hl2)
    rw [hstI.pathCost_eq, hstI.pathCost_eq l2] at this
    exact this
  · intro hnr
    obtain ⟨h1, h2, _, h4⟩ := hunreach (fun hc => hnr (hreachiff.mp hc))
    rw [hclos] at h4
    exact ⟨h1, h2, h4⟩
  · intro st hst p hp hfin
    have hAst := hstates st hst
    have hap : st.g.allPositions = _ := hAst.aapos_eq
    obtain ⟨l, hlrec, hlpath, _, hlnd⟩ :=
      ainv_reconstruct hwfI hAst p (by rw [← hap]; exact hp) hfin
    exact ⟨l, hlrec, hlpath, hlnd⟩

/-!
## C2 amended, C3, C8
-/

/-- C2 amended: on every well-formed grid whose End is reachable from Start
over non-wall cells, Dijkstra's `findPath` and A*'s `findPath` both run to
completion successfully, each reported `pathLength` counts the cells of the
reconstructed path, and each reconstructed path is a minimum-cost walk from
Start to End — hence the two paths have equal total movement cost, though
(as `dijkstra_astar_pathLength_differ` shows) not necessarily equal cell
counts. -/
theorem dijkstra_astar_both_optimal (g : Grid) (s e : Pos)
    (hwf : g.WF s e) (hreach : g.ReachableFrom s e) :
    (DijkstraAlgorithm.findPath g).success = true ∧
    g.IsPath s e (DijkstraAlgorithm.findPath g).path ∧
    (∀ l, g.IsPath s e l →
      g.pathCost (DijkstraAlgorithm.findPath g).path ≤ g.pathCost l) ∧
    (DijkstraAlgorithm.findPath g).pathLength =
      (DijkstraAlgorithm.findPath g).path.length ∧
    ∃ res, AStarAlgorithm.findPath g = some res ∧
      res.success = true ∧ g.IsPath s e res.path ∧
      (∀ l, g.IsPath s e l → g.pathCost res.path ≤ g.pathCost l) ∧
      res.pathLength = res.path.length ∧
      g.pathCost res.path = g.pathCost (DijkstraAlgorithm.findPath g).path := by
  obtain ⟨hd, _, _⟩ := dijkstra_findPath_spec g s e hwf
  obtain ⟨hds, hdp, hdo, hdl, _⟩ := hd hreach
  obtain ⟨r, hr, ha, _, _⟩ := astar_findPath_spec g s e hwf
  obtain ⟨has, hap, hao, hal, _⟩ := ha hreach
  refine ⟨hds, hdp, hdo, hdl, r.result, ?_, has, hap, hao, hal, ?_⟩
  · unfold AStarAlgorithm.findPath
    rw [hr]
    rfl
  · exact le_antisymm (hao _ hdp) (hdo _ hap)

theorem dijkstra_astar_both_optimal_witness :
    (DijkstraAlgorithm.findPath (Grid.create 2 2)).success = true ∧
    ∃ res, AStarAlgorithm.findPath (Grid.create 2 2) = some res ∧
      res.success = true ∧
      (Grid.create 2 2).pathCost res.path =
        (Grid.create 2 2).pathCost (DijkstraAlgorithm.findPath (Grid.create 2 2)).path := by
  obtain ⟨h1, _, _, _, res, h5, h6, _, _, _, h10⟩ :=
    dijkstra_astar_both_optimal (Grid.create 2 2) (0, 0) (1, 1) (by decide)
      ((mem_reachClosure_iff (Grid.create 2 2) (0, 0) (1, 1) (by decide)).mp (by decide))
  exact ⟨h1, res, h5, h6, h10⟩

/-- C3 counterexample: on the 2 × 2 grid whose End `(1,1)` is walled off,
both searches fail with zero cells explored, yet exactly one non-wall cell
(Start itself) is reachable from Start — `nodesExplored` is one less than
the reachable count, because Start is never counted. -/
theorem enclosed_explored_counterexample :
    ¬ gridEnclosed.ReachableFrom (0, 0) (1, 1) ∧
    (reachClosure gridEnclosed (0, 0)).length = 1 ∧
    (DijkstraAlgorithm.findPath gridEnclosed).success = false ∧
    (DijkstraAlgorithm.findPath gridEnclosed).nodesExplored = 0 ∧
    (AStarAlgorithm.findPath gridEnclosed).map SearchResult.success = some false ∧
    (AStarAlgorithm.findPath gridEnclosed).map SearchResult.nodesExplored = some 0 :=
  ⟨fun h => absurd ((mem_reachClosure_iff gridEnclosed (0, 0) (1, 1) (by decide)).mpr h)
      (by decide),
   by decide, by decide, by decide, by decide, by decide⟩

/-- C3 amended: on every well-formed grid whose End is *not* reachable from
Start, both searches terminate in exhaustion with `success = false` and
`pathLength = 0`, and each reports `nodesExplored` equal to the number of
non-wall cells reachable from Start *excluding Start itself* (the popped
Start cell is exempt from the explored count). -/
theorem exhausted_explored_count (g : Grid) (s e : Pos) (hwf : g.WF s e)
    (hnreach : ¬ g.ReachableFrom s e) :
    (DijkstraAlgorithm.findPath g).success = false ∧
    (DijkstraAlgorithm.findPath g).pathLength = 0 ∧
    (DijkstraAlgorithm.findPath g).nodesExplored + 1 = (reachClosure g s).length ∧
    ∃ res, AStarAlgorithm.findPath g = some res ∧
      res.success = false ∧ res.pathLength = 0 ∧
      res.nodesExplored + 1 = (reachClosure g s).length := by
  obtain ⟨_, hd, _⟩ := dijkstra_findPath_spec g s e hwf
  obtain ⟨hd1, hd2, hd3⟩ := hd hnreach
  obtain ⟨r, hr, _, ha, _⟩ := astar_findPath_spec g s e hwf
  obtain ⟨ha1, ha2, ha3⟩ := ha hnreach
  refine ⟨hd1, hd2, hd3, r.result, ?_, ha1, ha2, ha3⟩
  unfold AStarAlgorithm.findPath
  rw [hr]
  rfl

theorem exhausted_explored_count_witness :
    (DijkstraAlgorithm.findPath gridEnclosed).success = false ∧
    (DijkstraAlgorithm.findPath gridEnclosed).nodesExplored + 1 =
      (reachClosure gridEnclosed (0, 0)).length ∧
    ∃ res, AStarAlgorithm.findPath gridEnclosed = some res ∧
      res.nodesExplored + 1 = (reachClosure gridEnclosed (0, 0)).length := by
  obtain ⟨h1, _, h3, res, h5, _, _, h8⟩ :=
    exhausted_explored_count gridEnclosed (0, 0) (1, 1) (by decide)
      (fun h => absurd ((mem_reachClosure_iff gridEnclosed (0, 0) (1, 1) (by decide)).mpr h)
        (by decide))
  exact ⟨h1, h3, res, h5, h8⟩

/-- C8: in both searches on a well-formed grid, every recorded loop-entry
state has acyclic predecessor chains: from any in-bounds cell whose
recorded cost is finite, following `previousNode` links reconstructs a walk
from Start to that cell that never revisits a cell; in particular path
reconstruction from End terminates at Start. -/
theorem prev_chains_acyclic (g : Grid) (s e : Pos) (hwf : g.WF s e) :
    (∀ st ∈ (DijkstraAlgorithm.findPathRun g).states,
      ∀ p ∈ st.g.allPositions, (st.g.cells p).distance ≠ ⊤ →
        ∃ l, st.g.reconstructPath p = l ∧ st.g.IsPath s p l ∧ l.Nodup) ∧
    (∀ r, AStarAlgorithm.findPathRun g = some r →
      ∀ st ∈ r.states,
        ∀ p ∈ st.g.allPositions, (st.g.cells p).gScore ≠ ⊤ →
          ∃ l, st.g.reconstructPath p = l ∧ st.g.IsPath s p l ∧ l.Nodup) := by
  refine ⟨(dijkstra_findPath_spec g s e hwf).2.2, ?_⟩
  intro r hr
  obtain ⟨r2, hr2, _, _, hstates⟩ := astar_findPath_spec g s e hwf
  rw [hr] at hr2
  injection hr2 with hr2
  rw [hr2]
  exact hstates

theorem prev_chains_acyclic_witness :
    (∀ st ∈ (DijkstraAlgorithm.findPathRun (Grid.create 2 2)).states,
      ∀ p ∈ st.g.allPositions, (st.g.cells p).distance ≠ ⊤ →
        ∃ l, st.g.reconstructPath p = l ∧ st.g.IsPath (0, 0) p l ∧ l.Nodup) ∧
    (∀ r, AStarAlgorithm.findPathRun (Grid.create 2 2) = some r →
      ∀ st ∈ r.states,
        ∀ p ∈ st.g.allPositions, (st.g.cells p).gScore ≠ ⊤ →
          ∃ l, st.g.reconstructPath p = l ∧ st.g.IsPath (0, 0) p l ∧ l.Nodup) :=
  prev_chains_acyclic (Grid.create 2 2) (0, 0) (1, 1) (by decide)

/-!
## C2 counterexample: equal-cost searches can report different pathLengths
-/

set_option maxRecDepth 100000 in
/-- C2 counterexample: on `gridC2` the End is reachable from Start, both
searches run to completion successfully, but Dijkstra reports
`pathLength = 10` while A* reports `pathLength = 12` (two minimum-cost
paths of cost 18 with different cell counts). -/
theorem dijkstra_astar_pathLength_differ :
    gridC2.ReachableFrom (0, 1) (4, 4) ∧
    (DijkstraAlgorithm.findPath gridC2).success = true ∧
    (AStarAlgorithm.findPath gridC2).map SearchResult.success = some true ∧
    (DijkstraAlgorithm.findPath gridC2).pathLength = 10 ∧
    (AStarAlgorithm.findPath gridC2).map SearchResult.pathLength = some 12 :=
  ⟨(mem_reachClosure_iff gridC2 (0, 1) (4, 4) (by decide)).mp (by decide),
   by decide, by decide, by decide, by decide⟩
